import Mathlib

/-!
Formal model of the exoTM/STMCAS artifact (ownership-record timestamp engine,
redo log, timestamp SMR, hybrid continuation, doubly-linked ordered map).

Each definition is a shallow embedding of the corresponding C++ entity:

* `ExoTM` models `src/artifact/policies/exoTM/exotm.h` (`exotm_t`, `orec_t`).
  Machine words (`uint64_t` / `uintptr_t`) are modelled as `Nat` with explicit
  `% 2 ^ 64` where overflow matters.  The shared orecs live in a `List orec_t`
  addressed by position (pointers become indices).  Clock reads (`rdtsc`) are
  passed as explicit parameters.  A `compare_exchange_strong` is modelled by
  passing the value returned by the earlier relaxed load as a parameter
  `loaded`; the CAS succeeds exactly when the orec still holds `loaded`
  (sequentially, `loaded` is the orec's current value).
-/

namespace ExoTM

/-- MSB lock bit for orecs: `1ULL << 63`. -/
def LOCK_BIT : Nat := 2 ^ 63

/-- `ULLONG_MAX`, the `END_OF_TIME` sentinel. -/
def END_OF_TIME : Nat := 2 ^ 64 - 1

/-- The ownership record: current word and the owner-saved previous word. -/
structure orec_t where
  curr : Nat
  prev : Nat
deriving DecidableEq

/-- Default orec (constructed as unheld with version 0). -/
def orec0 : orec_t := { curr := 0, prev := 0 }

/-- How a policy wants orecs released during an unwind. -/
inductive UNWIND_TYPES where
  | ROLLBACK_ORECS
  | BUMP_ORECS
deriving DecidableEq

/-- Per-thread exoTM context (`exotm_t`'s fields).  `locks` holds indices into
the shared orec store. -/
structure exotm_t where
  start_time : Nat
  locks : List Nat
  my_lock : Nat
  last_wo_end_time : Nat
  unwound : Bool
deriving DecidableEq

/-- A thread context together with the shared orec store it acts on.  In the
C++ code orecs live inside objects; here they are gathered in one list so that
engine operations can be written as state transformers. -/
structure EngineState where
  exo : exotm_t
  orecs : List orec_t
deriving DecidableEq

/-- Read the orec at index `i` (out-of-range reads return the default orec). -/
def oget (os : List orec_t) (i : Nat) : orec_t := os.getD i orec0

/-- `ro_begin`: publish the clock reading `t` as the start time. -/
def ro_begin (t : Nat) (s : EngineState) : EngineState :=
  { s with exo := { s.exo with start_time := t } }

/-- `ro_end`: store `END_OF_TIME` to the start time. -/
def ro_end (s : EngineState) : EngineState :=
  { s with exo := { s.exo with start_time := END_OF_TIME } }

/-- `wo_begin`: publish the clock reading `t` and clear `unwound`. -/
def wo_begin (t : Nat) (s : EngineState) : EngineState :=
  { s with exo := { s.exo with start_time := t, unwound := false } }

/-- `check_orec`: return the observed orec value when it is at most
`start_time` or equals the caller's lock word, else `END_OF_TIME`. -/
def check_orec (s : EngineState) (oid : Nat) : Nat :=
  let res := (oget s.orecs oid).curr
  if res ≤ s.exo.start_time ∨ res = s.exo.my_lock then res else END_OF_TIME

/-- `check_continuation`: the orec's value is still at most `val`. -/
def check_continuation (s : EngineState) (oid : Nat) (val : Nat) : Bool :=
  decide ((oget s.orecs oid).curr ≤ val)

/-- `acquire_consistent`.  `loaded` is the value returned by the initial
relaxed load of `orec->curr` (sequentially equal to the orec's current value);
the CAS succeeds exactly when the orec still holds `loaded`. -/
def acquire_consistent (s : EngineState) (oid : Nat) (loaded : Nat) :
    Bool × EngineState :=
  let val := loaded
  if val = s.exo.my_lock then (true, s)
  else if s.exo.start_time < val then (false, s)
  else if (oget s.orecs oid).curr = val then
    (true,
      { exo := { s.exo with locks := s.exo.locks ++ [oid] },
        orecs := s.orecs.set oid { curr := s.exo.my_lock, prev := val } })
  else (false, s)

/-- `acquire_continuation`: like `acquire_consistent`, but the upper bound is
the caller-supplied `val` rather than `start_time`. -/
def acquire_continuation (s : EngineState) (oid : Nat) (val : Nat)
    (loaded : Nat) : Bool × EngineState :=
  let orec_val := loaded
  if val < orec_val then (decide (orec_val = s.exo.my_lock), s)
  else if (oget s.orecs oid).curr = orec_val then
    (true,
      { exo := { s.exo with locks := s.exo.locks ++ [oid] },
        orecs := s.orecs.set oid { curr := s.exo.my_lock, prev := orec_val } })
  else (false, s)

/-- `acquire_aggressive`: acquire without comparing to `start_time`; only the
lock bit of the loaded value is examined. -/
def acquire_aggressive (s : EngineState) (oid : Nat) (loaded : Nat) :
    Bool × EngineState :=
  if loaded.testBit 63 then (decide (loaded = s.exo.my_lock), s)
  else if (oget s.orecs oid).curr = loaded then
    (true,
      { exo := { s.exo with locks := s.exo.locks ++ [oid] },
        orecs := s.orecs.set oid { curr := s.exo.my_lock, prev := loaded } })
  else (false, s)

/-- `wo_end`, with the clock reading `t` passed explicitly.  If `unwound` is
set it only clears the flag; otherwise it stores `END_OF_TIME` to the start
time, records `t` in `last_wo_end_time`, stores `t` to every held orec, and
clears the lock list. -/
def wo_end (t : Nat) (s : EngineState) : EngineState :=
  if s.exo.unwound then { s with exo := { s.exo with unwound := false } }
  else
    { exo := { s.exo with start_time := END_OF_TIME, last_wo_end_time := t,
                          locks := [] },
      orecs := s.exo.locks.foldl
        (fun os oid => os.set oid { oget os oid with curr := t }) s.orecs }

/-- `unwind(how)`: set `unwound`, store `END_OF_TIME` to the start time,
restore every held orec to `prev` (rollback) or `prev + 1` (bump, modulo the
64-bit word), and clear the lock list. -/
def unwind (how : UNWIND_TYPES) (s : EngineState) : EngineState :=
  { exo := { s.exo with unwound := true, start_time := END_OF_TIME,
                        locks := [] },
    orecs := s.exo.locks.foldl
      (fun os oid =>
        os.set oid
          { oget os oid with
            curr :=
              if how = UNWIND_TYPES.ROLLBACK_ORECS then (oget os oid).prev
              else ((oget os oid).prev + 1) % 2 ^ 64 }) s.orecs }

/-- All exoTM operations, with clock readings and racy loads as explicit
parameters, for stating which operations can change an orec. -/
inductive EngineOp where
  | roBeginOp (t : Nat)
  | roEndOp
  | woBeginOp (t : Nat)
  | woEndOp (t : Nat)
  | unwindOp (how : UNWIND_TYPES)
  | acqConsistent (oid loaded : Nat)
  | acqContinuation (oid val loaded : Nat)
  | acqAggressive (oid loaded : Nat)
deriving DecidableEq

/-- Step function applying one engine operation to the state. -/
def step : EngineOp → EngineState → EngineState
  | .roBeginOp t, s => ro_begin t s
  | .roEndOp, s => ro_end s
  | .woBeginOp t, s => wo_begin t s
  | .woEndOp t, s => wo_end t s
  | .unwindOp how, s => unwind how s
  | .acqConsistent oid loaded, s => (acquire_consistent s oid loaded).2
  | .acqContinuation oid val loaded, s =>
      (acquire_continuation s oid val loaded).2
  | .acqAggressive oid loaded, s => (acquire_aggressive s oid loaded).2

/-- Clock readings passed to `wo_end` have the lock bit clear (rdtsc values
stay far below `2 ^ 63`). -/
def clockOk : EngineOp → Bool
  | .woEndOp t => decide (t < 2 ^ 63)
  | _ => true

/-- One step of the release folds: set `curr` of orec `oid` to a value that
depends only on that orec's `prev` (or on nothing at all). -/
def storeCurr (g : orec_t → Nat) (os : List orec_t) (oid : Nat) :
    List orec_t :=
  os.set oid { oget os oid with curr := g (oget os oid) }

end ExoTM

/-! Model of the hybrid policy base (`src/artifact/policies/hybrid/include/
base.h`): the fields of `base_t` needed by the continuation-inheritance
claims, namely the exoTM context with its orec store and the read-set of
orec indices.  `Stm::inheritOrec` in `raii.h` delegates directly to
`base_t::inheritOrec`. -/

namespace Hybrid

open ExoTM

/-- The hybrid `base_t` thread state (the parts the claims mention). -/
structure BaseState where
  eng : EngineState
  readset : List Nat
deriving DecidableEq

/-- `base_t::inheritOrec(obj, val)`: push the object's orec onto the
read-set, then return `check_continuation` of that orec against `val`. -/
def inheritOrec (s : BaseState) (oid : Nat) (val : Nat) : Bool × BaseState :=
  let s' := { s with readset := s.readset ++ [oid] }
  (check_continuation s'.eng oid val, s')

/-- `base_t::validate()`: every orec in the read-set must pass `check_orec`
(the C++ code calls `abort()` at the first failure; `false` means abort). -/
def validate (s : BaseState) : Bool :=
  s.readset.all (fun oid => decide (check_orec s.eng oid ≠ END_OF_TIME))

end Hybrid

/-! Model of the timestamp SMR (`src/artifact/policies/include/
timestamp_smr.h`).  The deque of `(pointer, timestamp)` pairs becomes a list
with the front first; `delete ptr` is recorded in a ghost `destroyed` list;
the ghost counters `sweeps` and `retirements` count calls for cadence
statements.  The published timestamps of all registered threads (this one
included) are passed to `exit`/`sweep` as a list, and clock readings are
explicit parameters. -/

namespace SMR

open ExoTM

/-- `SWEEP_THRESHOLD` (the counter is a C++ `int`). -/
def SWEEP_THRESHOLD : Int := 1024

/-- Per-thread `timestamp_smr_t` state, with ghost fields for destroyed
objects and call counts. -/
structure SmrState where
  ts : Nat
  pending : List Nat
  unreachable : List (Nat × Nat)
  exits_remaining : Int
  destroyed : List Nat
  sweeps : Nat
  retirements : Nat
deriving DecidableEq

/-- A fresh context publishes `ULLONG_MAX` and a full countdown. -/
def smrInit : SmrState :=
  { ts := END_OF_TIME, pending := [], unreachable := [],
    exits_remaining := SWEEP_THRESHOLD, destroyed := [], sweeps := 0,
    retirements := 0 }

/-- `enter()`: publish the clock reading. -/
def enter (time : Nat) (s : SmrState) : SmrState := { s with ts := time }

/-- `reclaim(ptr)`: append to the pending list. -/
def reclaim (ptr : Nat) (s : SmrState) : SmrState :=
  { s with pending := s.pending ++ [ptr],
           retirements := s.retirements + 1 }

/-- The oldest-running-operation scan in `sweep`. -/
def oldestOf (allts : List Nat) : Nat :=
  allts.foldl (fun acc t => if t < acc then t else acc) END_OF_TIME

/-- The front-of-deque reclamation loop in `sweep`: destroy records until the
first one whose stamp is not older than `oldest`. -/
def sweepLoop (oldest : Nat) : List (Nat × Nat) → List Nat × List (Nat × Nat)
  | [] => ([], [])
  | (ptr, ts) :: rest =>
    if oldest ≤ ts then ([], (ptr, ts) :: rest)
    else
      let res := sweepLoop oldest rest
      (ptr :: res.1, res.2)

/-- `sweep(globals)`: compute the oldest published timestamp, then reclaim
old-enough records from the front of the deque. -/
def sweep (allts : List Nat) (s : SmrState) : SmrState :=
  let oldest := oldestOf allts
  let res := sweepLoop oldest s.unreachable
  { s with unreachable := res.2, destroyed := s.destroyed ++ res.1,
           sweeps := s.sweeps + 1 }

/-- `exit(globals)`, with the `rdtscp` reading `time` explicit: clear the
published timestamp; if there are pendings, stamp them, splice them into the
unreachable deque, and sweep once every `SWEEP_THRESHOLD` such exits. -/
def smrExit (allts : List Nat) (time : Nat) (s : SmrState) : SmrState :=
  let s1 := { s with ts := END_OF_TIME }
  if s1.pending.length = 0 then s1
  else
    let s2 := { s1 with
      unreachable := s1.unreachable ++ s1.pending.map (fun p => (p, time)),
      pending := [],
      exits_remaining := s1.exits_remaining - 1 }
    if 0 < s2.exits_remaining then s2
    else sweep allts { s2 with exits_remaining := SWEEP_THRESHOLD }

/-- One round of the C7 counterexample run: retire two objects, then leave
the operation (flushing both with one countdown tick). -/
def c7round (s : SmrState) : SmrState :=
  smrExit [END_OF_TIME] 5 (reclaim 1 (reclaim 0 s))

/-- Iterate `c7round` from a fresh context. -/
def c7iter : Nat → SmrState
  | 0 => smrInit
  | k + 1 => c7round (c7iter k)

/-- 512 rounds of `c7round` from a fresh context: 1024 retirements. -/
def c7run : SmrState := c7iter 512

end SMR

/-! Model of the redo log (`src/artifact/policies/include/redolog_nocast.h`,
`redolog_nocast_t<32>` as instantiated by the policies).  Addresses and
64-bit words are `Nat`; the chunk payload is a list of byte values; memory is
a function from byte addresses to byte values.  The `int m = vBytes >> bytes`
truncation to a 32-bit int is kept explicitly. -/

namespace RedoLog

/-- The chunk size of the instantiated redo log. -/
def CHUNKSIZE : Nat := 32

/-- `MASK`: the low-bit mask `CHUNKSIZE - 1`. -/
def MASK : Nat := CHUNKSIZE - 1

/-- `SPILL_FACTOR`. -/
def SPILL_FACTOR : Nat := 3

/-- A vector entry: aligned base address, valid-byte bitmask, payload. -/
structure writeback_chunk_t where
  bAddr : Nat
  vBytes : Nat
  data : List Nat
deriving DecidableEq

/-- The store-selection loop of `writeback()` on one chunk: starting from
offset `bytes`, the list of `(offset, width)` pairs of the emitted atomic
stores.  `m` is the 32-bit-truncated shifted mask, exactly as in the source;
`m & 0xFF`, `m & 0xF`, `m & 0x3`, `m & 0x1` become `% 256/16/4/2`. -/
def wbStoresAux (v : Nat) : Nat → Nat → List (Nat × Nat)
  | _, 0 => []
  | bytes, fuel + 1 =>
    if bytes < CHUNKSIZE then
      let m := (v >>> bytes) % 2 ^ 32
      if m % 256 = 255 ∧ bytes % 8 = 0 then
        (bytes, 8) :: wbStoresAux v (bytes + 8) fuel
      else if m % 256 = 0 then wbStoresAux v (bytes + 8) fuel
      else if m % 16 = 15 ∧ bytes % 4 = 0 then
        (bytes, 4) :: wbStoresAux v (bytes + 4) fuel
      else if m % 16 = 0 then wbStoresAux v (bytes + 4) fuel
      else if m % 4 = 3 ∧ bytes % 2 = 0 then
        (bytes, 2) :: wbStoresAux v (bytes + 2) fuel
      else if m % 4 = 0 then wbStoresAux v (bytes + 2) fuel
      else if m % 2 = 1 then (bytes, 1) :: wbStoresAux v (bytes + 1) fuel
      else wbStoresAux v (bytes + 1) fuel
    else []

/-- The stores of `writeback()` on one chunk mask, from offset 0.  The loop
advances `bytes` by at least one per iteration, so `CHUNKSIZE` fuel always
suffices. -/
def wbStores (v : Nat) (bytes : Nat) : List (Nat × Nat) :=
  wbStoresAux v bytes CHUNKSIZE

/-- One emitted atomic store of `width` payload bytes at chunk offset `off`:
memory in `[bAddr + off, bAddr + off + width)` receives the payload bytes. -/
def storeBytes (c : writeback_chunk_t) (off width : Nat) (mem : Nat → Nat) :
    Nat → Nat :=
  fun a =>
    if c.bAddr + off ≤ a ∧ a < c.bAddr + off + width then
      c.data.getD (a - c.bAddr) 0
    else mem a

/-- The effect of `writeback()` on memory for one chunk. -/
def writeback_chunk (c : writeback_chunk_t) (mem : Nat → Nat) : Nat → Nat :=
  (wbStores c.vBytes 0).foldl (fun mem pw => storeBytes c pw.1 pw.2 mem) mem

/-- The effect of `writeback()` on memory: chunks first to last. -/
def writeback (chunks : List writeback_chunk_t) (mem : Nat → Nat) :
    Nat → Nat :=
  chunks.foldl (fun mem c => writeback_chunk c mem) mem

/-- Default chunk (malloc leaves the payload uninitialized; the model gives
fresh chunks a zeroed payload, which no theorem relies on for unwritten
bytes). -/
def chunk0 : writeback_chunk_t := { bAddr := 0, vBytes := 0, data := [] }

/-- Hash index entry (`index_t`): version, aligned chunk address, vector
index.  Version 0 marks a never-used slot. -/
structure index_t where
  vVer : Nat
  cAddr : Nat
  vIdx : Nat
deriving DecidableEq

/-- Default-constructed index entry. -/
def index0 : index_t := { vVer := 0, cAddr := 0, vIdx := 0 }

/-- Read the index entry at slot `i` (out of range gives `index0`). -/
def iget (tbl : List index_t) (i : Nat) : index_t := tbl.getD i index0

/-- The redo log state: hash index `ht = (tbl, len, ver, shift)` and chunk
vector `vec = (chunks, cap)`.  The C++ vector never reads entries past
`vec.count`, so `chunks` holds exactly the first `count` entries and
`vec.count` is `chunks.length`. -/
structure RedoLogState where
  tbl : List index_t
  len : Nat
  ver : Nat
  shift : Nat
  chunks : List writeback_chunk_t
  cap : Nat
deriving DecidableEq

/-- Read the chunk at vector position `j` (out of range gives `chunk0`). -/
def cget (chunks : List writeback_chunk_t) (j : Nat) : writeback_chunk_t :=
  chunks.getD j chunk0

/-- `mix13_hash` (hash.h): xor-shift-multiply finaliser on 64-bit words. -/
def mix13_hash (x0 : Nat) : Nat :=
  let x1 := ((x0 ^^^ (x0 >>> 30)) * 0xbf58476d1ce4e5b9) % 2 ^ 64
  let x2 := ((x1 ^^^ (x1 >>> 27)) * 0x94d049bb133111eb) % 2 ^ 64
  x2 ^^^ (x2 >>> 31)

/-- `hash(key)`: low 32 bits of `mix13_hash`, shifted right by `ht.shift`. -/
def hashOfShift (shift key : Nat) : Nat :=
  (mix13_hash key % 2 ^ 32) >>> shift

/-- `hash(key)` on a redo log state. -/
def hashOf (s : RedoLogState) (key : Nat) : Nat := hashOfShift s.shift key

/-- Result of the linear-probing loop shared by `lookup` and `reserve`:
a valid matching entry, the first never-used slot, or fuel exhaustion
(`out` is never reached from a well-formed state). -/
inductive ProbeRes where
  | found (idx : Nat)
  | freeSlot (slot : Nat)
  | out
deriving DecidableEq

/-- The linear-probing loop: while the slot is valid, return its `vIdx` on an
address match, else advance to `(h + 1) % len`; stop at the first invalid
slot. -/
def probe (tbl : List index_t) (len ver key : Nat) : Nat → Nat → ProbeRes
  | _, 0 => .out
  | h, fuel + 1 =>
    let e := iget tbl h
    if e.vVer = ver then
      if e.cAddr = key then .found e.vIdx
      else probe tbl len ver key ((h + 1) % len) fuel
    else .freeSlot h

/-- `lookup(key)`: the vector index of the chunk containing `key`, or none
(the C++ `-1`).  `ht.len` probes always suffice on a well-formed state. -/
def lookup (s : RedoLogState) (key : Nat) : Option Nat :=
  match probe s.tbl s.len s.ver key (hashOf s key) s.len with
  | .found i => some i
  | _ => none

/-- The probing loop of `rebuild`: find the first never-used slot for
`bAddr` and fill it with `(ver, bAddr, i)`. -/
def rebuildInsert (ver len : Nat) (tbl : List index_t) (bAddr i : Nat) :
    Nat → Nat → List index_t
  | _, 0 => tbl
  | h, fuel + 1 =>
    if (iget tbl h).vVer = ver then
      rebuildInsert ver len tbl bAddr i ((h + 1) % len) fuel
    else tbl.set h { vVer := ver, cAddr := bAddr, vIdx := i }

/-- The rehash loop of `rebuild`: insert the chunks in vector order, with
running index `i`. -/
def rebuildLoop (ver shift len : Nat) (tbl : List index_t) (i : Nat) :
    List writeback_chunk_t → List index_t
  | [] => tbl
  | c :: rest =>
    rebuildLoop ver shift len
      (rebuildInsert ver len tbl c.bAddr i (hashOfShift shift c.bAddr) len)
      (i + 1) rest

/-- `doubleIndexLength()`: decrement `shift`, set `len = 1 << (32 - shift)`
(the source asserts `shift != 0` first). -/
def doubleIndexLength (s : RedoLogState) : RedoLogState :=
  { s with shift := s.shift - 1, len := 2 ^ (32 - (s.shift - 1)) }

/-- `rebuild()`: double the index and rehash every chunk into a fresh
table. -/
def rebuild (s : RedoLogState) : RedoLogState :=
  let s1 := doubleIndexLength s
  { s1 with
    tbl := rebuildLoop s1.ver s1.shift s1.len
      (List.replicate s1.len index0) 0 s1.chunks }

/-- `resize()`: double the vector capacity; contents are preserved. -/
def resize (s : RedoLogState) : RedoLogState := { s with cap := s.cap * 2 }

/-- `reserve(key)`: find the vector entry for `key` or create it: claim the
free slot, append a fresh chunk, then resize the vector or rebuild the index
when the respective thresholds are reached. -/
def reserve (s : RedoLogState) (key : Nat) : Nat × RedoLogState :=
  match probe s.tbl s.len s.ver key (hashOf s key) s.len with
  | .found i => (i, s)
  | .freeSlot h =>
    let res := s.chunks.length
    let s1 := { s with
      tbl := s.tbl.set h { vVer := s.ver, cAddr := key, vIdx := res },
      chunks := s.chunks ++
        [{ bAddr := key, vBytes := 0, data := List.replicate CHUNKSIZE 0 }] }
    let s2 := if s1.chunks.length = s1.cap then resize s1 else s1
    let s3 :=
      if s1.chunks.length * SPILL_FACTOR ≥ s1.len then rebuild s2 else s2
    (res, s3)
  | .out => (0, s)

/-- The state after `reserve`'s new-entry insertion (the free slot is
claimed and a fresh chunk appended), before the resize/rebuild checks. -/
def reserveInsertState (s : RedoLogState) (key slot : Nat) : RedoLogState :=
  { s with
    tbl := s.tbl.set slot
      { vVer := s.ver, cAddr := key, vIdx := s.chunks.length },
    chunks := s.chunks ++
      [{ bAddr := key, vBytes := 0, data := List.replicate CHUNKSIZE 0 }] }

/-- `clear()`: drop the vector, bump the version (a 64-bit `size_t`), and on
overflow zero the table and restart at version 1 (`reset_internal`). -/
def clear (s : RedoLogState) : RedoLogState :=
  let s1 := { s with chunks := [], ver := (s.ver + 1) % 2 ^ 64 }
  if s1.ver = 0 then
    { s1 with tbl := List.replicate s1.len index0, ver := 1 }
  else s1

/-- Write the `w` little-endian bytes of `val` into `data` at `off`
(`*tgt = val` for a `w`-byte scalar). -/
def writeBytesLE (data : List Nat) : Nat → Nat → Nat → List Nat
  | _, 0, _ => data
  | off, w + 1, val =>
    writeBytesLE (data.set off (val % 256)) (off + 1) w (val / 256)

/-- Read a `w`-byte little-endian scalar from `data` at `off`
(`val = *tgt`). -/
def readBytesLE (data : List Nat) : Nat → Nat → Nat
  | _, 0 => 0
  | off, w + 1 => data.getD off 0 + 256 * readBytesLE data (off + 1) w

/-- `insert(addr, val)` for a `w`-byte scalar type: align `addr` down to the
chunk size (`addr & ~MASK` is `addr - addr % CHUNKSIZE`), reserve the chunk,
write the value into the payload at `addr & MASK = addr % CHUNKSIZE`, and or
the width mask into the valid bytes. -/
def insertT (s : RedoLogState) (w addr val : Nat) : RedoLogState :=
  let chunk_addr := addr - addr % CHUNKSIZE
  let r := reserve s chunk_addr
  let s1 := r.2
  let offset := addr % CHUNKSIZE
  let c := cget s1.chunks r.1
  let c' := { c with
    data := writeBytesLE c.data offset w val,
    vBytes := c.vBytes ||| ((2 ^ w - 1) <<< offset) }
  { s1 with chunks := s1.chunks.set r.1 c' }

/-- The updated chunk built by `insert`: payload bytes written, width mask
ored into the valid bytes. -/
def insChunk (c : writeback_chunk_t) (w off v : Nat) : writeback_chunk_t :=
  { c with
    data := writeBytesLE c.data off w v,
    vBytes := c.vBytes ||| ((2 ^ w - 1) <<< off) }

/-- `get(addr, val)` for a `w`-byte scalar type: quick-exit on an empty log,
look up the aligned chunk, and return the payload value when `livebits`
(the width mask intersected with the shifted valid bytes) is nonzero. -/
def getT (s : RedoLogState) (w addr : Nat) : Option Nat :=
  if s.chunks.length = 0 then none
  else
    let key := addr - addr % CHUNKSIZE
    match lookup s key with
    | none => none
    | some idx =>
      let offset := addr % CHUNKSIZE
      let c := cget s.chunks idx
      let nodemask := c.vBytes >>> offset
      let livebits := ((2 ^ w - 1) &&& nodemask) % 2 ^ 32
      if livebits = 0 then none
      else some (readBytesLE c.data offset w)

/-- The initial-capacity sizing loop of the constructor, with fuel: double
the index until `ht.len` reaches `SPILL_FACTOR` times the capacity. -/
def initIndexLoop : Nat → Nat × Nat → Nat × Nat
  | 0, p => p
  | fuel + 1, (len, shift) =>
    if len < SPILL_FACTOR * 64 then
      initIndexLoop fuel (2 ^ (32 - (shift - 1)), shift - 1)
    else (len, shift)

/-- A default-constructed redo log (initial capacity 64): version 1, shift
24, a zeroed 256-entry index, an empty vector. -/
def redologInit : RedoLogState :=
  { tbl := List.replicate (initIndexLoop 32 (0, 32)).1 index0,
    len := (initIndexLoop 32 (0, 32)).1, ver := 1,
    shift := (initIndexLoop 32 (0, 32)).2, chunks := [], cap := 64 }

/-- A slot is valid when its version matches the current table version. -/
def validAt (tbl : List index_t) (ver i : Nat) : Prop :=
  (iget tbl i).vVer = ver

instance (tbl : List index_t) (ver i : Nat) : Decidable (validAt tbl ver i) :=
  inferInstanceAs (Decidable (_ = _))

/-- The probe-chain invariant: every valid slot sits at some distance `d`
from the hash of its address, with every slot strictly before it on the
probe path valid as well. -/
def chainOk (tbl : List index_t) (len ver shift : Nat) : Prop :=
  ∀ i < len, validAt tbl ver i → ∃ d < len,
    i = (hashOfShift shift (iget tbl i).cAddr + d) % len ∧
    ∀ d' < d,
      validAt tbl ver ((hashOfShift shift (iget tbl i).cAddr + d') % len)

/-- Core well-formedness of a redo log state: index geometry, version
bounds, index soundness and completeness with respect to the chunk vector,
address injectivity, the probe-chain invariant, and chunk payload shape.
The spill bound is kept separate because `reserve` temporarily violates it
just before `rebuild` restores it. -/
def wfCore (s : RedoLogState) : Prop :=
  s.tbl.length = s.len ∧
  s.shift ≤ 32 ∧
  s.len = 2 ^ (32 - s.shift) ∧
  3 ≤ s.len ∧
  1 ≤ s.ver ∧
  (∀ i < s.len, (iget s.tbl i).vVer ≤ s.ver) ∧
  (∀ i < s.len, validAt s.tbl s.ver i →
    (iget s.tbl i).vIdx < s.chunks.length ∧
    (cget s.chunks (iget s.tbl i).vIdx).bAddr = (iget s.tbl i).cAddr) ∧
  (∀ j < s.chunks.length, ∃ i < s.len, validAt s.tbl s.ver i ∧
    (iget s.tbl i).cAddr = (cget s.chunks j).bAddr ∧
    (iget s.tbl i).vIdx = j) ∧
  (∀ j < s.chunks.length, ∀ j' < s.chunks.length, j ≠ j' →
    (cget s.chunks j).bAddr ≠ (cget s.chunks j').bAddr) ∧
  (∀ i < s.len, ∀ i' < s.len, validAt s.tbl s.ver i → validAt s.tbl s.ver i' →
    i ≠ i' → (iget s.tbl i).cAddr ≠ (iget s.tbl i').cAddr) ∧
  chainOk s.tbl s.len s.ver s.shift ∧
  (∀ j < s.chunks.length, (cget s.chunks j).data.length = CHUNKSIZE ∧
    ∀ k < CHUNKSIZE, (cget s.chunks j).data.getD k 0 < 256)

/-- Well-formedness: the core invariants plus the spill bound that keeps
linear probing terminating. -/
def wf (s : RedoLogState) : Prop :=
  wfCore s ∧ s.chunks.length * SPILL_FACTOR < s.len

/-- The invariant carried through `rebuild`'s rehash loop after the first
`k` chunks have been inserted into the fresh table. -/
def rebuildInv (t : List index_t) (len ver shift : Nat)
    (chunks : List writeback_chunk_t) (k : Nat) : Prop :=
  t.length = len ∧
  (∀ i < len, validAt t ver i →
    (iget t i).vIdx < k ∧
    (cget chunks (iget t i).vIdx).bAddr = (iget t i).cAddr) ∧
  (∀ j < k, ∃ i < len, validAt t ver i ∧
    (iget t i).cAddr = (cget chunks j).bAddr ∧ (iget t i).vIdx = j) ∧
  (∀ i < len, ∀ i' < len, validAt t ver i → validAt t ver i' → i ≠ i' →
    (iget t i).cAddr ≠ (iget t i').cAddr) ∧
  chainOk t len ver shift ∧
  ((Finset.range len).filter (fun i => validAt t ver i)).card ≤ k ∧
  (∀ i < len, (iget t i).vVer ≤ ver)

/-- The abstract per-byte content of the redo log: the payload byte for
address `a` when its chunk exists and its valid bit is set. -/
def logByte (s : RedoLogState) (a : Nat) : Option Nat :=
  match s.chunks.findIdx? (fun c => c.bAddr = a - a % CHUNKSIZE) with
  | none => none
  | some j =>
    let c := cget s.chunks j
    if c.vBytes.testBit (a % CHUNKSIZE) then some (c.data.getD (a % CHUNKSIZE) 0)
    else none

end RedoLog

/-! ## The STMCAS doubly-linked-list ordered map (`dlist_omap.h`),
sequential shallow embedding.

Nodes live in a store indexed by node id; each node's ownership record is
the engine orec with the same id.  Clock reads (`ro_begin` / `wo_begin` /
`wo_end`) take their readings as explicit parameters.  The `while (true)`
retry loops of `get_leq` and `insert` are modeled one iteration at a time:
`none` is the "validation failed / acquisition failed, retry" outcome.  The
model instantiates `AVOID_OREC_CHECKS = false` and starts `get_leq` with an
empty snapshot stack (so traversal begins at `head`). -/

namespace Dlist

open ExoTM

/-- A list node: `prev` / `next` pointers (node ids) and, for data nodes,
the key and value (the head and tail sentinels carry no key). -/
structure node_t where
  prev : Nat
  next : Nat
  key : Option Nat
  val : Nat
deriving DecidableEq

/-- A default-constructed sentinel node. -/
def node0 : node_t := { prev := 0, next := 0, key := none, val := 0 }

/-- Read the node at id `i` (out-of-range reads return the default node). -/
def nget (ns : List node_t) (i : Nat) : node_t := ns.getD i node0

/-- The key read `static_cast<data_t *>(n)->key` performed on non-sentinel
nodes. -/
def keyOf (ns : List node_t) (i : Nat) : Nat := (nget ns i).key.getD 0

/-- The map state: node store, head and tail sentinel ids, and the exoTM
engine state acting on the orecs. -/
structure DlistState where
  nodes : List node_t
  head : Nat
  tail : Nat
  eng : EngineState
deriving DecidableEq

/-- The inner search loop of `get_leq` (with fuel): stop at the tail or at
the first node whose key is at least the target, validating each visited
node's orec; `none` models a `check_orec` failure that restarts the
traversal. -/
def get_leq_loop (st : DlistState) (key : Nat) :
    Nat → Nat → Nat → Nat → Option (Nat × Nat)
  | _, _, _, 0 => none
  | curr, ver, next, fuel + 1 =>
    if next = st.tail then some (curr, ver)
    else
      let next_next := (nget st.nodes next).next
      let nkey := keyOf st.nodes next
      let next_ver := check_orec st.eng next
      if next_ver = END_OF_TIME then none
      else if key < nkey then some (curr, ver)
      else if nkey = key then some (next, next_ver)
      else get_leq_loop st key next next_ver next_next fuel

/-- One `get_leq` attempt: an `RSTEP` (`ro_begin` with clock reading `tR`,
`ro_end` on exit) around a head-validated traversal. -/
def get_leq (st : DlistState) (key tR : Nat) :
    Option (Nat × Nat) × EngineState :=
  let eng1 := ro_begin tR st.eng
  let st1 : DlistState := { st with eng := eng1 }
  let ver := check_orec eng1 st.head
  let res := if ver = END_OF_TIME then none
    else get_leq_loop st1 key st.head ver (nget st.nodes st.head).next
      st.nodes.length
  (res, ro_end eng1)

/-- One iteration of `insert(me, key, val)`: search with `get_leq`; if the
found node is a data node holding `key`, return false before opening any
`WSTEP`; otherwise open a `WSTEP` (`wo_begin` at `tW`), lock the found node
by continuation and its successor aggressively (`none` models the
unwind-and-retry paths), stitch in the new node, and close the step
(`wo_end` at `tE`). -/
def insert (st : DlistState) (k v tR tW tE : Nat) :
    Option (Bool × DlistState) :=
  let g := get_leq st k tR
  let stg : DlistState := { st with eng := g.2 }
  match g.1 with
  | none => none
  | some (n, ver) =>
    if n ≠ st.head ∧ keyOf st.nodes n = k then some (false, stg)
    else
      let eng0 := wo_begin tW stg.eng
      let a1 := acquire_continuation eng0 n ver (oget eng0.orecs n).curr
      if a1.1 then
        let nxt := (nget st.nodes n).next
        let a2 := acquire_aggressive a1.2 nxt (oget a1.2.orecs nxt).curr
        if a2.1 then
          let newId := st.nodes.length
          let newNode : node_t :=
            { prev := n, next := nxt, key := some k, val := v }
          let ns1 := st.nodes ++ [newNode]
          let ns2 := ns1.set n { nget ns1 n with next := newId }
          let ns3 := ns2.set nxt { nget ns2 nxt with prev := newId }
          some (true, { st with nodes := ns3, eng := wo_end tE a2.2 })
        else none
      else none

/-- The chain predicate: consecutive ids in the list are connected by the
`next` pointers. -/
def linked (ns : List node_t) : List Nat → Prop
  | [] => True
  | [_] => True
  | a :: b :: rest => (nget ns a).next = b ∧ linked ns (b :: rest)

instance linkedDec (ns : List node_t) :
    ∀ l : List Nat, Decidable (linked ns l)
  | [] => isTrue trivial
  | [_] => isTrue trivial
  | a :: b :: rest =>
    have : Decidable (linked ns (b :: rest)) := linkedDec ns (b :: rest)
    inferInstanceAs (Decidable (_ ∧ _))

/-- A concrete three-node map (head, tail, one data node with key 5) used to
instantiate the insert-if-absent theorem. -/
def c6state : DlistState :=
  { nodes := [{ prev := 0, next := 2, key := none, val := 0 },
              { prev := 2, next := 1, key := none, val := 0 },
              { prev := 0, next := 1, key := some 5, val := 7 }],
    head := 0, tail := 1,
    eng := { exo := { start_time := END_OF_TIME, locks := [],
                      my_lock := 2 ^ 63 + 1, last_wo_end_time := 0,
                      unwound := false },
             orecs := [orec0, orec0, orec0] } }

end Dlist

namespace ExoTM

/-! Helper lemmas about `oget` / `List.set` and the orec-store folds used by
`wo_end` and `unwind`. -/

theorem oget_set_self {os : List orec_t} {i : Nat} (h : i < os.length)
    (x : orec_t) : oget (os.set i x) i = x := by
  simp [oget, List.getD, List.getElem?_set_self, h]

theorem oget_set_ne {os : List orec_t} {i j : Nat} (h : i ≠ j) (x : orec_t) :
    oget (os.set i x) j = oget os j := by
  simp [oget, List.getD, List.getElem?_set_ne h]

theorem storeCurr_length (g : orec_t → Nat) (os : List orec_t) (oid : Nat) :
    (storeCurr g os oid).length = os.length := by
  simp [storeCurr]

theorem foldl_storeCurr_length (g : orec_t → Nat) (ids : List Nat)
    (os : List orec_t) : (ids.foldl (storeCurr g) os).length = os.length := by
  induction ids generalizing os with
  | nil => rfl
  | cons a ids ih => simp [List.foldl_cons, ih, storeCurr_length]

theorem oget_storeCurr_prev (g : orec_t → Nat) (os : List orec_t)
    (oid i : Nat) : (oget (storeCurr g os oid) i).prev = (oget os i).prev := by
  by_cases hij : oid = i
  · subst hij
    by_cases hlt : oid < os.length
    · rw [storeCurr, oget_set_self hlt]
    · simp [storeCurr, List.set_eq_of_length_le (Nat.le_of_not_lt hlt)]
  · rw [storeCurr, oget_set_ne hij]

theorem foldl_storeCurr_prev (g : orec_t → Nat) (ids : List Nat)
    (os : List orec_t) (i : Nat) :
    (oget (ids.foldl (storeCurr g) os) i).prev = (oget os i).prev := by
  induction ids generalizing os with
  | nil => rfl
  | cons a ids ih => rw [List.foldl_cons, ih, oget_storeCurr_prev]

theorem foldl_storeCurr_not_mem (g : orec_t → Nat) (ids : List Nat)
    (os : List orec_t) (i : Nat) (h : i ∉ ids) :
    oget (ids.foldl (storeCurr g) os) i = oget os i := by
  induction ids generalizing os with
  | nil => rfl
  | cons a ids ih =>
    rw [List.foldl_cons, ih _ (fun hm => h (List.mem_cons_of_mem a hm)),
      storeCurr, oget_set_ne (fun he => h (by
        rw [← he]; exact List.mem_cons_self a ids))]

theorem foldl_storeCurr_mem (g : orec_t → Nat)
    (hg : ∀ o o' : orec_t, o.prev = o'.prev → g o = g o')
    (ids : List Nat) (os : List orec_t) (i : Nat) (hm : i ∈ ids)
    (hlen : i < os.length) :
    oget (ids.foldl (storeCurr g) os) i =
      { oget os i with curr := g (oget os i) } := by
  induction ids generalizing os with
  | nil => cases hm
  | cons a ids ih =>
    rw [List.foldl_cons]
    by_cases hmem : i ∈ ids
    · rw [ih _ hmem (by rw [storeCurr_length]; exact hlen)]
      have hprev := oget_storeCurr_prev g os a i
      have hcurr : g (oget (storeCurr g os a) i) = g (oget os i) :=
        hg _ _ hprev
      cases hia : decide (a = i) with
      | true =>
        have ha : a = i := of_decide_eq_true hia
        rw [ha, storeCurr, oget_set_self hlen]
        exact congrArg
          (fun c => ({ curr := c, prev := (oget os i).prev } : orec_t))
          (hg _ _ rfl)
      | false =>
        have ha : a ≠ i := of_decide_eq_false hia
        rw [storeCurr, oget_set_ne ha]
    · have ha : a = i := by
        rcases List.mem_cons.mp hm with h | h
        · exact h.symm
        · exact absurd h hmem
      subst ha
      rw [foldl_storeCurr_not_mem g ids _ a hmem, storeCurr,
        oget_set_self hlen]

/-- The fold in `wo_end` is a `storeCurr` fold with the constant function. -/
theorem wo_end_fold_eq (t : Nat) (ids : List Nat) (os : List orec_t) :
    ids.foldl (fun os oid => os.set oid { oget os oid with curr := t }) os =
      ids.foldl (storeCurr (fun _ => t)) os := rfl

/-- The fold in `unwind` is a `storeCurr` fold with a `prev`-only function. -/
theorem unwind_fold_eq (how : UNWIND_TYPES) (ids : List Nat)
    (os : List orec_t) :
    ids.foldl
      (fun os oid =>
        os.set oid
          { oget os oid with
            curr :=
              if how = UNWIND_TYPES.ROLLBACK_ORECS then (oget os oid).prev
              else ((oget os oid).prev + 1) % 2 ^ 64 }) os =
      ids.foldl
        (storeCurr (fun o =>
          if how = UNWIND_TYPES.ROLLBACK_ORECS then o.prev
          else (o.prev + 1) % 2 ^ 64)) os := rfl

end ExoTM

/-! ## Claim C3: unwind followed by wo_end -/

namespace ExoTM

/-- C3.  `unwind(how)` stores `END_OF_TIME` to `start_time`, restores every
orec in the locks list to its saved `prev` (rollback) or `prev + 1` (bump),
clears the locks list and sets the `unwound` flag; the next `wo_end` then only
clears the flag: it modifies no orec, is independent of the clock reading, and
leaves `last_wo_end_time` unchanged. -/
theorem unwind_then_wo_end (s : EngineState) (how : UNWIND_TYPES)
    (t t' : Nat) :
    ((unwind how s).exo.start_time = END_OF_TIME) ∧
    ((unwind how s).exo.unwound = true) ∧
    ((unwind how s).exo.locks = []) ∧
    (∀ oid ∈ s.exo.locks, oid < s.orecs.length →
      (oget (unwind how s).orecs oid).curr =
        (if how = UNWIND_TYPES.ROLLBACK_ORECS then (oget s.orecs oid).prev
         else ((oget s.orecs oid).prev + 1) % 2 ^ 64)) ∧
    (∀ oid, oid ∉ s.exo.locks →
      oget (unwind how s).orecs oid = oget s.orecs oid) ∧
    (wo_end t (unwind how s) =
      { unwind how s with
        exo := { (unwind how s).exo with unwound := false } }) ∧
    (wo_end t (unwind how s) = wo_end t' (unwind how s)) ∧
    ((wo_end t (unwind how s)).orecs = (unwind how s).orecs) ∧
    ((wo_end t (unwind how s)).exo.last_wo_end_time =
      s.exo.last_wo_end_time) := by
  have hunw : (unwind how s).exo.unwound = true := rfl
  have hwo : ∀ u : Nat, wo_end u (unwind how s) =
      { unwind how s with
        exo := { (unwind how s).exo with unwound := false } } := by
    intro u
    rw [wo_end, hunw]
    simp
  refine ⟨rfl, rfl, rfl, ?_, ?_, hwo t, (hwo t).trans (hwo t').symm, ?_, ?_⟩
  · intro oid hmem hlen
    have := foldl_storeCurr_mem
      (fun o => if how = UNWIND_TYPES.ROLLBACK_ORECS then o.prev
                else (o.prev + 1) % 2 ^ 64)
      (fun o o' h => by simp [h]) s.exo.locks s.orecs oid hmem hlen
    rw [unwind, unwind_fold_eq]
    simpa using congrArg orec_t.curr this
  · intro oid hmem
    have := foldl_storeCurr_not_mem
      (fun o => if how = UNWIND_TYPES.ROLLBACK_ORECS then o.prev
                else (o.prev + 1) % 2 ^ 64) s.exo.locks s.orecs oid hmem
    rw [unwind, unwind_fold_eq]
    simpa using this
  · rw [hwo t]
  · rw [hwo t]
    rfl

/-- Witness for C3 at a concrete state: one orec, held by the thread, rolled
back to its previous value by `unwind`, with `wo_end` then a pure no-op. -/
theorem unwind_then_wo_end_witness :
    ((0 : Nat) ∈ ({ exo := { start_time := 5, locks := [0],
                             my_lock := 2 ^ 63, last_wo_end_time := 3,
                             unwound := false },
                    orecs := [{ curr := 2 ^ 63, prev := 2 }] } :
        EngineState).exo.locks ∧
      (0 : Nat) <
        ({ exo := { start_time := 5, locks := [0], my_lock := 2 ^ 63,
                    last_wo_end_time := 3, unwound := false },
           orecs := [{ curr := 2 ^ 63, prev := 2 }] } :
            EngineState).orecs.length) ∧
    (oget (unwind UNWIND_TYPES.ROLLBACK_ORECS
        { exo := { start_time := 5, locks := [0], my_lock := 2 ^ 63,
                   last_wo_end_time := 3, unwound := false },
          orecs := [{ curr := 2 ^ 63, prev := 2 }] }).orecs 0).curr = 2 := by
  refine ⟨⟨by decide, by decide⟩, ?_⟩
  have h := (unwind_then_wo_end
    { exo := { start_time := 5, locks := [0], my_lock := 2 ^ 63,
               last_wo_end_time := 3, unwound := false },
      orecs := [{ curr := 2 ^ 63, prev := 2 }] }
    UNWIND_TYPES.ROLLBACK_ORECS 0 1).2.2.2.1 0 (by decide) (by decide)
  simpa using h

end ExoTM

/-! ## Claim C2: acquire_consistent and the acquisition invariant -/

namespace ExoTM

/-- Branch equation: the orec already holds the caller's lock word. -/
theorem acquire_consistent_mine {s : EngineState} {oid loaded : Nat}
    (h : loaded = s.exo.my_lock) :
    acquire_consistent s oid loaded = (true, s) := by
  simp [acquire_consistent, h]

/-- Branch equation: the loaded value exceeds `start_time`. -/
theorem acquire_consistent_too_new {s : EngineState} {oid loaded : Nat}
    (h1 : loaded ≠ s.exo.my_lock) (h2 : s.exo.start_time < loaded) :
    acquire_consistent s oid loaded = (false, s) := by
  simp [acquire_consistent, h1, h2]

/-- Branch equation: the CAS succeeds; `prev` is saved and the orec is pushed
onto the locks list. -/
theorem acquire_consistent_cas_ok {s : EngineState} {oid loaded : Nat}
    (h1 : loaded ≠ s.exo.my_lock) (h2 : loaded ≤ s.exo.start_time)
    (h3 : (oget s.orecs oid).curr = loaded) :
    acquire_consistent s oid loaded =
      (true,
        { exo := { s.exo with locks := s.exo.locks ++ [oid] },
          orecs := s.orecs.set oid
            { curr := s.exo.my_lock, prev := loaded } }) := by
  simp [acquire_consistent, h1, h3, Nat.not_lt.mpr h2]

/-- Branch equation: the CAS fails (the orec changed since the load). -/
theorem acquire_consistent_cas_fail {s : EngineState} {oid loaded : Nat}
    (h1 : loaded ≠ s.exo.my_lock) (h2 : loaded ≤ s.exo.start_time)
    (h3 : (oget s.orecs oid).curr ≠ loaded) :
    acquire_consistent s oid loaded = (false, s) := by
  simp [acquire_consistent, h1, h3, Nat.not_lt.mpr h2]

/-- Out-of-range orec reads give the default orec. -/
theorem oget_out {os : List orec_t} {i : Nat} (h : os.length ≤ i) :
    oget os i = orec0 := by
  simp [oget, List.getD, List.getElem?_eq_none h]

end ExoTM

namespace ExoTM

/-- Branch equation: `acquire_continuation` when the loaded value exceeds the
caller-supplied bound (no CAS is attempted). -/
theorem acquire_continuation_too_new {s : EngineState} {oid val loaded : Nat}
    (h : val < loaded) :
    acquire_continuation s oid val loaded =
      (decide (loaded = s.exo.my_lock), s) := by
  simp [acquire_continuation, h]

/-- Branch equation: `acquire_continuation` when the CAS succeeds. -/
theorem acquire_continuation_cas_ok {s : EngineState} {oid val loaded : Nat}
    (h : loaded ≤ val) (h3 : (oget s.orecs oid).curr = loaded) :
    acquire_continuation s oid val loaded =
      (true,
        { exo := { s.exo with locks := s.exo.locks ++ [oid] },
          orecs := s.orecs.set oid
            { curr := s.exo.my_lock, prev := loaded } }) := by
  simp [acquire_continuation, h3, Nat.not_lt.mpr h]

/-- Branch equation: `acquire_continuation` when the CAS fails. -/
theorem acquire_continuation_cas_fail {s : EngineState} {oid val loaded : Nat}
    (h : loaded ≤ val) (h3 : (oget s.orecs oid).curr ≠ loaded) :
    acquire_continuation s oid val loaded = (false, s) := by
  simp [acquire_continuation, h3, Nat.not_lt.mpr h]

/-- Branch equation: `acquire_aggressive` when the loaded value is locked. -/
theorem acquire_aggressive_locked {s : EngineState} {oid loaded : Nat}
    (h : loaded.testBit 63 = true) :
    acquire_aggressive s oid loaded =
      (decide (loaded = s.exo.my_lock), s) := by
  simp [acquire_aggressive, h]

/-- Branch equation: `acquire_aggressive` when the CAS succeeds. -/
theorem acquire_aggressive_cas_ok {s : EngineState} {oid loaded : Nat}
    (h : loaded.testBit 63 = false) (h3 : (oget s.orecs oid).curr = loaded) :
    acquire_aggressive s oid loaded =
      (true,
        { exo := { s.exo with locks := s.exo.locks ++ [oid] },
          orecs := s.orecs.set oid
            { curr := s.exo.my_lock, prev := loaded } }) := by
  simp [acquire_aggressive, h, h3]

/-- Branch equation: `acquire_aggressive` when the CAS fails. -/
theorem acquire_aggressive_cas_fail {s : EngineState} {oid loaded : Nat}
    (h : loaded.testBit 63 = false) (h3 : (oget s.orecs oid).curr ≠ loaded) :
    acquire_aggressive s oid loaded = (false, s) := by
  simp [acquire_aggressive, h, h3]

end ExoTM

namespace ExoTM

/-- C2 (amended).  First part: `acquire_consistent` returns true immediately
when the orec holds the caller's lock word; fails when the loaded value
exceeds `start_time`; on a successful CAS it saves `prev`, pushes the orec
onto `locks` and returns true; on a failed CAS it returns false.  Second
part: a successful CAS from the orec's current value is the sole way an orec
becomes acquired; `acquire_consistent` performs it only when that value is at
most `start_time`, while `acquire_continuation` bounds it by the
caller-supplied version and `acquire_aggressive` requires only that the lock
bit is clear. -/
theorem acquire_consistent_spec :
    (∀ (s : EngineState) (oid loaded : Nat),
      (loaded = s.exo.my_lock →
        acquire_consistent s oid loaded = (true, s)) ∧
      (loaded ≠ s.exo.my_lock → s.exo.start_time < loaded →
        acquire_consistent s oid loaded = (false, s)) ∧
      (loaded ≠ s.exo.my_lock → loaded ≤ s.exo.start_time →
        (oget s.orecs oid).curr = loaded →
        acquire_consistent s oid loaded =
          (true,
            { exo := { s.exo with locks := s.exo.locks ++ [oid] },
              orecs := s.orecs.set oid
                { curr := s.exo.my_lock, prev := loaded } })) ∧
      (loaded ≠ s.exo.my_lock → loaded ≤ s.exo.start_time →
        (oget s.orecs oid).curr ≠ loaded →
        acquire_consistent s oid loaded = (false, s))) ∧
    (∀ (op : EngineOp) (s : EngineState) (oid : Nat),
      2 ^ 63 ≤ s.exo.my_lock →
      clockOk op = true →
      (oget s.orecs oid).prev + 1 < 2 ^ 63 →
      (oget s.orecs oid).curr ≠ s.exo.my_lock →
      (oget (step op s).orecs oid).curr = s.exo.my_lock →
      (op = EngineOp.acqConsistent oid (oget s.orecs oid).curr ∧
        (oget s.orecs oid).curr ≤ s.exo.start_time) ∨
      (∃ bound,
        op = EngineOp.acqContinuation oid bound (oget s.orecs oid).curr ∧
        (oget s.orecs oid).curr ≤ bound) ∨
      (op = EngineOp.acqAggressive oid (oget s.orecs oid).curr ∧
        (oget s.orecs oid).curr.testBit 63 = false)) := by
  constructor
  · intro s oid loaded
    exact ⟨fun h1 => acquire_consistent_mine h1,
      fun h1 h2 => acquire_consistent_too_new h1 h2,
      fun h1 h2 h3 => acquire_consistent_cas_ok h1 h2 h3,
      fun h1 h2 h3 => acquire_consistent_cas_fail h1 h2 h3⟩
  · intro op s oid hml hck hprev hne hpost
    have hml0 : (0 : Nat) ≠ s.exo.my_lock := by
      intro h0
      exact absurd (h0 ▸ hml) (by decide)
    cases op with
    | roBeginOp t =>
      simp [step, ro_begin] at hpost
      exact absurd hpost hne
    | roEndOp =>
      simp [step, ro_end] at hpost
      exact absurd hpost hne
    | woBeginOp t =>
      simp [step, wo_begin] at hpost
      exact absurd hpost hne
    | woEndOp t =>
      have ht : t < 2 ^ 63 := by
        have := hck
        simpa [clockOk] using this
      rw [step, wo_end] at hpost
      by_cases hu : s.exo.unwound
      · simp [hu] at hpost
        exact absurd hpost hne
      · simp only [hu, if_false, Bool.false_eq_true] at hpost
        rw [wo_end_fold_eq] at hpost
        by_cases hlt : oid < s.orecs.length
        · by_cases hmem : oid ∈ s.exo.locks
          · rw [foldl_storeCurr_mem (fun _ => t) (fun _ _ _ => rfl)
              s.exo.locks s.orecs oid hmem hlt] at hpost
            have hpost' : t = s.exo.my_lock := hpost
            exact absurd (hpost' ▸ hml) (Nat.not_le.mpr ht)
          · rw [foldl_storeCurr_not_mem] at hpost
            · exact absurd hpost hne
            · exact hmem
        · rw [oget_out (by
            rw [foldl_storeCurr_length]
            exact Nat.le_of_not_lt hlt)] at hpost
          exact absurd hpost hml0
    | unwindOp how =>
      rw [step, unwind] at hpost
      simp only [unwind_fold_eq] at hpost
      by_cases hlt : oid < s.orecs.length
      · by_cases hmem : oid ∈ s.exo.locks
        · rw [foldl_storeCurr_mem _ (fun o o' h => by simp [h])
            s.exo.locks s.orecs oid hmem hlt] at hpost
          have hsmall :
              (if how = UNWIND_TYPES.ROLLBACK_ORECS then
                  (oget s.orecs oid).prev
                else ((oget s.orecs oid).prev + 1) % 2 ^ 64) < 2 ^ 63 := by
            by_cases hh : how = UNWIND_TYPES.ROLLBACK_ORECS
            · rw [if_pos hh]
              exact Nat.lt_of_succ_lt hprev
            · have hmod : ((oget s.orecs oid).prev + 1) % 2 ^ 64 =
                  (oget s.orecs oid).prev + 1 :=
                Nat.mod_eq_of_lt (lt_trans hprev (by norm_num))
              rw [if_neg hh, hmod]
              exact hprev
          have hpost' :
              (if how = UNWIND_TYPES.ROLLBACK_ORECS then
                  (oget s.orecs oid).prev
                else ((oget s.orecs oid).prev + 1) % 2 ^ 64) =
                s.exo.my_lock := hpost
          exact absurd (hpost' ▸ hml) (Nat.not_le.mpr hsmall)
        · rw [foldl_storeCurr_not_mem] at hpost
          · exact absurd hpost hne
          · exact hmem
      · rw [oget_out (by
          rw [foldl_storeCurr_length]
          exact Nat.le_of_not_lt hlt)] at hpost
        exact absurd hpost hml0
    | acqConsistent oid' loaded =>
      by_cases h1 : loaded = s.exo.my_lock
      · rw [step, acquire_consistent_mine h1] at hpost
        exact absurd hpost hne
      by_cases h2 : s.exo.start_time < loaded
      · rw [step, acquire_consistent_too_new h1 h2] at hpost
        exact absurd hpost hne
      have h2' : loaded ≤ s.exo.start_time := Nat.le_of_not_lt h2
      by_cases h3 : (oget s.orecs oid').curr = loaded
      · rw [step, acquire_consistent_cas_ok h1 h2' h3] at hpost
        by_cases h4 : oid' = oid
        · subst h4
          left
          exact ⟨by rw [h3], h3 ▸ h2'⟩
        · rw [oget_set_ne h4] at hpost
          exact absurd hpost hne
      · rw [step, acquire_consistent_cas_fail h1 h2' h3] at hpost
        exact absurd hpost hne
    | acqContinuation oid' bound loaded =>
      by_cases h1 : bound < loaded
      · rw [step, acquire_continuation_too_new h1] at hpost
        exact absurd hpost hne
      have h1' : loaded ≤ bound := Nat.le_of_not_lt h1
      by_cases h3 : (oget s.orecs oid').curr = loaded
      · rw [step, acquire_continuation_cas_ok h1' h3] at hpost
        by_cases h4 : oid' = oid
        · subst h4
          right; left
          exact ⟨bound, by rw [h3], h3 ▸ h1'⟩
        · rw [oget_set_ne h4] at hpost
          exact absurd hpost hne
      · rw [step, acquire_continuation_cas_fail h1' h3] at hpost
        exact absurd hpost hne
    | acqAggressive oid' loaded =>
      by_cases h1 : loaded.testBit 63
      · rw [step, acquire_aggressive_locked h1] at hpost
        exact absurd hpost hne
      have h1' : loaded.testBit 63 = false := by
        simpa using h1
      by_cases h3 : (oget s.orecs oid').curr = loaded
      · rw [step, acquire_aggressive_cas_ok h1' h3] at hpost
        by_cases h4 : oid' = oid
        · subst h4
          right; right
          exact ⟨by rw [h3], by rw [h3]; exact h1'⟩
        · rw [oget_set_ne h4] at hpost
          exact absurd hpost hne
      · rw [step, acquire_aggressive_cas_fail h1' h3] at hpost
        exact absurd hpost hne

end ExoTM

namespace ExoTM

/-- Counterexample to C2 as stated: `acquire_aggressive` successfully
acquires an orec whose unlocked value 100 strictly exceeds the caller's
`start_time` 50, so a successful CAS from an unlocked `v` with
`v ≤ start_time` is not the sole way an orec becomes acquired. -/
theorem acquire_sole_way_counterexample :
    (oget ({ exo := { start_time := 50, locks := [], my_lock := 2 ^ 63,
                      last_wo_end_time := 0, unwound := false },
             orecs := [{ curr := 100, prev := 3 }] } :
        EngineState).orecs 0).curr = 100 ∧
    ¬((100 : Nat) ≤ 50) ∧
    (acquire_aggressive
        { exo := { start_time := 50, locks := [], my_lock := 2 ^ 63,
                   last_wo_end_time := 0, unwound := false },
          orecs := [{ curr := 100, prev := 3 }] } 0 100).1 = true ∧
    (oget (acquire_aggressive
        { exo := { start_time := 50, locks := [], my_lock := 2 ^ 63,
                   last_wo_end_time := 0, unwound := false },
          orecs := [{ curr := 100, prev := 3 }] } 0 100).2.orecs 0).curr =
      2 ^ 63 := by
  refine ⟨rfl, by decide, ?_, ?_⟩ <;> decide

/-- Witness for the amended C2 theorem: the sole-way part applied at a
concrete aggressive acquisition. -/
theorem acquire_consistent_spec_witness :
    ((2 : Nat) ^ 63 ≤ 2 ^ 63 ∧
      clockOk (EngineOp.acqAggressive 0 7) = true ∧
      (3 : Nat) + 1 < 2 ^ 63 ∧ (7 : Nat) ≠ 2 ^ 63) ∧
    ((EngineOp.acqAggressive 0 7 =
        EngineOp.acqConsistent 0
          (oget ({ exo := { start_time := 50, locks := [], my_lock := 2 ^ 63,
                            last_wo_end_time := 0, unwound := false },
                   orecs := [{ curr := 7, prev := 3 }] } :
              EngineState).orecs 0).curr ∧
        (oget ({ exo := { start_time := 50, locks := [], my_lock := 2 ^ 63,
                          last_wo_end_time := 0, unwound := false },
                 orecs := [{ curr := 7, prev := 3 }] } :
            EngineState).orecs 0).curr ≤ 50) ∨
      (∃ bound,
        EngineOp.acqAggressive 0 7 =
          EngineOp.acqContinuation 0 bound
            (oget ({ exo := { start_time := 50, locks := [],
                              my_lock := 2 ^ 63, last_wo_end_time := 0,
                              unwound := false },
                     orecs := [{ curr := 7, prev := 3 }] } :
                EngineState).orecs 0).curr ∧
          (oget ({ exo := { start_time := 50, locks := [], my_lock := 2 ^ 63,
                            last_wo_end_time := 0, unwound := false },
                   orecs := [{ curr := 7, prev := 3 }] } :
              EngineState).orecs 0).curr ≤ bound) ∨
      (EngineOp.acqAggressive 0 7 =
        EngineOp.acqAggressive 0
          (oget ({ exo := { start_time := 50, locks := [], my_lock := 2 ^ 63,
                            last_wo_end_time := 0, unwound := false },
                   orecs := [{ curr := 7, prev := 3 }] } :
              EngineState).orecs 0).curr ∧
        (oget ({ exo := { start_time := 50, locks := [], my_lock := 2 ^ 63,
                          last_wo_end_time := 0, unwound := false },
                 orecs := [{ curr := 7, prev := 3 }] } :
            EngineState).orecs 0).curr.testBit 63 = false)) :=
  ⟨⟨by decide, by decide, by decide, by decide⟩,
    acquire_consistent_spec.2 (EngineOp.acqAggressive 0 7)
      { exo := { start_time := 50, locks := [], my_lock := 2 ^ 63,
                 last_wo_end_time := 0, unwound := false },
        orecs := [{ curr := 7, prev := 3 }] } 0
      (by decide) (by decide) (by decide) (by decide) (by decide)⟩

end ExoTM

/-! ## Claim C8: hybrid continuation inheritance -/

namespace Hybrid

open ExoTM

/-- C8.  `inheritOrec(obj, version)` returns true exactly when the current
value of the object's orec is at most the recorded version; the orec is
folded into the write scope's read-set (in particular when still
consistent), so that commit-time validation re-checks it; when inconsistent
the call returns false (and the enclosing transaction is abandoned by its
caller). -/
theorem inheritOrec_spec (s : BaseState) (oid val : Nat) :
    ((inheritOrec s oid val).1 = true ↔ (oget s.eng.orecs oid).curr ≤ val) ∧
    ((inheritOrec s oid val).1 = false ↔ val < (oget s.eng.orecs oid).curr) ∧
    (inheritOrec s oid val).2.readset = s.readset ++ [oid] ∧
    oid ∈ (inheritOrec s oid val).2.readset ∧
    (inheritOrec s oid val).2.eng = s.eng ∧
    (validate (inheritOrec s oid val).2 = true →
      check_orec (inheritOrec s oid val).2.eng oid ≠ END_OF_TIME) := by
  refine ⟨?_, ?_, rfl, ?_, rfl, ?_⟩
  · simp [inheritOrec, check_continuation]
  · simp [inheritOrec, check_continuation]
  · simp [inheritOrec]
  · intro hv
    have hmem : oid ∈ (inheritOrec s oid val).2.readset := by
      simp [inheritOrec]
    simp only [validate] at hv
    have := List.all_eq_true.mp hv oid hmem
    simpa using this

/-- Witness for C8 at a concrete state: an orec at version 7 inherited
against recorded version 10 is consistent and is re-checked by validation. -/
theorem inheritOrec_spec_witness :
    validate (inheritOrec
      { eng := { exo := { start_time := 50, locks := [], my_lock := 2 ^ 63,
                          last_wo_end_time := 0, unwound := false },
                 orecs := [{ curr := 7, prev := 3 }] },
        readset := [] } 0 10).2 = true ∧
    check_orec (inheritOrec
      { eng := { exo := { start_time := 50, locks := [], my_lock := 2 ^ 63,
                          last_wo_end_time := 0, unwound := false },
                 orecs := [{ curr := 7, prev := 3 }] },
        readset := [] } 0 10).2.eng 0 ≠ END_OF_TIME :=
  ⟨by decide,
    (inheritOrec_spec
      { eng := { exo := { start_time := 50, locks := [], my_lock := 2 ^ 63,
                          last_wo_end_time := 0, unwound := false },
                 orecs := [{ curr := 7, prev := 3 }] },
        readset := [] } 0 10).2.2.2.2.2 (by decide)⟩

end Hybrid

/-! ## Claim C7: timestamp SMR sweep cadence and exactness -/

namespace SMR

open ExoTM

/-- The minimum scan never exceeds any published timestamp. -/
theorem oldestOf_le (allts : List Nat) :
    (∀ t ∈ allts, oldestOf allts ≤ t) ∧ oldestOf allts ≤ END_OF_TIME := by
  have key : ∀ (l : List Nat) (acc : Nat),
      (∀ t ∈ l, l.foldl (fun acc t => if t < acc then t else acc) acc ≤ t) ∧
      l.foldl (fun acc t => if t < acc then t else acc) acc ≤ acc := by
    intro l
    induction l with
    | nil => exact fun acc => ⟨fun t ht => absurd ht (List.not_mem_nil t), le_refl acc⟩
    | cons a l ih =>
      intro acc
      constructor
      · intro t ht
        rcases List.mem_cons.mp ht with h | h
        · subst h
          rcases (ih (if t < acc then t else acc)).2.lt_or_eq with hlt | heq
          · exact le_of_lt (lt_of_lt_of_le hlt (by split <;> omega))
          · rw [List.foldl_cons, heq]; split <;> omega
        · exact (ih _).1 t h
      · rw [List.foldl_cons]
        exact le_trans (ih _).2 (by split <;> omega)
  exact ⟨fun t ht => (key allts END_OF_TIME).1 t ht, (key allts END_OF_TIME).2⟩

/-- On a deque whose stamps are nondecreasing from the front, the sweep loop
destroys exactly the records stamped strictly below `oldest` and retains
exactly the others. -/
theorem sweepLoop_eq (oldest : Nat) (l : List (Nat × Nat))
    (h : l.Pairwise (fun a b => a.2 ≤ b.2)) :
    sweepLoop oldest l =
      ((l.filter (fun r => decide (r.2 < oldest))).map Prod.fst,
        l.filter (fun r => decide (oldest ≤ r.2))) := by
  induction l with
  | nil => simp [sweepLoop]
  | cons a l ih =>
    obtain ⟨hhead, htail⟩ := List.pairwise_cons.mp h
    obtain ⟨p, ts⟩ := a
    by_cases hts : oldest ≤ ts
    · have hnone : l.filter (fun r => decide (r.2 < oldest)) = [] := by
        apply List.filter_eq_nil_iff.mpr
        intro r hr
        simpa using Nat.not_lt.mpr (le_trans hts (hhead r hr))
      have hall : l.filter (fun r => decide (oldest ≤ r.2)) = l := by
        apply List.filter_eq_self.mpr
        intro r hr
        simpa using le_trans hts (hhead r hr)
      simp [sweepLoop, hts, Nat.not_lt.mpr hts, hnone, hall]
    · have hts' : ts < oldest := Nat.lt_of_not_le hts
      simp [sweepLoop, hts, hts', ih htail]

/-- C7 (amended).  `reclaim` only queues a retirement; a thread leaving an
operation publishes `END_OF_TIME`; an exit with no pendings does nothing
else; an exit that flushes pendings ticks the countdown by one, and once
every `SWEEP_THRESHOLD = 1024` such flushing exits the countdown is reset and
a sweep runs, destroying exactly the unreachable records whose stamp is
strictly below the minimum of all threads' published timestamps and
retaining all the others. -/
theorem smr_exit_sweep_spec (allts : List Nat) (time ptr : Nat)
    (s : SmrState) :
    (reclaim ptr s =
      { s with pending := s.pending ++ [ptr],
               retirements := s.retirements + 1 }) ∧
    ((smrExit allts time s).ts = END_OF_TIME) ∧
    (s.pending = [] → smrExit allts time s = { s with ts := END_OF_TIME }) ∧
    (s.pending ≠ [] → 0 < s.exits_remaining - 1 →
      smrExit allts time s =
        { s with ts := END_OF_TIME,
                 unreachable :=
                   s.unreachable ++ s.pending.map (fun p => (p, time)),
                 pending := [],
                 exits_remaining := s.exits_remaining - 1 }) ∧
    (s.pending ≠ [] → s.exits_remaining - 1 ≤ 0 →
      (s.unreachable ++ s.pending.map (fun p => (p, time))).Pairwise
        (fun a b => a.2 ≤ b.2) →
      smrExit allts time s =
        { s with ts := END_OF_TIME,
                 pending := [],
                 exits_remaining := SWEEP_THRESHOLD,
                 unreachable :=
                   (s.unreachable ++ s.pending.map (fun p => (p, time))).filter
                     (fun r => decide (oldestOf allts ≤ r.2)),
                 destroyed := s.destroyed ++
                   ((s.unreachable ++
                     s.pending.map (fun p => (p, time))).filter
                       (fun r => decide (r.2 < oldestOf allts))).map Prod.fst,
                 sweeps := s.sweeps + 1 }) := by
  refine ⟨rfl, ?_, ?_, ?_, ?_⟩
  · rw [smrExit]
    by_cases hp : s.pending.length = 0
    · simp [hp]
    · simp only [hp, if_false]
      by_cases hc : 0 < s.exits_remaining - 1
      · simp [hc]
      · simp [hc, sweep]
  · intro hp
    simp [smrExit, hp]
  · intro hp hc
    have hl : ¬s.pending.length = 0 := by
      simpa [List.length_eq_zero] using hp
    simp [smrExit, hl, hc]
  · intro hp hc hsorted
    have hl : ¬s.pending.length = 0 := by
      simpa [List.length_eq_zero] using hp
    have hc' : ¬0 < s.exits_remaining - 1 := by omega
    rw [smrExit]
    simp only [hl, if_false, hc', sweep, sweepLoop_eq _ _ hsorted]

/-- One counterexample round keeps the pending list empty, performs two
retirements, and ticks the countdown by one without sweeping. -/
theorem c7round_spec (s : SmrState) (hp : s.pending = [])
    (hc : 2 ≤ s.exits_remaining) :
    (c7round s).pending = [] ∧ (c7round s).sweeps = s.sweeps ∧
    (c7round s).retirements = s.retirements + 2 ∧
    (c7round s).exits_remaining = s.exits_remaining - 1 := by
  have hc' : 0 < s.exits_remaining - 1 := by omega
  simp [c7round, reclaim, smrExit, hp, hc']

/-- After `k ≤ 1022` counterexample rounds: `2 * k` retirements, no sweep,
and the countdown at `1024 - k`. -/
theorem c7iter_spec (k : Nat) (hk : k ≤ 1022) :
    (c7iter k).pending = [] ∧ (c7iter k).sweeps = 0 ∧
    (c7iter k).retirements = 2 * k ∧
    (c7iter k).exits_remaining = 1024 - (k : Int) := by
  induction k with
  | zero => exact ⟨rfl, rfl, rfl, by norm_num [c7iter, smrInit, SWEEP_THRESHOLD]⟩
  | succ k ih =>
    have ihh := ih (by omega)
    have hstep := c7round_spec (c7iter k) ihh.1
      (by rw [ihh.2.2.2]; omega)
    refine ⟨hstep.1, ?_, ?_, ?_⟩
    · rw [c7iter, hstep.2.1, ihh.2.1]
    · rw [c7iter, hstep.2.2.1, ihh.2.2.1]; ring
    · rw [c7iter, hstep.2.2.2, ihh.2.2.2]; push_cast; ring

/-- Counterexample to C7 as stated: 512 exits that each flush two retirements
perform 1024 retirements in total, yet the countdown (which ticks once per
flushing exit, not once per retirement) has only reached 512 and no sweep has
run. -/
theorem smr_sweep_cadence_counterexample :
    c7run.retirements = 1024 ∧ c7run.sweeps = 0 ∧
    c7run.exits_remaining = 512 := by
  have h := c7iter_spec 512 (by norm_num)
  refine ⟨?_, h.2.1, ?_⟩
  · rw [c7run, h.2.2.1]
  · rw [c7run, h.2.2.2]; norm_num

/-- Witness for the amended C7 theorem: a flushing exit with the countdown at
1, a sorted deque, and one stale record sweeps exactly that record. -/
theorem smr_exit_sweep_spec_witness :
    (([9] : List Nat) ≠ [] ∧ ((1 : Int) - 1 ≤ 0) ∧
      (([(4, 2), (9, 5)] ++ ([9] : List Nat).map
        (fun p => (p, 7))).Pairwise (fun a b : Nat × Nat => a.2 ≤ b.2))) ∧
    smrExit [3, END_OF_TIME] 7
      { ts := 3, pending := [9], unreachable := [(4, 2), (9, 5)],
        exits_remaining := 1, destroyed := [], sweeps := 0,
        retirements := 3 } =
      { ts := END_OF_TIME, pending := [],
        unreachable := [(9, 5), (9, 7)], exits_remaining := SWEEP_THRESHOLD,
        destroyed := [4], sweeps := 1, retirements := 3 } := by
  refine ⟨⟨by decide, by decide, by decide⟩, ?_⟩
  have h := (smr_exit_sweep_spec [3, END_OF_TIME] 7 9
    { ts := 3, pending := [9], unreachable := [(4, 2), (9, 5)],
      exits_remaining := 1, destroyed := [], sweeps := 0,
      retirements := 3 }).2.2.2.2 (by decide) (by decide) (by decide)
  rw [h]
  decide

end SMR

/-! ## Claim C5: redo-log write-back atomicity and frame -/

namespace RedoLog

/-- A value congruent to `P - 1` mod `P = 2 ^ n` has all its low `n` bits
set. -/
theorem testBit_of_mask_full {x n j : Nat} (h : x % 2 ^ n = 2 ^ n - 1)
    (hj : j < n) : x.testBit j = true := by
  have h1 := Nat.testBit_mod_two_pow x n j
  rw [h, Nat.testBit_two_pow_sub_one] at h1
  simpa [hj] using h1.symm

/-- A value congruent to 0 mod `2 ^ n` has all its low `n` bits clear. -/
theorem testBit_of_mask_zero {x n j : Nat} (h : x % 2 ^ n = 0) (hj : j < n) :
    x.testBit j = false := by
  have h1 := Nat.testBit_mod_two_pow x n j
  rw [h] at h1
  simpa [hj] using h1.symm

/-- Bits under the truncated shifted mask: full low bits of `m` mean the
corresponding `v` bits are set. -/
theorem vbit_of_mfull {v b W P j : Nat} (hW : W ≤ 32) (hP : P = 2 ^ W)
    (h : ((v >>> b) % 2 ^ 32) % P = P - 1) (h1 : b ≤ j) (h2 : j < b + W) :
    v.testBit j = true := by
  subst hP
  rw [Nat.mod_mod_of_dvd _ (pow_dvd_pow 2 hW)] at h
  have h3 := testBit_of_mask_full h (show j - b < W by omega)
  rw [Nat.testBit_shiftRight, Nat.add_sub_cancel' h1] at h3
  exact h3

/-- Bits under the truncated shifted mask: zero low bits of `m` mean the
corresponding `v` bits are clear. -/
theorem vbit_of_mzero {v b W P j : Nat} (hW : W ≤ 32) (hP : P = 2 ^ W)
    (h : ((v >>> b) % 2 ^ 32) % P = 0) (h1 : b ≤ j) (h2 : j < b + W) :
    v.testBit j = false := by
  subst hP
  rw [Nat.mod_mod_of_dvd _ (pow_dvd_pow 2 hW)] at h
  have h3 := testBit_of_mask_zero h (show j - b < W by omega)
  rw [Nat.testBit_shiftRight, Nat.add_sub_cancel' h1] at h3
  exact h3

/-- Converse: if `W` consecutive `v` bits from `b` are set, the truncated
shifted mask has full low `W` bits. -/
theorem mfull_of_vbits {v b W P : Nat} (hW : W ≤ 32) (hP : P = 2 ^ W)
    (h : ∀ j, b ≤ j → j < b + W → v.testBit j = true) :
    ((v >>> b) % 2 ^ 32) % P = P - 1 := by
  subst hP
  rw [Nat.mod_mod_of_dvd _ (pow_dvd_pow 2 hW)]
  apply Nat.eq_of_testBit_eq
  intro i
  rw [Nat.testBit_mod_two_pow, Nat.testBit_two_pow_sub_one,
    Nat.testBit_shiftRight]
  by_cases hi : i < W
  · simp [hi, h (b + i) (by omega) (by omega)]
  · simp [hi]

/-- The instantiated chunk size, as a rewriting equation for omega. -/
theorem CHUNKSIZE_eq : CHUNKSIZE = 32 := rfl

/-- Every store emitted by the write-back loop lies beyond the current
offset, stays inside the chunk, has width 1, 2, 4 or 8, is naturally
aligned, and covers only valid bytes. -/
theorem wbStoresAux_sound (v : Nat) :
    ∀ (fuel bytes : Nat), ∀ pw ∈ wbStoresAux v bytes fuel,
      bytes ≤ pw.1 ∧ pw.1 + pw.2 ≤ CHUNKSIZE ∧
      (pw.2 = 1 ∨ pw.2 = 2 ∨ pw.2 = 4 ∨ pw.2 = 8) ∧ pw.1 % pw.2 = 0 ∧
      (∀ j, pw.1 ≤ j → j < pw.1 + pw.2 → v.testBit j = true) := by
  intro fuel
  induction fuel with
  | zero => intro bytes pw hpw; simp [wbStoresAux] at hpw
  | succ fuel ih =>
    intro bytes pw hpw
    by_cases hb : bytes < CHUNKSIZE
    case neg => simp [wbStoresAux, hb] at hpw
    rw [wbStoresAux] at hpw
    simp only [hb, if_true] at hpw
    have hb32 : bytes < 32 := hb
    split_ifs at hpw with h1 h2 h3 h4 h5 h6 h7
    · rcases List.mem_cons.mp hpw with rfl | hrest
      · refine ⟨le_refl _, by rw [CHUNKSIZE_eq]; omega, by simp, h1.2, ?_⟩
        intro j hj1 hj2
        exact vbit_of_mfull (by norm_num) (by norm_num) h1.1 hj1 hj2
      · have := ih _ _ hrest
        exact ⟨by omega, this.2⟩
    · have := ih _ _ hpw
      exact ⟨by omega, this.2⟩
    · rcases List.mem_cons.mp hpw with rfl | hrest
      · refine ⟨le_refl _, by rw [CHUNKSIZE_eq]; omega, by simp, h3.2, ?_⟩
        intro j hj1 hj2
        exact vbit_of_mfull (by norm_num) (by norm_num) h3.1 hj1 hj2
      · have := ih _ _ hrest
        exact ⟨by omega, this.2⟩
    · have := ih _ _ hpw
      exact ⟨by omega, this.2⟩
    · rcases List.mem_cons.mp hpw with rfl | hrest
      · refine ⟨le_refl _, by rw [CHUNKSIZE_eq]; omega, by simp, h5.2, ?_⟩
        intro j hj1 hj2
        exact vbit_of_mfull (by norm_num) (by norm_num) h5.1 hj1 hj2
      · have := ih _ _ hrest
        exact ⟨by omega, this.2⟩
    · have := ih _ _ hpw
      exact ⟨by omega, this.2⟩
    · rcases List.mem_cons.mp hpw with rfl | hrest
      · refine ⟨le_refl _, by rw [CHUNKSIZE_eq]; omega, by simp,
          Nat.mod_one _, ?_⟩
        intro j hj1 hj2
        have hj : j = bytes := by omega
        subst hj
        exact vbit_of_mfull (W := 1) (P := 2) (by norm_num) (by norm_num) h7
          (le_refl _) (by omega)
      · have := ih _ _ hrest
        exact ⟨by omega, this.2⟩
    · have := ih _ _ hpw
      exact ⟨by omega, this.2⟩

end RedoLog

namespace RedoLog

/-- Every valid byte at or beyond the current offset is covered by some
emitted store (the loop skips only over runs of invalid bytes). -/
theorem wbStoresAux_complete (v : Nat) :
    ∀ (fuel bytes : Nat), CHUNKSIZE ≤ bytes + fuel →
      ∀ j, bytes ≤ j → j < CHUNKSIZE → v.testBit j = true →
      ∃ pw ∈ wbStoresAux v bytes fuel, pw.1 ≤ j ∧ j < pw.1 + pw.2 := by
  intro fuel
  induction fuel with
  | zero =>
    intro bytes hfuel j hj1 hj2 _
    omega
  | succ fuel ih =>
    intro bytes hfuel j hj1 hj2 hbit
    have hb : bytes < CHUNKSIZE := by omega
    rw [wbStoresAux]
    simp only [hb, if_true]
    split_ifs with h1 h2 h3 h4 h5 h6 h7
    · by_cases hcov : j < bytes + 8
      · exact ⟨(bytes, 8), List.mem_cons_self _ _, hj1, hcov⟩
      · obtain ⟨pw, hmem, hc⟩ := ih (bytes + 8) (by omega) j (by omega) hj2 hbit
        exact ⟨pw, List.mem_cons_of_mem _ hmem, hc⟩
    · by_cases hcov : j < bytes + 8
      · exact absurd hbit (by
          simp [vbit_of_mzero (W := 8) (P := 256) (by norm_num) (by norm_num)
            h2 hj1 hcov])
      · exact ih (bytes + 8) (by omega) j (by omega) hj2 hbit
    · by_cases hcov : j < bytes + 4
      · exact ⟨(bytes, 4), List.mem_cons_self _ _, hj1, hcov⟩
      · obtain ⟨pw, hmem, hc⟩ := ih (bytes + 4) (by omega) j (by omega) hj2 hbit
        exact ⟨pw, List.mem_cons_of_mem _ hmem, hc⟩
    · by_cases hcov : j < bytes + 4
      · exact absurd hbit (by
          simp [vbit_of_mzero (W := 4) (P := 16) (by norm_num) (by norm_num)
            h4 hj1 hcov])
      · exact ih (bytes + 4) (by omega) j (by omega) hj2 hbit
    · by_cases hcov : j < bytes + 2
      · exact ⟨(bytes, 2), List.mem_cons_self _ _, hj1, hcov⟩
      · obtain ⟨pw, hmem, hc⟩ := ih (bytes + 2) (by omega) j (by omega) hj2 hbit
        exact ⟨pw, List.mem_cons_of_mem _ hmem, hc⟩
    · by_cases hcov : j < bytes + 2
      · exact absurd hbit (by
          simp [vbit_of_mzero (W := 2) (P := 4) (by norm_num) (by norm_num)
            h6 hj1 hcov])
      · exact ih (bytes + 2) (by omega) j (by omega) hj2 hbit
    · by_cases hcov : j < bytes + 1
      · exact ⟨(bytes, 1), List.mem_cons_self _ _, hj1, hcov⟩
      · obtain ⟨pw, hmem, hc⟩ := ih (bytes + 1) (by omega) j (by omega) hj2 hbit
        exact ⟨pw, List.mem_cons_of_mem _ hmem, hc⟩
    · by_cases hcov : j < bytes + 1
      · have hmz : (v >>> bytes) % 2 ^ 32 % 2 = 0 := by omega
        exact absurd hbit (by
          simp [vbit_of_mzero (W := 1) (P := 2) (by norm_num) (by norm_num)
            hmz hj1 hcov])
      · exact ih (bytes + 1) (by omega) j (by omega) hj2 hbit

end RedoLog

namespace RedoLog

/-- Single-store coverage: a `w`-byte scalar, naturally aligned and entirely
valid, is covered by one emitted store (the earlier larger-width branches
fire before any smaller store could tear it). -/
theorem wbStoresAux_single (v s w : Nat)
    (hw : w = 1 ∨ w = 2 ∨ w = 4 ∨ w = 8) (hs : s % w = 0)
    (hend : s + w ≤ CHUNKSIZE)
    (hvalid : ∀ j, s ≤ j → j < s + w → v.testBit j = true) :
    ∀ (fuel bytes : Nat), CHUNKSIZE ≤ bytes + fuel → bytes ≤ s →
      ∃ pw ∈ wbStoresAux v bytes fuel, pw.1 ≤ s ∧ s + w ≤ pw.1 + pw.2 := by
  rw [CHUNKSIZE_eq] at hend
  have hw1 : 1 ≤ w := by rcases hw with rfl | rfl | rfl | rfl <;> norm_num
  intro fuel
  induction fuel with
  | zero =>
    intro bytes hfuel hbs
    rw [CHUNKSIZE_eq] at hfuel
    omega
  | succ fuel ih =>
    intro bytes hfuel hbs
    simp only [CHUNKSIZE_eq] at hfuel ih
    have hb : bytes < CHUNKSIZE := by rw [CHUNKSIZE_eq]; omega
    have hb32 : bytes < 32 := hb
    rw [wbStoresAux]
    simp only [hb, if_true]
    split_ifs with h1 h2 h3 h4 h5 h6 h7
    · by_cases hnext : bytes + 8 ≤ s
      · obtain ⟨pw, hmem, hc⟩ := ih (bytes + 8) (by omega) hnext
        exact ⟨pw, List.mem_cons_of_mem _ hmem, hc⟩
      · refine ⟨(bytes, 8), List.mem_cons_self _ _, hbs, ?_⟩
        have h8 : bytes % 8 = 0 := h1.2
        rcases hw with rfl | rfl | rfl | rfl <;> omega
    · by_cases hnext : bytes + 8 ≤ s
      · exact ih (bytes + 8) (by omega) hnext
      · have hbit := hvalid s (le_refl _) (by omega)
        have hz := vbit_of_mzero (W := 8) (P := 256) (by norm_num)
          (by norm_num) h2 hbs (by omega)
        simp [hz] at hbit
    · by_cases hnext : bytes + 4 ≤ s
      · obtain ⟨pw, hmem, hc⟩ := ih (bytes + 4) (by omega) hnext
        exact ⟨pw, List.mem_cons_of_mem _ hmem, hc⟩
      · have h4a : bytes % 4 = 0 := h3.2
        rcases hw with rfl | rfl | rfl | rfl
        · exact ⟨(bytes, 4), List.mem_cons_self _ _, hbs, by omega⟩
        · exact ⟨(bytes, 4), List.mem_cons_self _ _, hbs, by omega⟩
        · exact ⟨(bytes, 4), List.mem_cons_self _ _, hbs, by omega⟩
        · have heq : s = bytes := by omega
          exfalso
          apply h1
          refine ⟨mfull_of_vbits (W := 8) (P := 256) (by norm_num)
            (by norm_num) (fun j hj1 hj2 => hvalid j (by omega) (by omega)),
            by omega⟩
    · by_cases hnext : bytes + 4 ≤ s
      · exact ih (bytes + 4) (by omega) hnext
      · have hbit := hvalid s (le_refl _) (by omega)
        have hz := vbit_of_mzero (W := 4) (P := 16) (by norm_num)
          (by norm_num) h4 hbs (by omega)
        simp [hz] at hbit
    · by_cases hnext : bytes + 2 ≤ s
      · obtain ⟨pw, hmem, hc⟩ := ih (bytes + 2) (by omega) hnext
        exact ⟨pw, List.mem_cons_of_mem _ hmem, hc⟩
      · have h2a : bytes % 2 = 0 := h5.2
        rcases hw with rfl | rfl | rfl | rfl
        · exact ⟨(bytes, 2), List.mem_cons_self _ _, hbs, by omega⟩
        · exact ⟨(bytes, 2), List.mem_cons_self _ _, hbs, by omega⟩
        · have heq : s = bytes := by omega
          exfalso
          apply h3
          refine ⟨mfull_of_vbits (W := 4) (P := 16) (by norm_num)
            (by norm_num) (fun j hj1 hj2 => hvalid j (by omega) (by omega)),
            by omega⟩
        · have heq : s = bytes := by omega
          exfalso
          apply h1
          refine ⟨mfull_of_vbits (W := 8) (P := 256) (by norm_num)
            (by norm_num) (fun j hj1 hj2 => hvalid j (by omega) (by omega)),
            by omega⟩
    · by_cases hnext : bytes + 2 ≤ s
      · exact ih (bytes + 2) (by omega) hnext
      · have hbit := hvalid s (le_refl _) (by omega)
        have hz := vbit_of_mzero (W := 2) (P := 4) (by norm_num)
          (by norm_num) h6 hbs (by omega)
        simp [hz] at hbit
    · by_cases hnext : bytes + 1 ≤ s
      · obtain ⟨pw, hmem, hc⟩ := ih (bytes + 1) (by omega) hnext
        exact ⟨pw, List.mem_cons_of_mem _ hmem, hc⟩
      · have heq : s = bytes := by omega
        rcases hw with rfl | rfl | rfl | rfl
        · exact ⟨(bytes, 1), List.mem_cons_self _ _, hbs, by omega⟩
        · exfalso
          apply h5
          refine ⟨mfull_of_vbits (W := 2) (P := 4) (by norm_num)
            (by norm_num) (fun j hj1 hj2 => hvalid j (by omega) (by omega)),
            by omega⟩
        · exfalso
          apply h3
          refine ⟨mfull_of_vbits (W := 4) (P := 16) (by norm_num)
            (by norm_num) (fun j hj1 hj2 => hvalid j (by omega) (by omega)),
            by omega⟩
        · exfalso
          apply h1
          refine ⟨mfull_of_vbits (W := 8) (P := 256) (by norm_num)
            (by norm_num) (fun j hj1 hj2 => hvalid j (by omega) (by omega)),
            by omega⟩
    · by_cases hnext : bytes + 1 ≤ s
      · exact ih (bytes + 1) (by omega) hnext
      · exfalso
        apply h7
        have heq : s = bytes := by omega
        have := mfull_of_vbits (W := 1) (P := 2) (by norm_num) (by norm_num)
          (v := v) (b := bytes)
          (fun j hj1 hj2 => hvalid j (by omega) (by omega))
        omega

end RedoLog

namespace RedoLog

/-- Addresses outside every store's range are untouched by the fold. -/
theorem foldl_store_frame (c : writeback_chunk_t)
    (stores : List (Nat × Nat)) (mem : Nat → Nat) (a : Nat)
    (h : ∀ pw ∈ stores, a < c.bAddr + pw.1 ∨ c.bAddr + pw.1 + pw.2 ≤ a) :
    stores.foldl (fun mem pw => storeBytes c pw.1 pw.2 mem) mem a = mem a := by
  induction stores generalizing mem with
  | nil => rfl
  | cons hd tl ih =>
    rw [List.foldl_cons, ih _ (fun pw hpw => h pw (List.mem_cons_of_mem _ hpw))]
    have hhd := h hd (List.mem_cons_self _ _)
    simp only [storeBytes]
    rw [if_neg (by omega)]

/-- A chunk byte covered by some store in the list receives its payload
byte. -/
theorem foldl_store_covered (c : writeback_chunk_t)
    (stores : List (Nat × Nat)) (mem : Nat → Nat) (j : Nat)
    (hc : ∃ pw ∈ stores, pw.1 ≤ j ∧ j < pw.1 + pw.2) :
    stores.foldl (fun mem pw => storeBytes c pw.1 pw.2 mem) mem
      (c.bAddr + j) = c.data.getD j 0 := by
  induction stores generalizing mem with
  | nil =>
    obtain ⟨pw, hmem, _⟩ := hc
    cases hmem
  | cons hd tl ih =>
    by_cases hcov : ∃ pw ∈ tl, pw.1 ≤ j ∧ j < pw.1 + pw.2
    · rw [List.foldl_cons]
      exact ih _ hcov
    · obtain ⟨pw, hmem, hj⟩ := hc
      rcases List.mem_cons.mp hmem with rfl | hmemtl
      · rw [List.foldl_cons,
          foldl_store_frame c tl _ _ (fun pw hpw => by
            have hnc : ¬(pw.1 ≤ j ∧ j < pw.1 + pw.2) :=
              fun hh => hcov ⟨pw, hpw, hh.1, hh.2⟩
            omega)]
        simp only [storeBytes]
        rw [if_pos (by omega), Nat.add_sub_cancel_left]
      · exact absurd ⟨pw, hmemtl, hj⟩ hcov

/-- C5.  `writeback()` on a chunk stores to every byte marked valid exactly
the chunk's payload byte and leaves every other memory byte unchanged; the
emitted stores are naturally aligned with widths 8, 4, 2 or 1, each covers
only valid bytes, and every naturally aligned fully-valid scalar of width
1, 2, 4 or 8 is covered by a single emitted store. -/
theorem writeback_chunk_spec (c : writeback_chunk_t) (mem : Nat → Nat) :
    (∀ j, j < CHUNKSIZE → c.vBytes.testBit j = true →
      writeback_chunk c mem (c.bAddr + j) = c.data.getD j 0) ∧
    (∀ j, j < CHUNKSIZE → c.vBytes.testBit j = false →
      writeback_chunk c mem (c.bAddr + j) = mem (c.bAddr + j)) ∧
    (∀ a, a < c.bAddr ∨ c.bAddr + CHUNKSIZE ≤ a →
      writeback_chunk c mem a = mem a) ∧
    (∀ pw ∈ wbStores c.vBytes 0,
      (pw.2 = 1 ∨ pw.2 = 2 ∨ pw.2 = 4 ∨ pw.2 = 8) ∧ pw.1 % pw.2 = 0 ∧
      pw.1 + pw.2 ≤ CHUNKSIZE ∧
      (∀ j, pw.1 ≤ j → j < pw.1 + pw.2 → c.vBytes.testBit j = true)) ∧
    (∀ s w, (w = 1 ∨ w = 2 ∨ w = 4 ∨ w = 8) → s % w = 0 →
      s + w ≤ CHUNKSIZE →
      (∀ j, s ≤ j → j < s + w → c.vBytes.testBit j = true) →
      ∃ pw ∈ wbStores c.vBytes 0, pw.1 ≤ s ∧ s + w ≤ pw.1 + pw.2) := by
  refine ⟨?_, ?_, ?_, ?_, ?_⟩
  · intro j hj hbit
    exact foldl_store_covered c _ mem j
      (wbStoresAux_complete c.vBytes CHUNKSIZE 0 (by omega) j (Nat.zero_le _)
        hj hbit)
  · intro j hj hbit
    apply foldl_store_frame
    intro pw hpw
    have hsound := wbStoresAux_sound c.vBytes CHUNKSIZE 0 pw hpw
    have : ¬(pw.1 ≤ j ∧ j < pw.1 + pw.2) := by
      intro hcov
      rw [hsound.2.2.2.2 j hcov.1 hcov.2] at hbit
      cases hbit
    omega
  · intro a ha
    apply foldl_store_frame
    intro pw hpw
    have hsound := wbStoresAux_sound c.vBytes CHUNKSIZE 0 pw hpw
    have h1 := hsound.2.1
    rw [CHUNKSIZE_eq] at h1 ha
    omega
  · intro pw hpw
    have hsound := wbStoresAux_sound c.vBytes CHUNKSIZE 0 pw hpw
    exact ⟨hsound.2.2.1, hsound.2.2.2.1, hsound.2.1, hsound.2.2.2.2⟩
  · intro s w hw hs hend hvalid
    exact wbStoresAux_single c.vBytes s w hw hs hend hvalid CHUNKSIZE 0
      (by omega) (Nat.zero_le _)

/-- Witness for C5 at a concrete chunk: mask `0xF` at base 100, byte 2 valid
and rewritten to the payload, byte 4 invalid and left unchanged. -/
theorem writeback_chunk_spec_witness :
    ((2 : Nat) < CHUNKSIZE ∧ (Nat.testBit 15 2 = true) ∧
      (4 : Nat) < CHUNKSIZE ∧ (Nat.testBit 15 4 = false)) ∧
    writeback_chunk { bAddr := 100, vBytes := 15, data := [6, 7, 8, 9] }
      (fun _ => 5) (100 + 2) =
      List.getD [6, 7, 8, 9] 2 0 ∧
    writeback_chunk { bAddr := 100, vBytes := 15, data := [6, 7, 8, 9] }
      (fun _ => 5) (100 + 4) = (fun _ => (5 : Nat)) (100 + 4) :=
  ⟨⟨by decide, by decide, by decide, by decide⟩,
    (writeback_chunk_spec { bAddr := 100, vBytes := 15, data := [6, 7, 8, 9] }
      (fun _ => 5)).1 2 (by decide) (by decide),
    (writeback_chunk_spec { bAddr := 100, vBytes := 15, data := [6, 7, 8, 9] }
      (fun _ => 5)).2.1 4 (by decide) (by decide)⟩

end RedoLog


/-! ## Claims C10, C4, C1: the redo-log hash index -/

namespace RedoLog

theorem iget_set_self {tbl : List index_t} {i : Nat} (h : i < tbl.length)
    (x : index_t) : iget (tbl.set i x) i = x := by
  simp [iget, List.getD, List.getElem?_set_self, h]

theorem iget_set_ne {tbl : List index_t} {i j : Nat} (h : i ≠ j)
    (x : index_t) : iget (tbl.set i x) j = iget tbl j := by
  simp [iget, List.getD, List.getElem?_set_ne h]

theorem iget_out {tbl : List index_t} {i : Nat} (h : tbl.length ≤ i) :
    iget tbl i = index0 := by
  simp [iget, List.getD, List.getElem?_eq_none h]

theorem iget_replicate {n i : Nat} : iget (List.replicate n index0) i = index0 := by
  by_cases h : i < n
  · simp [iget, List.getD, List.getElem?_replicate, h]
  · apply iget_out
    simpa using Nat.le_of_not_lt h

theorem cget_append_lt {chunks : List writeback_chunk_t}
    {more : List writeback_chunk_t} {j : Nat} (h : j < chunks.length) :
    cget (chunks ++ more) j = cget chunks j := by
  simp [cget, List.getD, List.getElem?_append, h]

theorem cget_append_self {chunks : List writeback_chunk_t}
    {c : writeback_chunk_t} :
    cget (chunks ++ [c]) chunks.length = c := by
  simp [cget, List.getD]

theorem cget_set_self {chunks : List writeback_chunk_t} {j : Nat}
    (h : j < chunks.length) (c : writeback_chunk_t) :
    cget (chunks.set j c) j = c := by
  simp [cget, List.getD, List.getElem?_set_self, h]

theorem cget_set_ne {chunks : List writeback_chunk_t} {j j' : Nat}
    (h : j ≠ j') (c : writeback_chunk_t) :
    cget (chunks.set j c) j' = cget chunks j' := by
  simp [cget, List.getD, List.getElem?_set_ne h]

/-- The hash is always a valid table position. -/
theorem hashOfShift_lt (shift key : Nat) (h : shift ≤ 32) :
    hashOfShift shift key < 2 ^ (32 - shift) := by
  rw [hashOfShift, Nat.shiftRight_eq_div_pow]
  apply Nat.div_lt_of_lt_mul
  calc mix13_hash key % 2 ^ 32 < 2 ^ 32 := Nat.mod_lt _ (by norm_num)
  _ = 2 ^ shift * 2 ^ (32 - shift) := by rw [← pow_add]; congr 1; omega

/-- If the probe runs out of fuel, every visited slot was valid. -/
theorem probe_out_valid (tbl : List index_t) (len ver key : Nat)
    (hlen : 0 < len) :
    ∀ fuel h, h < len → probe tbl len ver key h fuel = .out →
      ∀ d < fuel, validAt tbl ver ((h + d) % len) := by
  intro fuel
  induction fuel with
  | zero => intro h _ _ d hd; omega
  | succ fuel ih =>
    intro h hh hout d hd
    rw [probe] at hout
    by_cases hv : (iget tbl h).vVer = ver
    · rw [if_pos hv] at hout
      by_cases hc : (iget tbl h).cAddr = key
      · rw [if_pos hc] at hout
        cases hout
      · rw [if_neg hc] at hout
        match d with
        | 0 =>
          have hmod : (h + 0) % len = h := by
            rw [Nat.add_zero]; exact Nat.mod_eq_of_lt hh
          rw [hmod]
          exact hv
        | d + 1 =>
          have := ih ((h + 1) % len) (Nat.mod_lt _ hlen) hout d (by omega)
          rwa [Nat.mod_add_mod, show h + 1 + d = h + (d + 1) by omega] at this
    · rw [if_neg hv] at hout
      cases hout

/-- With an invalid slot somewhere and `len` fuel, the probe halts. -/
theorem probe_halts (tbl : List index_t) (len ver key : Nat)
    (hlen : 0 < len) (hinv : ∃ i < len, ¬ validAt tbl ver i)
    (h0 : Nat) (hh : h0 < len) :
    probe tbl len ver key h0 len ≠ .out := by
  intro hout
  obtain ⟨i, hi, hnv⟩ := hinv
  have hav := probe_out_valid tbl len ver key hlen len h0 hh hout
  apply hnv
  by_cases hcmp : h0 ≤ i
  · have := hav (i - h0) (by omega)
    rwa [show h0 + (i - h0) = i by omega, Nat.mod_eq_of_lt hi] at this
  · have := hav (i + len - h0) (by omega)
    rwa [show h0 + (i + len - h0) = i + len by omega, Nat.add_mod_right,
      Nat.mod_eq_of_lt hi] at this

/-- Soundness of a successful probe: the result comes from a valid slot on
the probe path holding the key, with all strictly earlier slots valid and
not matching. -/
theorem probe_found_sound (tbl : List index_t) (len ver key : Nat)
    (hlen : 0 < len) :
    ∀ fuel h idx, h < len → probe tbl len ver key h fuel = .found idx →
      ∃ d < fuel, validAt tbl ver ((h + d) % len) ∧
        (iget tbl ((h + d) % len)).cAddr = key ∧
        (iget tbl ((h + d) % len)).vIdx = idx ∧
        ∀ d' < d, validAt tbl ver ((h + d') % len) ∧
          (iget tbl ((h + d') % len)).cAddr ≠ key := by
  intro fuel
  induction fuel with
  | zero => intro h idx _ hf; cases hf
  | succ fuel ih =>
    intro h idx hh hf
    have hmod : (h + 0) % len = h := by
      rw [Nat.add_zero]; exact Nat.mod_eq_of_lt hh
    rw [probe] at hf
    by_cases hv : (iget tbl h).vVer = ver
    · rw [if_pos hv] at hf
      by_cases hc : (iget tbl h).cAddr = key
      · rw [if_pos hc] at hf
        cases hf
        refine ⟨0, by omega, ?_, ?_, ?_, ?_⟩
        · rw [hmod]; exact hv
        · rw [hmod]; exact hc
        · rw [hmod]
        · intro d' hd'; omega
      · rw [if_neg hc] at hf
        obtain ⟨d, hd, hva, hca, hia, hpath⟩ :=
          ih ((h + 1) % len) idx (Nat.mod_lt _ hlen) hf
        rw [Nat.mod_add_mod] at hva hca hia
        refine ⟨d + 1, by omega, ?_, ?_, ?_, ?_⟩
        · rwa [show h + (d + 1) = h + 1 + d by omega]
        · rwa [show h + (d + 1) = h + 1 + d by omega]
        · rwa [show h + (d + 1) = h + 1 + d by omega]
        · intro d' hd'
          match d' with
          | 0 =>
            rw [hmod]
            exact ⟨hv, hc⟩
          | d' + 1 =>
            have := hpath d' (by omega)
            rw [Nat.mod_add_mod, show h + 1 + d' = h + (d' + 1) by omega]
              at this
            exact this
    · rw [if_neg hv] at hf
      cases hf

/-- Soundness of a probe that stops at a free slot: the slot is invalid, on
the probe path, and all strictly earlier slots are valid and do not match
the key. -/
theorem probe_free_sound (tbl : List index_t) (len ver key : Nat)
    (hlen : 0 < len) :
    ∀ fuel h slot, h < len → probe tbl len ver key h fuel = .freeSlot slot →
      ∃ d < fuel, slot = (h + d) % len ∧ ¬ validAt tbl ver slot ∧
        ∀ d' < d, validAt tbl ver ((h + d') % len) ∧
          (iget tbl ((h + d') % len)).cAddr ≠ key := by
  intro fuel
  induction fuel with
  | zero => intro h slot _ hf; cases hf
  | succ fuel ih =>
    intro h slot hh hf
    have hmod : (h + 0) % len = h := by
      rw [Nat.add_zero]; exact Nat.mod_eq_of_lt hh
    rw [probe] at hf
    by_cases hv : (iget tbl h).vVer = ver
    · rw [if_pos hv] at hf
      by_cases hc : (iget tbl h).cAddr = key
      · rw [if_pos hc] at hf
        cases hf
      · rw [if_neg hc] at hf
        obtain ⟨d, hd, hsl, hnv, hpath⟩ :=
          ih ((h + 1) % len) slot (Nat.mod_lt _ hlen) hf
        rw [Nat.mod_add_mod] at hsl
        refine ⟨d + 1, by omega, ?_, hnv, ?_⟩
        · rwa [show h + (d + 1) = h + 1 + d by omega]
        · intro d' hd'
          match d' with
          | 0 =>
            rw [hmod]
            exact ⟨hv, hc⟩
          | d' + 1 =>
            have := hpath d' (by omega)
            rw [Nat.mod_add_mod, show h + 1 + d' = h + (d' + 1) by omega]
              at this
            exact this
    · rw [if_neg hv] at hf
      cases hf
      refine ⟨0, by omega, hmod.symm, hv, ?_⟩
      intro d' hd'; omega

/-- If a valid slot holding the key sits at distance `dstar` with a fully
valid prefix, the probe finds a matching slot no further than `dstar`. -/
theorem probe_reach (tbl : List index_t) (len ver key : Nat)
    (hlen : 0 < len) :
    ∀ fuel h dstar, h < len → dstar < fuel →
      validAt tbl ver ((h + dstar) % len) →
      (iget tbl ((h + dstar) % len)).cAddr = key →
      (∀ d' < dstar, validAt tbl ver ((h + d') % len)) →
      ∃ idx, probe tbl len ver key h fuel = .found idx ∧
        ∃ df ≤ dstar, validAt tbl ver ((h + df) % len) ∧
          (iget tbl ((h + df) % len)).cAddr = key ∧
          (iget tbl ((h + df) % len)).vIdx = idx := by
  intro fuel
  induction fuel with
  | zero => intro h dstar _ h2; omega
  | succ fuel ih =>
    intro h dstar hh hd hva hca hpath
    have hmod : (h + 0) % len = h := by
      rw [Nat.add_zero]; exact Nat.mod_eq_of_lt hh
    rw [probe]
    by_cases hc : (iget tbl h).cAddr = key
    · have hv : (iget tbl h).vVer = ver := by
        match dstar with
        | 0 => rw [← hmod]; exact hva
        | d + 1 =>
          have := hpath 0 (by omega)
          rwa [hmod] at this
      rw [if_pos hv, if_pos hc]
      refine ⟨(iget tbl h).vIdx, rfl, 0, by omega, ?_, ?_, ?_⟩
      · rw [hmod]; exact hv
      · rw [hmod]; exact hc
      · rw [hmod]
    · match dstar with
      | 0 =>
        rw [hmod] at hca
        exact absurd hca hc
      | dstar + 1 =>
        have hv : (iget tbl h).vVer = ver := by
          have := hpath 0 (by omega)
          rwa [hmod] at this
        rw [if_pos hv, if_neg hc]
        have hva' : validAt tbl ver (((h + 1) % len + dstar) % len) := by
          rwa [Nat.mod_add_mod, show h + 1 + dstar = h + (dstar + 1) by omega]
        have hca' :
            (iget tbl (((h + 1) % len + dstar) % len)).cAddr = key := by
          rwa [Nat.mod_add_mod, show h + 1 + dstar = h + (dstar + 1) by omega]
        have hpath' : ∀ d' < dstar,
            validAt tbl ver (((h + 1) % len + d') % len) := by
          intro d' hd'
          rw [Nat.mod_add_mod, show h + 1 + d' = h + (d' + 1) by omega]
          exact hpath (d' + 1) (by omega)
        obtain ⟨idx, hpr, df, hdf, hva2, hca2, hia2⟩ :=
          ih ((h + 1) % len) dstar (Nat.mod_lt _ hlen) (by omega)
            hva' hca' hpath'
        rw [Nat.mod_add_mod,
          show h + 1 + df = h + (df + 1) by omega] at hva2 hca2 hia2
        exact ⟨idx, hpr, df + 1, by omega, hva2, hca2, hia2⟩

end RedoLog

namespace RedoLog

/-- In a well-formed state, valid slots map injectively into the chunk
vector, so there are at most `vec.count` of them. -/
theorem card_valid_le (s : RedoLogState) (hwf : wf s) :
    ((Finset.range s.len).filter (fun i => validAt s.tbl s.ver i)).card ≤
      s.chunks.length := by
  obtain ⟨⟨-, -, -, -, -, -, hsound, -, -, hcinj, -, -⟩, -⟩ := hwf
  rw [← Finset.card_range s.chunks.length]
  apply Finset.card_le_card_of_injOn (fun i => (iget s.tbl i).vIdx)
  · intro i hi
    have hi' := Finset.mem_filter.mp hi
    exact Finset.mem_range.mpr
      (hsound i (Finset.mem_range.mp hi'.1) hi'.2).1
  · intro i hi i' hi' heq
    have h1 := Finset.mem_filter.mp hi
    have h2 := Finset.mem_filter.mp hi'
    by_contra hne
    have heq' : (iget s.tbl i).vIdx = (iget s.tbl i').vIdx := heq
    exact hcinj i (Finset.mem_range.mp h1.1) i' (Finset.mem_range.mp h2.1)
      h1.2 h2.2 hne
      (by
        have ha := (hsound i (Finset.mem_range.mp h1.1) h1.2).2
        have hb := (hsound i' (Finset.mem_range.mp h2.1) h2.2).2
        rw [← ha, ← hb, heq'])

/-- A well-formed table always has an invalid slot. -/
theorem exists_invalid (s : RedoLogState) (hwf : wf s) :
    ∃ i < s.len, ¬ validAt s.tbl s.ver i := by
  have hcard := card_valid_le s hwf
  obtain ⟨⟨-, -, -, hlen3, -, -, -, -, -, -, -, -⟩, hspill⟩ := hwf
  by_contra hno
  push_neg at hno
  have hall : (Finset.range s.len).filter
      (fun i => validAt s.tbl s.ver i) = Finset.range s.len := by
    apply Finset.filter_true_of_mem
    intro i hi
    exact hno i (Finset.mem_range.mp hi)
  rw [hall, Finset.card_range] at hcard
  simp only [SPILL_FACTOR] at hspill
  omega

/-- The probe of a well-formed state never exhausts its fuel. -/
theorem probe_never_out (s : RedoLogState) (hwf : wf s) (key : Nat) :
    probe s.tbl s.len s.ver key (hashOf s key) s.len ≠ .out := by
  have hinv := exists_invalid s hwf
  obtain ⟨⟨-, hsh, hlen, hlen3, -, -, -, -, -, -, -, -⟩, -⟩ := hwf
  apply probe_halts s.tbl s.len s.ver key (by omega) hinv
  rw [hlen, hashOf]
  exact hashOfShift_lt _ _ hsh

/-- `lookup` finds every chunk present in the vector. -/
theorem lookup_finds (s : RedoLogState) (hwf : wf s) (j : Nat)
    (hj : j < s.chunks.length) :
    lookup s (cget s.chunks j).bAddr = some j := by
  obtain ⟨⟨htlen, hsh, hlen, hlen3, hver, hvle, hsound, hcomp, hbinj,
    hcinj, hchain, hdata⟩, hspill⟩ := hwf
  have hlen0 : 0 < s.len := by omega
  obtain ⟨i, hi, hvi, hci, hii⟩ := hcomp j hj
  obtain ⟨d, hd, hieq, hpath⟩ := hchain i hi hvi
  have hh0 : hashOfShift s.shift (cget s.chunks j).bAddr < s.len := by
    rw [hlen]
    exact hashOfShift_lt _ _ hsh
  have hhash : hashOfShift s.shift (iget s.tbl i).cAddr =
      hashOfShift s.shift (cget s.chunks j).bAddr := by rw [hci]
  rw [hhash] at hieq hpath
  obtain ⟨idx, hpr, df, hdf, hva2, hca2, hia2⟩ :=
    probe_reach s.tbl s.len s.ver (cget s.chunks j).bAddr hlen0 s.len
      (hashOfShift s.shift (cget s.chunks j).bAddr) d hh0 (by omega)
      (by rw [← hieq]; exact hvi) (by rw [← hieq]; exact hci) hpath
  have hp : (hashOfShift s.shift (cget s.chunks j).bAddr + df) % s.len <
      s.len := Nat.mod_lt _ hlen0
  have hpi : (hashOfShift s.shift (cget s.chunks j).bAddr + df) % s.len =
      i := by
    by_contra hne
    exact hcinj _ hp i hi hva2 hvi hne (by rw [hca2, hci])
  rw [hpi] at hia2
  rw [lookup, hashOf, hpr]
  rw [← hia2, hii]

/-- Soundness of `lookup`: a hit names a chunk whose base address is the
key. -/
theorem lookup_sound (s : RedoLogState) (hwf : wf s) (key j : Nat)
    (hfind : lookup s key = some j) :
    j < s.chunks.length ∧ (cget s.chunks j).bAddr = key := by
  have hwf' := hwf
  obtain ⟨⟨htlen, hsh, hlen, hlen3, hver, hvle, hsound, hcomp, hbinj,
    hcinj, hchain, hdata⟩, hspill⟩ := hwf'
  have hlen0 : 0 < s.len := by omega
  have hh0 : hashOf s key < s.len := by
    rw [hlen, hashOf]
    exact hashOfShift_lt _ _ hsh
  rw [lookup] at hfind
  rcases hpr : probe s.tbl s.len s.ver key (hashOf s key) s.len with
    ⟨idx⟩ | ⟨slot⟩ | _
  · rw [hpr] at hfind
    cases hfind
    obtain ⟨d, hd, hva, hca, hia, hpath⟩ :=
      probe_found_sound s.tbl s.len s.ver key hlen0 s.len (hashOf s key) j
        hh0 hpr
    have hp : (hashOf s key + d) % s.len < s.len := Nat.mod_lt _ hlen0
    have := hsound _ hp hva
    rw [hia] at this
    rw [hca] at this
    exact this
  · rw [hpr] at hfind
    cases hfind
  · rw [hpr] at hfind
    cases hfind

/-- `lookup` misses exactly the keys that are not chunk base addresses. -/
theorem lookup_absent (s : RedoLogState) (hwf : wf s) (key : Nat)
    (habs : ∀ j < s.chunks.length, (cget s.chunks j).bAddr ≠ key) :
    lookup s key = none := by
  rcases hfind : lookup s key with _ | j
  · rfl
  · have := lookup_sound s hwf key j hfind
    exact absurd this.2 (habs j this.1)

end RedoLog

namespace RedoLog

/-- Setting a valid entry into some slot can only add validity. -/
theorem validAt_set_mono {tbl : List index_t} {ver i slot : Nat}
    {e : index_t} (he : e.vVer = ver) (h : validAt tbl ver i) :
    validAt (tbl.set slot e) ver i := by
  by_cases hsi : slot = i
  · subst hsi
    by_cases hlt : slot < tbl.length
    · rw [validAt, iget_set_self hlt]; exact he
    · rwa [validAt, List.set_eq_of_length_le (Nat.le_of_not_lt hlt)]
  · rwa [validAt, iget_set_ne hsi]

/-- `reserve` on a key already in the index returns its vector index and
leaves the state unchanged. -/
theorem reserve_eq_found {s : RedoLogState} {key idx : Nat}
    (hpr : probe s.tbl s.len s.ver key (hashOf s key) s.len = .found idx) :
    reserve s key = (idx, s) := by
  rw [reserve, hpr]

/-- `reserve` on an absent key claims the free slot, appends a chunk, and
then applies the resize and rebuild checks. -/
theorem reserve_eq_free {s : RedoLogState} {key slot : Nat}
    (hpr : probe s.tbl s.len s.ver key (hashOf s key) s.len =
      .freeSlot slot) :
    reserve s key =
      (s.chunks.length,
        if (reserveInsertState s key slot).chunks.length * SPILL_FACTOR ≥
            (reserveInsertState s key slot).len then
          rebuild
            (if (reserveInsertState s key slot).chunks.length =
                (reserveInsertState s key slot).cap then
              resize (reserveInsertState s key slot)
            else reserveInsertState s key slot)
        else
          if (reserveInsertState s key slot).chunks.length =
              (reserveInsertState s key slot).cap then
            resize (reserveInsertState s key slot)
          else reserveInsertState s key slot) := by
  rw [reserve, hpr]
  rfl

/-- A probe that ends at a free slot means the key has no chunk. -/
theorem key_absent_of_free {s : RedoLogState} {key slot : Nat} (hwf : wf s)
    (hpr : probe s.tbl s.len s.ver key (hashOf s key) s.len =
      .freeSlot slot) :
    ∀ j < s.chunks.length, (cget s.chunks j).bAddr ≠ key := by
  intro j hj hkey
  have hfind := lookup_finds s hwf j hj
  rw [hkey, lookup, hashOf] at hfind
  rw [hashOf] at hpr
  rw [hpr] at hfind
  cases hfind

/-- Claiming the free slot for a fresh key and appending its chunk
preserves all the core invariants. -/
theorem reserveInsert_wfCore (s : RedoLogState) (hwf : wf s)
    (key slot : Nat)
    (hpr : probe s.tbl s.len s.ver key (hashOf s key) s.len =
      .freeSlot slot) :
    wfCore (reserveInsertState s key slot) := by
  have habs := key_absent_of_free hwf hpr
  obtain ⟨⟨htlen, hsh, hlen, hlen3, hver, hvle, hsound, hcomp, hbinj, hcinj,
    hchain, hdata⟩, hspill⟩ := hwf
  have hlen0 : 0 < s.len := by omega
  have hh0 : hashOf s key < s.len := by
    rw [hlen, hashOf]; exact hashOfShift_lt _ _ hsh
  obtain ⟨d, hd, hslot, hnv, hpath⟩ :=
    probe_free_sound s.tbl s.len s.ver key hlen0 s.len _ slot hh0 hpr
  have hslot_lt : slot < s.len := by rw [hslot]; exact Nat.mod_lt _ hlen0
  have hslot_tlen : slot < s.tbl.length := by rw [htlen]; exact hslot_lt
  have higet_slot : iget (reserveInsertState s key slot).tbl slot =
      { vVer := s.ver, cAddr := key, vIdx := s.chunks.length } :=
    iget_set_self hslot_tlen _
  have higet_ne : ∀ i, i ≠ slot →
      iget (reserveInsertState s key slot).tbl i = iget s.tbl i :=
    fun i hi => iget_set_ne (fun h => hi h.symm) _
  have hvalid_to : ∀ i, validAt (reserveInsertState s key slot).tbl s.ver i →
      i = slot ∨ validAt s.tbl s.ver i := by
    intro i hv
    by_cases hi : i = slot
    · exact Or.inl hi
    · right
      rwa [validAt, ← higet_ne i hi]
  have hvalid_old : ∀ i, validAt s.tbl s.ver i →
      validAt (reserveInsertState s key slot).tbl s.ver i :=
    fun i h => validAt_set_mono rfl h
  have hvalid_slot : validAt (reserveInsertState s key slot).tbl s.ver slot := by
    rw [validAt, higet_slot]
  have hne_slot : ∀ i, validAt s.tbl s.ver i → i ≠ slot := by
    intro i hv hi
    exact hnv (hi ▸ hv)
  have hcget_lt : ∀ j, j < s.chunks.length →
      cget (reserveInsertState s key slot).chunks j = cget s.chunks j :=
    fun j hj => cget_append_lt hj
  have hcget_new : cget (reserveInsertState s key slot).chunks
      s.chunks.length =
      { bAddr := key, vBytes := 0, data := List.replicate CHUNKSIZE 0 } :=
    cget_append_self
  have hcount : (reserveInsertState s key slot).chunks.length =
      s.chunks.length + 1 := by
    simp [reserveInsertState]
  refine ⟨?_, hsh, hlen, hlen3, hver, ?_, ?_, ?_, ?_, ?_, ?_, ?_⟩
  · simpa [reserveInsertState] using htlen
  · intro i hi
    by_cases hislot : i = slot
    · rw [hislot, higet_slot]
      exact le_refl s.ver
    · rw [higet_ne i hislot]
      exact hvle i hi
  · intro i hi hv
    rw [hcount]
    by_cases hislot : i = slot
    · rw [hislot, higet_slot]
      refine ⟨Nat.lt_succ_self _, ?_⟩
      simp [hcget_new]
    · rcases hvalid_to i hv with h | hold
      · exact absurd h hislot
      · rw [higet_ne i hislot]
        have := hsound i hi hold
        refine ⟨by omega, ?_⟩
        rw [hcget_lt _ this.1]
        exact this.2
  · intro j hj
    rw [hcount] at hj
    by_cases hjend : j = s.chunks.length
    · subst hjend
      refine ⟨slot, hslot_lt, hvalid_slot, ?_, ?_⟩
      · rw [higet_slot, hcget_new]
      · rw [higet_slot]
    · have hj' : j < s.chunks.length := by omega
      obtain ⟨i, hi, hvi, hci, hii⟩ := hcomp j hj'
      refine ⟨i, hi, hvalid_old i hvi, ?_, ?_⟩
      · rw [higet_ne i (hne_slot i hvi), hcget_lt _ hj']
        exact hci
      · rw [higet_ne i (hne_slot i hvi)]
        exact hii
  · intro j hj j' hj' hne
    rw [hcount] at hj hj'
    by_cases hjend : j = s.chunks.length
    · subst hjend
      have hj'' : j' < s.chunks.length := by omega
      rw [hcget_new, hcget_lt _ hj'']
      exact fun h => habs j' hj'' h.symm
    · by_cases hjend' : j' = s.chunks.length
      · subst hjend'
        have hj'' : j < s.chunks.length := by omega
        rw [hcget_new, hcget_lt _ hj'']
        exact habs j hj''
      · have h1 : j < s.chunks.length := by omega
        have h2 : j' < s.chunks.length := by omega
        rw [hcget_lt _ h1, hcget_lt _ h2]
        exact hbinj j h1 j' h2 hne
  · intro i hi i' hi' hv hv' hne
    by_cases hislot : i = slot
    · subst hislot
      rcases hvalid_to i' hv' with h | hold
      · exact absurd h.symm hne
      · rw [higet_slot, higet_ne i' (hne_slot i' hold)]
        have := hsound i' hi' hold
        intro hkey
        exact habs _ this.1 (by rw [this.2, ← hkey])
    · by_cases hislot' : i' = slot
      · subst hislot'
        rcases hvalid_to i hv with h | hold
        · exact absurd h hislot
        · rw [higet_slot, higet_ne i hislot]
          have := hsound i hi hold
          intro hkey
          exact habs _ this.1 (by rw [this.2, hkey])
      · rcases hvalid_to i hv with h | hold
        · exact absurd h hislot
        rcases hvalid_to i' hv' with h | hold'
        · exact absurd h hislot'
        rw [higet_ne i hislot, higet_ne i' hislot']
        exact hcinj i hi i' hi' hold hold' hne
  · intro i hi hv
    by_cases hislot : i = slot
    · subst hislot
      rw [higet_slot]
      refine ⟨d, hd, hslot, ?_⟩
      intro d' hd'
      exact hvalid_old _ (hpath d' hd').1
    · rcases hvalid_to i hv with h | hold
      · exact absurd h hislot
      · rw [higet_ne i hislot]
        obtain ⟨di, hdi, hieq, hipath⟩ := hchain i hi hold
        refine ⟨di, hdi, hieq, ?_⟩
        intro d' hd'
        exact hvalid_old _ (hipath d' hd')
  · intro j hj
    rw [hcount] at hj
    by_cases hjend : j = s.chunks.length
    · rw [hjend, hcget_new]
      constructor
      · simp
      · intro k hk
        simp [List.getD, List.getElem?_replicate, hk]
    · have hj' : j < s.chunks.length := by omega
      rw [hcget_lt _ hj']
      exact hdata j hj'

end RedoLog

namespace RedoLog

/-- If a table has fewer valid slots than slots, some slot is invalid. -/
theorem exists_invalid_of_card (t : List index_t) (len ver : Nat)
    (hcard : ((Finset.range len).filter
      (fun i => validAt t ver i)).card < len) :
    ∃ i < len, ¬ validAt t ver i := by
  by_contra hno
  push_neg at hno
  have hall : (Finset.range len).filter (fun i => validAt t ver i) =
      Finset.range len := by
    apply Finset.filter_true_of_mem
    intro i hi
    exact hno i (Finset.mem_range.mp hi)
  rw [hall, Finset.card_range] at hcard
  omega

/-- If every slot within one wrap-around of `h0` is valid, every slot is. -/
theorem all_residues_valid (t : List index_t) (len ver : Nat)
    (hlen : 0 < len) (h0 : Nat) (hh : h0 < len)
    (hall : ∀ d < len, validAt t ver ((h0 + d) % len)) :
    ∀ i < len, validAt t ver i := by
  intro i hi
  by_cases hcmp : h0 ≤ i
  · have := hall (i - h0) (by omega)
    rwa [show h0 + (i - h0) = i by omega, Nat.mod_eq_of_lt hi] at this
  · have := hall (i + len - h0) (by omega)
    rwa [show h0 + (i + len - h0) = i + len by omega, Nat.add_mod_right,
      Nat.mod_eq_of_lt hi] at this

/-- The rebuild probing loop either claims the first invalid slot on the
probe path, or exhausts its fuel having seen only valid slots. -/
theorem rebuildInsert_cases (t : List index_t) (len ver b i : Nat)
    (hlen : 0 < len) :
    ∀ fuel h, h < len →
      (∃ d < fuel, ¬ validAt t ver ((h + d) % len) ∧
        (∀ d' < d, validAt t ver ((h + d') % len)) ∧
        rebuildInsert ver len t b i h fuel =
          t.set ((h + d) % len) { vVer := ver, cAddr := b, vIdx := i }) ∨
      ((∀ d < fuel, validAt t ver ((h + d) % len)) ∧
        rebuildInsert ver len t b i h fuel = t) := by
  intro fuel
  induction fuel with
  | zero =>
    intro h hh
    right
    exact ⟨fun d hd => by omega, rfl⟩
  | succ fuel ih =>
    intro h hh
    have hmod : (h + 0) % len = h := by
      rw [Nat.add_zero]; exact Nat.mod_eq_of_lt hh
    rw [rebuildInsert]
    by_cases hv : (iget t h).vVer = ver
    · rw [if_pos hv]
      rcases ih ((h + 1) % len) (Nat.mod_lt _ hlen) with
        ⟨d, hd, hnv, hpath, heq⟩ | ⟨hall, heq⟩
      · left
        rw [Nat.mod_add_mod, show h + 1 + d = h + (d + 1) by omega] at hnv heq
        refine ⟨d + 1, by omega, hnv, ?_, heq⟩
        intro d' hd'
        match d' with
        | 0 => rw [hmod]; exact hv
        | d' + 1 =>
          have := hpath d' (by omega)
          rwa [Nat.mod_add_mod, show h + 1 + d' = h + (d' + 1) by omega]
            at this
      · right
        refine ⟨?_, heq⟩
        intro d hd
        match d with
        | 0 => rw [hmod]; exact hv
        | d + 1 =>
          have := hall d (by omega)
          rwa [Nat.mod_add_mod, show h + 1 + d = h + (d + 1) by omega] at this
    · rw [if_neg hv]
      left
      refine ⟨0, by omega, ?_, ?_, ?_⟩
      · rw [hmod]; exact hv
      · intro d' hd'; omega
      · rw [hmod]

end RedoLog

namespace RedoLog

/-- Inserting the `k`-th chunk into the fresh table advances the rebuild
invariant by one. -/
theorem rebuildInsert_step (t : List index_t) (len ver shift : Nat)
    (chunks : List writeback_chunk_t) (k : Nat)
    (hlen0 : 0 < len) (hsh : shift ≤ 32) (hlen : len = 2 ^ (32 - shift))
    (hinv : rebuildInv t len ver shift chunks k)
    (hk : k < chunks.length) (hklen : k < len)
    (hfresh : ∀ j < k, (cget chunks j).bAddr ≠ (cget chunks k).bAddr) :
    rebuildInv
      (rebuildInsert ver len t (cget chunks k).bAddr k
        (hashOfShift shift (cget chunks k).bAddr) len)
      len ver shift chunks (k + 1) := by
  obtain ⟨htlen, hsound, hcomp, hcinj, hchain, hcard, hvle⟩ := hinv
  have hh0 : hashOfShift shift (cget chunks k).bAddr < len := by
    rw [hlen]; exact hashOfShift_lt _ _ hsh
  rcases rebuildInsert_cases t len ver (cget chunks k).bAddr k hlen0 len
      (hashOfShift shift (cget chunks k).bAddr) hh0 with
    ⟨d, hd, hnv, hpath, heq⟩ | ⟨hall, _⟩
  · rw [heq]
    set p := (hashOfShift shift (cget chunks k).bAddr + d) % len with hp
    set newE : index_t :=
      { vVer := ver, cAddr := (cget chunks k).bAddr, vIdx := k } with hnewE
    have hplt : p < len := Nat.mod_lt _ hlen0
    have hptlen : p < t.length := by rw [htlen]; exact hplt
    have higet_p : iget (t.set p newE) p = newE := iget_set_self hptlen newE
    have higet_ne : ∀ i, i ≠ p → iget (t.set p newE) i = iget t i :=
      fun i hi => iget_set_ne (fun h => hi h.symm) newE
    have hvalid_to : ∀ i, validAt (t.set p newE) ver i →
        i = p ∨ validAt t ver i := by
      intro i hv
      by_cases hi : i = p
      · exact Or.inl hi
      · right; rwa [validAt, ← higet_ne i hi]
    have hvalid_old : ∀ i, validAt t ver i → validAt (t.set p newE) ver i :=
      fun i h => validAt_set_mono rfl h
    have hvalid_p : validAt (t.set p newE) ver p := by
      rw [validAt, higet_p]
    have hne_p : ∀ i, validAt t ver i → i ≠ p := by
      intro i hv hi
      exact hnv (hi ▸ hv)
    refine ⟨by simpa using htlen, ?_, ?_, ?_, ?_, ?_, ?_⟩
    · intro i hi hv
      by_cases hip : i = p
      · rw [hip, higet_p]
        exact ⟨Nat.lt_succ_self k, rfl⟩
      · rcases hvalid_to i hv with h | hold
        · exact absurd h hip
        · rw [higet_ne i hip]
          have := hsound i hi hold
          exact ⟨by omega, this.2⟩
    · intro j hj
      by_cases hjk : j = k
      · refine ⟨p, hplt, hvalid_p, ?_, ?_⟩
        · rw [higet_p, hjk]
        · rw [higet_p, hjk]
      · have hj' : j < k := by omega
        obtain ⟨i, hi, hvi, hci, hii⟩ := hcomp j hj'
        exact ⟨i, hi, hvalid_old i hvi, by
          rw [higet_ne i (hne_p i hvi)]; exact hci, by
          rw [higet_ne i (hne_p i hvi)]; exact hii⟩
    · intro i hi i' hi' hv hv' hne
      by_cases hip : i = p
      · rcases hvalid_to i' hv' with h | hold
        · exact absurd (hip.trans h.symm) hne
        · rw [hip, higet_p, higet_ne i' (hne_p i' hold)]
          have := hsound i' hi' hold
          intro hkey
          exact hfresh _ this.1 (by rw [this.2, ← hkey])
      · by_cases hip' : i' = p
        · rcases hvalid_to i hv with h | hold
          · exact absurd h hip
          · rw [hip', higet_p, higet_ne i hip]
            have := hsound i hi hold
            intro hkey
            exact hfresh _ this.1 (by rw [this.2, hkey])
        · rcases hvalid_to i hv with h | hold
          · exact absurd h hip
          rcases hvalid_to i' hv' with h | hold'
          · exact absurd h hip'
          rw [higet_ne i hip, higet_ne i' hip']
          exact hcinj i hi i' hi' hold hold' hne
    · intro i hi hv
      by_cases hip : i = p
      · rw [hip, higet_p]
        refine ⟨d, hd, hp, ?_⟩
        intro d' hd'
        exact hvalid_old _ (hpath d' hd')
      · rcases hvalid_to i hv with h | hold
        · exact absurd h hip
        · rw [higet_ne i hip]
          obtain ⟨di, hdi, hieq, hipath⟩ := hchain i hi hold
          exact ⟨di, hdi, hieq, fun d' hd' => hvalid_old _ (hipath d' hd')⟩
    · have hsub : (Finset.range len).filter
          (fun i => validAt (t.set p newE) ver i) ⊆
          insert p ((Finset.range len).filter (fun i => validAt t ver i)) := by
        intro x hx
        have hx' := Finset.mem_filter.mp hx
        rcases hvalid_to x hx'.2 with h | hold
        · rw [h]; exact Finset.mem_insert_self _ _
        · exact Finset.mem_insert_of_mem
            (Finset.mem_filter.mpr ⟨hx'.1, hold⟩)
      have h1 := Finset.card_le_card hsub
      have h2 := Finset.card_insert_le p
        ((Finset.range len).filter (fun i => validAt t ver i))
      omega
    · intro i hi
      by_cases hip : i = p
      · rw [hip, higet_p]
      · rw [higet_ne i hip]
        exact hvle i hi
  · exfalso
    have hallvalid := all_residues_valid t len ver hlen0 _ hh0 hall
    have : (Finset.range len).filter (fun i => validAt t ver i) =
        Finset.range len := by
      apply Finset.filter_true_of_mem
      intro i hi
      exact hallvalid i (Finset.mem_range.mp hi)
    rw [this, Finset.card_range] at hcard
    omega

end RedoLog

namespace RedoLog

/-- Running the rehash loop over the remaining chunks carries the rebuild
invariant to the full chunk count. -/
theorem rebuildLoop_inv (ver shift len : Nat)
    (chunks : List writeback_chunk_t)
    (hlen0 : 0 < len) (hsh : shift ≤ 32) (hlen : len = 2 ^ (32 - shift))
    (hbinj : ∀ j < chunks.length, ∀ j' < chunks.length, j ≠ j' →
      (cget chunks j).bAddr ≠ (cget chunks j').bAddr)
    (hcnt : chunks.length < len) :
    ∀ rest k t, chunks.drop k = rest → k ≤ chunks.length →
      rebuildInv t len ver shift chunks k →
      rebuildInv (rebuildLoop ver shift len t k rest) len ver shift chunks
        chunks.length := by
  intro rest
  induction rest with
  | nil =>
    intro k t hdrop hkle hinv
    have hk : k = chunks.length := by
      have h0 : (chunks.drop k).length = 0 := by rw [hdrop]; rfl
      rw [List.length_drop] at h0
      omega
    subst hk
    rw [rebuildLoop]
    exact hinv
  | cons c rest' ih =>
    intro k t hdrop hkle hinv
    have hklt : k < chunks.length := by
      by_contra h
      push_neg at h
      rw [List.drop_eq_nil_of_le h] at hdrop
      exact absurd hdrop (by simp)
    have hck : cget chunks k = c := by
      have h0 : (chunks.drop k)[0]? = some c := by
        rw [hdrop]; simp
      rw [List.getElem?_drop, Nat.add_zero] at h0
      simp [cget, List.getD, h0]
    have hstep := rebuildInsert_step t len ver shift chunks k hlen0 hsh hlen
      hinv hklt (by omega)
      (fun j hj => hbinj j (by omega) k hklt (by omega))
    rw [hck] at hstep
    have hdrop' : chunks.drop (k + 1) = rest' := by
      rw [← List.tail_drop, hdrop]
      rfl
    rw [rebuildLoop]
    exact ih (k + 1) _ hdrop' (by omega) hstep

end RedoLog

namespace RedoLog

/-- `rebuild` on a state satisfying the core invariants, given the doubled
headroom, yields a fully well-formed state with the same chunks and version,
doubled index length, and decremented shift. -/
theorem rebuild_wf (s : RedoLogState) (hcore : wfCore s) (hsh2 : 2 ≤ s.shift)
    (hheadroom : s.chunks.length * SPILL_FACTOR < 2 * s.len) :
    wf (rebuild s) ∧ (rebuild s).chunks = s.chunks ∧
    (rebuild s).ver = s.ver ∧ (rebuild s).len = 2 * s.len ∧
    (rebuild s).shift = s.shift - 1 := by
  obtain ⟨htlen, hsh, hlen, hlen3, hver, hvle, hsound, hcomp, hbinj, hcinj,
    hchain, hdata⟩ := hcore
  have hlen2 : 2 ^ (32 - (s.shift - 1)) = 2 * s.len := by
    rw [hlen, show 32 - (s.shift - 1) = (32 - s.shift) + 1 from by omega,
      pow_succ]
    ring
  have hlen0 : 0 < 2 ^ (32 - (s.shift - 1)) := by
    rw [hlen2]; omega
  have hinv0 : rebuildInv (List.replicate (2 ^ (32 - (s.shift - 1))) index0)
      (2 ^ (32 - (s.shift - 1))) s.ver (s.shift - 1) s.chunks 0 := by
    refine ⟨List.length_replicate _ _, ?_, ?_, ?_, ?_, ?_, ?_⟩
    · intro i hi hv
      rw [validAt, iget_replicate] at hv
      exact absurd hv (by simp [index0]; omega)
    · intro j hj
      exact absurd hj (by omega)
    · intro i hi i' hi' hv
      rw [validAt, iget_replicate] at hv
      exact absurd hv (by simp [index0]; omega)
    · intro i hi hv
      rw [validAt, iget_replicate] at hv
      exact absurd hv (by simp [index0]; omega)
    · have hemp : ((Finset.range (2 ^ (32 - (s.shift - 1)))).filter
          (fun i => validAt (List.replicate (2 ^ (32 - (s.shift - 1))) index0)
            s.ver i)) = ∅ := by
        apply Finset.filter_false_of_mem
        intro i hi hv
        rw [validAt, iget_replicate] at hv
        exact absurd hv (by simp [index0]; omega)
      rw [hemp]
      simp
    · intro i hi
      rw [iget_replicate]
      simp [index0]
  have hcnt : s.chunks.length < 2 ^ (32 - (s.shift - 1)) := by
    rw [hlen2]
    simp only [SPILL_FACTOR] at hheadroom
    omega
  have hfin := rebuildLoop_inv s.ver (s.shift - 1) (2 ^ (32 - (s.shift - 1)))
    s.chunks hlen0 (by omega) rfl hbinj hcnt s.chunks 0
    (List.replicate (2 ^ (32 - (s.shift - 1))) index0) (List.drop_zero _)
    (Nat.zero_le _) hinv0
  obtain ⟨htlen', hsound', hcomp', hcinj', hchain', hcard', hvle'⟩ := hfin
  refine ⟨⟨⟨htlen', show s.shift - 1 ≤ 32 from by omega, rfl, ?_, hver, hvle',
    hsound', hcomp', hbinj,
    hcinj', hchain', hdata⟩, ?_⟩, rfl, rfl, hlen2, rfl⟩
  · show 3 ≤ 2 ^ (32 - (s.shift - 1))
    rw [hlen2]; omega
  · show s.chunks.length * SPILL_FACTOR < 2 ^ (32 - (s.shift - 1))
    rw [hlen2]; exact hheadroom

end RedoLog

namespace RedoLog

/-- `reserve` preserves well-formedness (rebuilding the index when the spill
threshold is hit) and either returns the vector index of an existing chunk
for the key, leaving the state untouched, or appends a fresh all-invalid
chunk for the absent key and returns its index. -/
theorem reserve_spec (s : RedoLogState) (hwf : wf s) (key : Nat)
    (hsh2 : 2 ≤ s.shift) :
    wf (reserve s key).2 ∧
    ((∃ j, j < s.chunks.length ∧ (cget s.chunks j).bAddr = key ∧
        reserve s key = (j, s)) ∨
      ((∀ j < s.chunks.length, (cget s.chunks j).bAddr ≠ key) ∧
        (reserve s key).1 = s.chunks.length ∧
        (reserve s key).2.chunks = s.chunks ++
          [{ bAddr := key, vBytes := 0,
             data := List.replicate CHUNKSIZE 0 }] ∧
        (reserve s key).2.ver = s.ver)) := by
  rcases hpr : probe s.tbl s.len s.ver key (hashOf s key) s.len with
    ⟨idx⟩ | ⟨slot⟩ | _
  · have heq := reserve_eq_found hpr
    have hs := lookup_sound s hwf key idx (by rw [lookup, hpr])
    refine ⟨?_, .inl ⟨idx, hs.1, hs.2, heq⟩⟩
    rw [heq]
    exact hwf
  · have habs := key_absent_of_free hwf hpr
    have hcore1 := reserveInsert_wfCore s hwf key slot hpr
    have heq := reserve_eq_free hpr
    set s1 := reserveInsertState s key slot with hs1
    obtain ⟨⟨htlen, hsh, hlen, hlen3, hver, hvle, hsound, hcomp, hbinj,
      hcinj, hchain, hdata⟩, hspill⟩ := hwf
    have hchunks1 : s1.chunks = s.chunks ++
        [{ bAddr := key, vBytes := 0,
           data := List.replicate CHUNKSIZE 0 }] := rfl
    have hclen : s1.chunks.length = s.chunks.length + 1 := by
      rw [hchunks1]
      simp
    have hheadroom : s1.chunks.length * SPILL_FACTOR < 2 * s1.len := by
      rw [hclen]
      show (s.chunks.length + 1) * SPILL_FACTOR < 2 * s.len
      simp only [SPILL_FACTOR] at hspill ⊢
      omega
    by_cases hrb : s1.chunks.length * SPILL_FACTOR ≥ s1.len
    · by_cases hrs : s1.chunks.length = s1.cap
      · have hrw := rebuild_wf (resize s1) hcore1 hsh2 hheadroom
        rw [heq, if_pos hrb, if_pos hrs]
        refine ⟨hrw.1, .inr ⟨habs, rfl, ?_, ?_⟩⟩
        · rw [show (s.chunks.length,
              rebuild (resize s1)).2.chunks = (rebuild (resize s1)).chunks
              from rfl, hrw.2.1]
          exact hchunks1
        · rw [show (s.chunks.length,
              rebuild (resize s1)).2.ver = (rebuild (resize s1)).ver
              from rfl, hrw.2.2.1]
          rfl
      · have hrw := rebuild_wf s1 hcore1 hsh2 hheadroom
        rw [heq, if_pos hrb, if_neg hrs]
        refine ⟨hrw.1, .inr ⟨habs, rfl, ?_, ?_⟩⟩
        · rw [show (s.chunks.length, rebuild s1).2.chunks =
              (rebuild s1).chunks from rfl, hrw.2.1]
          exact hchunks1
        · rw [show (s.chunks.length, rebuild s1).2.ver =
              (rebuild s1).ver from rfl, hrw.2.2.1]
          rfl
    · push_neg at hrb
      by_cases hrs : s1.chunks.length = s1.cap
      · rw [heq, if_neg (by omega), if_pos hrs]
        exact ⟨⟨hcore1, hrb⟩, .inr ⟨habs, rfl, hchunks1, rfl⟩⟩
      · rw [heq, if_neg (by omega), if_neg hrs]
        exact ⟨⟨hcore1, hrb⟩, .inr ⟨habs, rfl, hchunks1, rfl⟩⟩
  · exact absurd hpr (probe_never_out s hwf key)

end RedoLog

namespace RedoLog

set_option maxRecDepth 8192 in
/-- The default-constructed redo log is well formed. -/
theorem wf_redologInit : wf redologInit := by
  have hnv : ∀ i, (iget redologInit.tbl i).vVer = 0 := fun i => by
    rw [show redologInit.tbl =
      List.replicate (initIndexLoop 32 (0, 32)).1 index0 from rfl,
      iget_replicate]
    rfl
  have hc0 : redologInit.chunks.length = 0 := rfl
  refine ⟨⟨by decide, by decide, by decide, by decide, by decide,
    ?_, ?_, ?_, ?_, ?_, ?_, ?_⟩, by decide⟩
  · intro i hi
    rw [hnv i]
    exact Nat.zero_le _
  · intro i hi hv
    rw [validAt, hnv i] at hv
    exact absurd hv (by decide)
  · intro j hj
    omega
  · intro j hj
    omega
  · intro i hi i' hi' hv
    rw [validAt, hnv i] at hv
    exact absurd hv (by decide)
  · intro i hi hv
    rw [validAt, hnv i] at hv
    exact absurd hv (by decide)
  · intro j hj
    omega

end RedoLog

namespace RedoLog

/-- C10: on every well-formed redo-log state the number of index entries at
the current version is at most the chunk count and the spill bound
`count * SPILL_FACTOR < len` holds, so the linear-probing loop behind both
`lookup` and `reserve` always reaches a slot whose version differs from the
current version (or the key) within `len` probes and halts; moreover
`reserve` re-establishes the full invariant, rebuilding and doubling the
index when the spill threshold is reached. -/
theorem probe_termination_spec (s : RedoLogState) (hwf : wf s) (key : Nat)
    (hsh2 : 2 ≤ s.shift) :
    ((Finset.range s.len).filter (fun i => validAt s.tbl s.ver i)).card ≤
      s.chunks.length ∧
    s.chunks.length * SPILL_FACTOR < s.len ∧
    probe s.tbl s.len s.ver key (hashOf s key) s.len ≠ .out ∧
    wf (reserve s key).2 :=
  ⟨card_valid_le s hwf, hwf.2, probe_never_out s hwf key,
    (reserve_spec s hwf key hsh2).1⟩

theorem probe_termination_spec_witness :
    wf redologInit ∧ 2 ≤ redologInit.shift ∧
    (((Finset.range redologInit.len).filter
        (fun i => validAt redologInit.tbl redologInit.ver i)).card ≤
        redologInit.chunks.length ∧
      redologInit.chunks.length * SPILL_FACTOR < redologInit.len ∧
      probe redologInit.tbl redologInit.len redologInit.ver 7
        (hashOf redologInit 7) redologInit.len ≠ .out ∧
      wf (reserve redologInit 7).2) :=
  ⟨wf_redologInit, by decide,
    probe_termination_spec redologInit wf_redologInit 7 (by decide)⟩

end RedoLog

namespace RedoLog

/-! Byte-level lemmas about `writeBytesLE` / `readBytesLE`, the shallow
model of `insert`'s `*tgt = val` payload store and `get`'s `val = *tgt`
payload load. -/

theorem natGetD_set_ne {l : List Nat} {i j : Nat} (h : i ≠ j) (x : Nat) :
    (l.set i x).getD j 0 = l.getD j 0 := by
  simp [List.getD, List.getElem?_set_ne h]

theorem natGetD_set_self {l : List Nat} {i : Nat} (h : i < l.length)
    (x : Nat) : (l.set i x).getD i 0 = x := by
  simp [List.getD, List.getElem?_set_self, h]

theorem natGetD_set_or (l : List Nat) (i j x : Nat) :
    (l.set i x).getD j 0 = l.getD j 0 ∨ (l.set i x).getD j 0 = x := by
  by_cases hij : i = j
  · subst hij
    by_cases hi : i < l.length
    · exact .inr (natGetD_set_self hi x)
    · left
      rw [List.set_eq_of_length_le (by omega)]
  · exact .inl (natGetD_set_ne hij x)

theorem writeBytesLE_length (w : Nat) : ∀ (data : List Nat) (off v : Nat),
    (writeBytesLE data off w v).length = data.length := by
  induction w with
  | zero => intro data off v; rfl
  | succ w ih =>
    intro data off v
    simp only [writeBytesLE]
    rw [ih]
    simp

theorem writeBytesLE_frame (w : Nat) : ∀ (data : List Nat) (off v j : Nat),
    j < off ∨ off + w ≤ j →
    (writeBytesLE data off w v).getD j 0 = data.getD j 0 := by
  induction w with
  | zero => intro data off v j _; rfl
  | succ w ih =>
    intro data off v j hj
    simp only [writeBytesLE]
    rw [ih _ (off + 1) _ j (by omega)]
    exact natGetD_set_ne (by omega) _

theorem writeBytesLE_get (w : Nat) : ∀ (data : List Nat) (off v k : Nat),
    k < w → off + w ≤ data.length →
    (writeBytesLE data off w v).getD (off + k) 0 = v / 256 ^ k % 256 := by
  induction w with
  | zero => intro data off v k hk _; omega
  | succ w ih =>
    intro data off v k hk hlen
    simp only [writeBytesLE]
    cases k with
    | zero =>
      simp only [Nat.add_zero, pow_zero, Nat.div_one]
      rw [writeBytesLE_frame w _ (off + 1) _ off (by omega),
        natGetD_set_self (by omega) _]
    | succ k =>
      rw [show off + (k + 1) = (off + 1) + k from by omega,
        ih _ (off + 1) _ k (by omega) (by rw [List.length_set]; omega),
        Nat.div_div_eq_div_mul,
        show 256 * 256 ^ k = 256 ^ (k + 1) from by rw [pow_succ]; ring]

theorem writeBytesLE_bytes_lt (w : Nat) : ∀ (data : List Nat) (off v : Nat),
    (∀ j, data.getD j 0 < 256) → ∀ j,
    (writeBytesLE data off w v).getD j 0 < 256 := by
  induction w with
  | zero => intro data off v hb j; exact hb j
  | succ w ih =>
    intro data off v hb j
    simp only [writeBytesLE]
    refine ih _ (off + 1) _ ?_ j
    intro j'
    rcases natGetD_set_or data off j' (v % 256) with h | h
    · rw [h]; exact hb j'
    · rw [h]; exact Nat.mod_lt _ (by omega)

theorem readBytesLE_byte (w : Nat) : ∀ (data : List Nat) (off k : Nat),
    k < w → (∀ j, data.getD j 0 < 256) →
    readBytesLE data off w / 256 ^ k % 256 = data.getD (off + k) 0 := by
  induction w with
  | zero => intro data off k hk _; omega
  | succ w ih =>
    intro data off k hk hb
    simp only [readBytesLE]
    cases k with
    | zero =>
      rw [pow_zero, Nat.div_one, Nat.add_mul_mod_self_left, Nat.add_zero,
        Nat.mod_eq_of_lt (hb off)]
    | succ k =>
      rw [show 256 ^ (k + 1) = 256 * 256 ^ k from by rw [pow_succ]; ring,
        ← Nat.div_div_eq_div_mul,
        Nat.add_mul_div_left _ _ (by omega : 0 < 256),
        Nat.div_eq_of_lt (hb off), Nat.zero_add,
        ih _ (off + 1) k (by omega) hb,
        show off + 1 + k = off + (k + 1) from by omega]

theorem readBytesLE_lt (w : Nat) : ∀ (data : List Nat) (off : Nat),
    (∀ j, data.getD j 0 < 256) → readBytesLE data off w < 256 ^ w := by
  induction w with
  | zero => intro data off _; simp [readBytesLE]
  | succ w ih =>
    intro data off hb
    simp only [readBytesLE]
    have h1 := hb off
    have h2 := ih data (off + 1) hb
    have h3 : 256 ^ (w + 1) = 256 * 256 ^ w := by rw [pow_succ]; ring
    omega

theorem bytes_ext (w : Nat) : ∀ r v : Nat, r < 256 ^ w → v < 256 ^ w →
    (∀ k < w, r / 256 ^ k % 256 = v / 256 ^ k % 256) → r = v := by
  induction w with
  | zero =>
    intro r v hr hv _
    simp [pow_zero] at hr hv
    omega
  | succ w ih =>
    intro r v hr hv hbytes
    have h0 := hbytes 0 (by omega)
    rw [pow_zero, Nat.div_one, Nat.div_one] at h0
    have hdiv : r / 256 = v / 256 := by
      apply ih (r / 256) (v / 256)
      · rw [Nat.div_lt_iff_lt_mul (by omega : 0 < 256)]
        calc r < 256 ^ (w + 1) := hr
        _ = 256 ^ w * 256 := by rw [pow_succ]
      · rw [Nat.div_lt_iff_lt_mul (by omega : 0 < 256)]
        calc v < 256 ^ (w + 1) := hv
        _ = 256 ^ w * 256 := by rw [pow_succ]
      · intro k hk
        have := hbytes (k + 1) (by omega)
        rwa [show 256 ^ (k + 1) = 256 * 256 ^ k from by rw [pow_succ]; ring,
          ← Nat.div_div_eq_div_mul, ← Nat.div_div_eq_div_mul] at this
    have hr' := Nat.div_add_mod r 256
    have hv' := Nat.div_add_mod v 256
    omega

end RedoLog

namespace RedoLog

theorem cget_eq_getElem {chunks : List writeback_chunk_t} {j : Nat}
    (h : j < chunks.length) : cget chunks j = chunks[j] := by
  simp [cget, List.getD, List.getElem?_eq_getElem h]

/-- Soundness of the chunk search underlying `logByte`. -/
theorem findIdx_baddr_sound {chunks : List writeback_chunk_t} {key j : Nat}
    (h : chunks.findIdx? (fun c => c.bAddr = key) = some j) :
    j < chunks.length ∧ (cget chunks j).bAddr = key := by
  rw [List.findIdx?_eq_some_iff_getElem] at h
  obtain ⟨hlt, hp, -⟩ := h
  refine ⟨hlt, ?_⟩
  rw [cget_eq_getElem hlt]
  exact of_decide_eq_true hp

/-- The chunk search returns `none` exactly when no chunk has the key. -/
theorem findIdx_baddr_none {chunks : List writeback_chunk_t} {key : Nat}
    (habs : ∀ j < chunks.length, (cget chunks j).bAddr ≠ key) :
    chunks.findIdx? (fun c => c.bAddr = key) = none := by
  rw [List.findIdx?_eq_none_iff]
  intro x hx
  obtain ⟨j, hj, hxj⟩ := List.mem_iff_getElem.mp hx
  have := habs j hj
  rw [cget_eq_getElem hj, hxj] at this
  exact decide_eq_false this

/-- With injective chunk addresses, the chunk search finds the unique
chunk holding the key. -/
theorem findIdx_baddr_finds {chunks : List writeback_chunk_t} {key j : Nat}
    (hbinj : ∀ a < chunks.length, ∀ b < chunks.length, a ≠ b →
      (cget chunks a).bAddr ≠ (cget chunks b).bAddr)
    (hj : j < chunks.length) (hkey : (cget chunks j).bAddr = key) :
    chunks.findIdx? (fun c => c.bAddr = key) = some j := by
  rcases hfind : chunks.findIdx? (fun c => c.bAddr = key) with _ | j'
  · rw [List.findIdx?_eq_none_iff] at hfind
    have hmem : chunks[j] ∈ chunks := List.getElem_mem _
    have hfalse := hfind _ hmem
    rw [← cget_eq_getElem hj] at hfalse
    rw [hkey] at hfalse
    simp at hfalse
  · have hs := findIdx_baddr_sound hfind
    by_cases hjj : j' = j
    · rw [← hjj]
      exact hfind
    · exact absurd (hs.2.trans hkey.symm) (hbinj j' hs.1 j hj hjj)

/-- `logByte` through a found chunk. -/
theorem logByte_found {s : RedoLogState} {b j : Nat}
    (hfind : s.chunks.findIdx? (fun c => c.bAddr = b - b % CHUNKSIZE) =
      some j) :
    logByte s b =
      if (cget s.chunks j).vBytes.testBit (b % CHUNKSIZE) then
        some ((cget s.chunks j).data.getD (b % CHUNKSIZE) 0)
      else none := by
  rw [logByte, hfind]

/-- `logByte` with no covering chunk. -/
theorem logByte_none {s : RedoLogState} {b : Nat}
    (hfind : s.chunks.findIdx? (fun c => c.bAddr = b - b % CHUNKSIZE) =
      none) :
    logByte s b = none := by
  rw [logByte, hfind]

/-- Replacing one chunk's payload and valid bytes, keeping its base address
and payload shape, preserves well-formedness. -/
theorem set_chunk_wf (s : RedoLogState) (hwf : wf s) (j : Nat)
    (hj : j < s.chunks.length) (c' : writeback_chunk_t)
    (hb : c'.bAddr = (cget s.chunks j).bAddr)
    (hdlen : c'.data.length = CHUNKSIZE)
    (hdb : ∀ k < CHUNKSIZE, c'.data.getD k 0 < 256) :
    wf { s with chunks := s.chunks.set j c' } := by
  obtain ⟨⟨htlen, hsh, hlen, hlen3, hver, hvle, hsound, hcomp, hbinj, hcinj,
    hchain, hdata⟩, hspill⟩ := hwf
  have hba : ∀ i, (cget (s.chunks.set j c') i).bAddr =
      (cget s.chunks i).bAddr := by
    intro i
    by_cases hij : j = i
    · subst hij
      rw [cget_set_self hj, hb]
    · rw [cget_set_ne hij]
  have hlen_set : (s.chunks.set j c').length = s.chunks.length :=
    List.length_set _ _ _
  refine ⟨⟨htlen, hsh, hlen, hlen3, hver, hvle, ?_, ?_, ?_, hcinj, hchain,
    ?_⟩, ?_⟩
  · intro i hi hv
    have h := hsound i hi hv
    refine ⟨?_, ?_⟩
    · show (iget s.tbl i).vIdx < (s.chunks.set j c').length
      rw [hlen_set]
      exact h.1
    · show (cget (s.chunks.set j c') (iget s.tbl i).vIdx).bAddr =
        (iget s.tbl i).cAddr
      rw [hba]
      exact h.2
  · intro j' hj'
    have hj'' : j' < s.chunks.length := by
      have h2 : j' < (s.chunks.set j c').length := hj'
      rwa [hlen_set] at h2
    obtain ⟨i, hi, hv, hca, hvi⟩ := hcomp j' hj''
    refine ⟨i, hi, hv, ?_, hvi⟩
    show (iget s.tbl i).cAddr = (cget (s.chunks.set j c') j').bAddr
    rw [hba]
    exact hca
  · intro a ha b hb' hab
    have ha' : a < s.chunks.length := by
      have h2 : a < (s.chunks.set j c').length := ha
      rwa [hlen_set] at h2
    have hb'' : b < s.chunks.length := by
      have h2 : b < (s.chunks.set j c').length := hb'
      rwa [hlen_set] at h2
    show (cget (s.chunks.set j c') a).bAddr ≠ (cget (s.chunks.set j c') b).bAddr
    rw [hba, hba]
    exact hbinj a ha' b hb'' hab
  · intro j' hj'
    have hj'' : j' < s.chunks.length := by
      have h2 : j' < (s.chunks.set j c').length := hj'
      rwa [hlen_set] at h2
    by_cases hij : j = j'
    · subst hij
      rw [cget_set_self hj]
      exact ⟨hdlen, hdb⟩
    · rw [cget_set_ne hij]
      exact hdata j' hj''
  · show (s.chunks.set j c').length * SPILL_FACTOR < s.len
    rw [hlen_set]
    exact hspill

end RedoLog

namespace RedoLog

/-- From `findIdx?` failure, no chunk holds the key. -/
theorem findIdx_baddr_none_sound {chunks : List writeback_chunk_t}
    {key : Nat}
    (h : chunks.findIdx? (fun c => c.bAddr = key) = none) :
    ∀ j < chunks.length, (cget chunks j).bAddr ≠ key := by
  intro j hj hkey
  rw [List.findIdx?_eq_none_iff] at h
  have hmem : chunks[j] ∈ chunks := List.getElem_mem _
  have hfalse := h _ hmem
  rw [← cget_eq_getElem hj, hkey] at hfalse
  simp at hfalse

/-- All payload bytes of a well-formed chunk are bytes, including the
out-of-range default. -/
theorem data_bytes_lt {t : RedoLogState} (hwf : wf t) {j : Nat}
    (hj : j < t.chunks.length) :
    ∀ i, (cget t.chunks j).data.getD i 0 < 256 := by
  obtain ⟨⟨-, -, -, -, -, -, -, -, -, -, -, hdata⟩, -⟩ := hwf
  obtain ⟨hdlen, hdb⟩ := hdata j hj
  intro i
  by_cases hi : i < CHUNKSIZE
  · exact hdb i hi
  · rw [List.getD_eq_default _ _ (by omega)]
    omega

/-- `reserve` does not change the abstract byte content of the log: an
existing chunk is returned as is, and a fresh chunk starts all-invalid. -/
theorem logByte_reserve (s : RedoLogState) (hwf : wf s) (key : Nat)
    (hsh2 : 2 ≤ s.shift) :
    ∀ b, logByte (reserve s key).2 b = logByte s b := by
  intro b
  have hres := reserve_spec s hwf key hsh2
  rcases hres.2 with ⟨j, hj, hkey, heq⟩ | ⟨habs, hres1, hchunks, hver⟩
  · rw [heq]
  · have hwf1 := hres.1
    obtain ⟨⟨-, -, -, -, -, -, -, -, hbinj1, -, -, -⟩, -⟩ := hwf1
    have hclen1 : (reserve s key).2.chunks.length = s.chunks.length + 1 := by
      rw [hchunks]
      simp
    by_cases hb : b - b % CHUNKSIZE = key
    · have hnew : (cget (reserve s key).2.chunks s.chunks.length).bAddr =
          b - b % CHUNKSIZE := by
        rw [hchunks, cget_append_self, hb]
      have hfind1 : (reserve s key).2.chunks.findIdx?
          (fun c => c.bAddr = b - b % CHUNKSIZE) = some s.chunks.length :=
        findIdx_baddr_finds hbinj1 (by omega) hnew
      have habs2 : ∀ j < s.chunks.length,
          (cget s.chunks j).bAddr ≠ b - b % CHUNKSIZE := by
        rw [hb]
        exact habs
      rw [logByte_found hfind1, hchunks, cget_append_self,
        logByte_none (findIdx_baddr_none habs2)]
      simp [Nat.zero_testBit]
    · rcases hfind : s.chunks.findIdx?
        (fun c => c.bAddr = b - b % CHUNKSIZE) with _ | j'
      · have habs' := findIdx_baddr_none_sound hfind
        have habs2 : ∀ j < (reserve s key).2.chunks.length,
            (cget (reserve s key).2.chunks j).bAddr ≠ b - b % CHUNKSIZE := by
          intro j' hj'
          rw [hclen1] at hj'
          by_cases hj'' : j' < s.chunks.length
          · rw [hchunks, cget_append_lt hj'']
            exact habs' j' hj''
          · have hjeq : j' = s.chunks.length := by omega
            rw [hjeq, hchunks, cget_append_self]
            exact fun hc => hb hc.symm
        rw [logByte_none hfind, logByte_none (findIdx_baddr_none habs2)]
      · have hs := findIdx_baddr_sound hfind
        have hold : (cget (reserve s key).2.chunks j').bAddr =
            b - b % CHUNKSIZE := by
          rw [hchunks, cget_append_lt hs.1]
          exact hs.2
        have hfind1 : (reserve s key).2.chunks.findIdx?
            (fun c => c.bAddr = b - b % CHUNKSIZE) = some j' :=
          findIdx_baddr_finds hbinj1 (by omega) hold
        rw [logByte_found hfind1, logByte_found hfind, hchunks,
          cget_append_lt hs.1]

end RedoLog

namespace RedoLog

/-- Replacing one chunk rewrites the log content of exactly the addresses in
that chunk's 32-byte window, according to the new valid bytes and payload. -/
theorem set_chunk_logByte (t : RedoLogState) (hwf : wf t) (j : Nat)
    (hj : j < t.chunks.length) (c' : writeback_chunk_t)
    (hb : c'.bAddr = (cget t.chunks j).bAddr)
    (hdlen : c'.data.length = CHUNKSIZE)
    (hdb : ∀ k < CHUNKSIZE, c'.data.getD k 0 < 256) :
    ∀ b, logByte { t with chunks := t.chunks.set j c' } b =
      if b - b % CHUNKSIZE = (cget t.chunks j).bAddr then
        (if c'.vBytes.testBit (b % CHUNKSIZE) then
          some (c'.data.getD (b % CHUNKSIZE) 0)
        else none)
      else logByte t b := by
  intro b
  have hwfR := set_chunk_wf t hwf j hj c' hb hdlen hdb
  obtain ⟨⟨-, -, -, -, -, -, -, -, hbinjR, -, -, -⟩, -⟩ := hwfR
  have hjR : j < (t.chunks.set j c').length := by
    rw [List.length_set]
    exact hj
  by_cases hkey : b - b % CHUNKSIZE = (cget t.chunks j).bAddr
  · have hfindR : (t.chunks.set j c').findIdx?
        (fun c => c.bAddr = b - b % CHUNKSIZE) = some j :=
      findIdx_baddr_finds hbinjR hjR (by rw [cget_set_self hj, hb, hkey])
    rw [logByte_found (s := { t with chunks := t.chunks.set j c' }) hfindR,
      if_pos hkey]
    rw [show ({ t with chunks := t.chunks.set j c' } :
      RedoLogState).chunks = t.chunks.set j c' from rfl, cget_set_self hj]
  · rcases hfind : t.chunks.findIdx?
      (fun c => c.bAddr = b - b % CHUNKSIZE) with _ | j'
    · have habs' := findIdx_baddr_none_sound hfind
      have habs2 : ∀ i < (t.chunks.set j c').length,
          (cget (t.chunks.set j c') i).bAddr ≠ b - b % CHUNKSIZE := by
        intro i hi
        rw [List.length_set] at hi
        by_cases hij : j = i
        · subst hij
          rw [cget_set_self hj, hb]
          exact fun hc => hkey hc.symm
        · rw [cget_set_ne hij]
          exact habs' i hi
      rw [logByte_none (s := { t with chunks := t.chunks.set j c' })
        (findIdx_baddr_none habs2), logByte_none hfind, if_neg hkey]
    · have hs := findIdx_baddr_sound hfind
      have hjj : j' ≠ j := by
        intro hc
        subst hc
        exact hkey hs.2.symm
      have holdR : (cget (t.chunks.set j c') j').bAddr =
          b - b % CHUNKSIZE := by
        rw [cget_set_ne (Ne.symm hjj)]
        exact hs.2
      have hfindR : (t.chunks.set j c').findIdx?
          (fun c => c.bAddr = b - b % CHUNKSIZE) = some j' :=
        findIdx_baddr_finds hbinjR
          (by rw [List.length_set]; exact hs.1) holdR
      rw [logByte_found (s := { t with chunks := t.chunks.set j c' }) hfindR,
        logByte_found hfind, if_neg hkey]
      rw [show ({ t with chunks := t.chunks.set j c' } :
        RedoLogState).chunks = t.chunks.set j c' from rfl,
        cget_set_ne (Ne.symm hjj)]

end RedoLog

namespace RedoLog

/-- The entry `reserve` returns always indexes a chunk whose base address is
the requested key. -/
theorem reserve_result_facts (s : RedoLogState) (hwf : wf s) (key : Nat)
    (hsh2 : 2 ≤ s.shift) :
    (reserve s key).1 < (reserve s key).2.chunks.length ∧
    (cget (reserve s key).2.chunks (reserve s key).1).bAddr = key := by
  have hres := reserve_spec s hwf key hsh2
  rcases hres.2 with ⟨j, hj, hkey, heq⟩ | ⟨habs, hres1, hchunks, hver⟩
  · rw [heq]
    exact ⟨hj, hkey⟩
  · rw [hres1, hchunks]
    constructor
    · simp
    · rw [cget_append_self]

/-- `insert` preserves well-formedness for any width, address and value. -/
theorem insert_wf (s : RedoLogState) (hwf : wf s) (hsh2 : 2 ≤ s.shift)
    (w addr v : Nat) : wf (insertT s w addr v) := by
  have hfacts := reserve_result_facts s hwf (addr - addr % CHUNKSIZE) hsh2
  have hres := reserve_spec s hwf (addr - addr % CHUNKSIZE) hsh2
  have hdlen1 : (cget (reserve s (addr - addr % CHUNKSIZE)).2.chunks
      (reserve s (addr - addr % CHUNKSIZE)).1).data.length = CHUNKSIZE := by
    obtain ⟨⟨-, -, -, -, -, -, -, -, -, -, -, hdata⟩, -⟩ := hres.1
    exact (hdata _ hfacts.1).1
  have hbytes1 := data_bytes_lt hres.1 hfacts.1
  have hc'len : (writeBytesLE
      (cget (reserve s (addr - addr % CHUNKSIZE)).2.chunks
        (reserve s (addr - addr % CHUNKSIZE)).1).data (addr % CHUNKSIZE)
      w v).length = CHUNKSIZE := by
    rw [writeBytesLE_length]
    exact hdlen1
  have hc'bytes := writeBytesLE_bytes_lt w
    (cget (reserve s (addr - addr % CHUNKSIZE)).2.chunks
      (reserve s (addr - addr % CHUNKSIZE)).1).data (addr % CHUNKSIZE) v
    (fun i => hbytes1 i)
  have hstep := set_chunk_wf (reserve s (addr - addr % CHUNKSIZE)).2 hres.1
    (reserve s (addr - addr % CHUNKSIZE)).1 hfacts.1
    { bAddr := (cget (reserve s (addr - addr % CHUNKSIZE)).2.chunks
        (reserve s (addr - addr % CHUNKSIZE)).1).bAddr,
      vBytes := (cget (reserve s (addr - addr % CHUNKSIZE)).2.chunks
        (reserve s (addr - addr % CHUNKSIZE)).1).vBytes |||
        ((2 ^ w - 1) <<< (addr % CHUNKSIZE)),
      data := writeBytesLE
        (cget (reserve s (addr - addr % CHUNKSIZE)).2.chunks
          (reserve s (addr - addr % CHUNKSIZE)).1).data (addr % CHUNKSIZE)
        w v }
    rfl hc'len (fun k _ => hc'bytes k)
  exact hstep

end RedoLog

namespace RedoLog

/-- The bits of the width mask `(2 ^ w - 1) <<< off`. -/
theorem mask_testBit (w off m : Nat) :
    ((2 ^ w - 1) <<< off).testBit m =
      (decide (off ≤ m) && decide (m < off + w)) := by
  rw [Nat.testBit_shiftLeft, Nat.testBit_two_pow_sub_one]
  by_cases h1 : off ≤ m
  · by_cases h2 : m - off < w
    · have h3 : m < off + w := by omega
      simp [h1, h2, h3, ge_iff_le]
    · have h3 : ¬ m < off + w := by omega
      simp [h1, h2, h3, ge_iff_le]
  · simp [h1, ge_iff_le]

/-- `insert` updates the abstract log content at exactly the `w` inserted
byte addresses, installing the little-endian bytes of the inserted value,
and leaves every other byte of the log unchanged: each byte's content is the
most recently inserted value for that byte. -/
theorem insert_logByte (s : RedoLogState) (hwf : wf s) (hsh2 : 2 ≤ s.shift)
    (w addr v : Nat) (hw : w = 1 ∨ w = 2 ∨ w = 4 ∨ w = 8)
    (hal : addr % w = 0) :
    ∀ b, logByte (insertT s w addr v) b =
      if addr ≤ b ∧ b < addr + w then some (v / 256 ^ (b - addr) % 256)
      else logByte s b := by
  intro b
  have hoffw : addr % CHUNKSIZE + w ≤ CHUNKSIZE := by
    rw [CHUNKSIZE_eq]
    rcases hw with rfl | rfl | rfl | rfl <;> omega
  have hfacts := reserve_result_facts s hwf (addr - addr % CHUNKSIZE) hsh2
  have hres := reserve_spec s hwf (addr - addr % CHUNKSIZE) hsh2
  have hbinj2 : ∀ j < (reserve s (addr - addr % CHUNKSIZE)).2.chunks.length,
      ∀ j' < (reserve s (addr - addr % CHUNKSIZE)).2.chunks.length, j ≠ j' →
      (cget (reserve s (addr - addr % CHUNKSIZE)).2.chunks j).bAddr ≠ (cget (reserve s (addr - addr % CHUNKSIZE)).2.chunks j').bAddr := by
    obtain ⟨⟨-, -, -, -, -, -, -, -, hbinj, -, -, -⟩, -⟩ := hres.1
    exact hbinj
  have hdlen1 : (cget (reserve s (addr - addr % CHUNKSIZE)).2.chunks (reserve s (addr - addr % CHUNKSIZE)).1).data.length = CHUNKSIZE := by
    obtain ⟨⟨-, -, -, -, -, -, -, -, -, -, -, hdata⟩, -⟩ := hres.1
    exact (hdata _ hfacts.1).1
  have hbytes1 := data_bytes_lt hres.1 hfacts.1
  have hc'len : (writeBytesLE (cget (reserve s (addr - addr % CHUNKSIZE)).2.chunks (reserve s (addr - addr % CHUNKSIZE)).1).data (addr % CHUNKSIZE) w v).length =
      CHUNKSIZE := by
    rw [writeBytesLE_length]
    exact hdlen1
  have hc'bytes := writeBytesLE_bytes_lt w (cget (reserve s (addr - addr % CHUNKSIZE)).2.chunks (reserve s (addr - addr % CHUNKSIZE)).1).data (addr % CHUNKSIZE) v
    (fun i => hbytes1 i)
  have hlb := set_chunk_logByte (reserve s (addr - addr % CHUNKSIZE)).2 hres.1 (reserve s (addr - addr % CHUNKSIZE)).1 hfacts.1
    (insChunk (cget (reserve s (addr - addr % CHUNKSIZE)).2.chunks (reserve s (addr - addr % CHUNKSIZE)).1) w (addr % CHUNKSIZE) v)
    rfl hc'len (fun k _ => hc'bytes k) b
  refine hlb.trans ?_
  have hproj_v : (insChunk (cget (reserve s (addr - addr % CHUNKSIZE)).2.chunks (reserve s (addr - addr % CHUNKSIZE)).1) w (addr % CHUNKSIZE) v).vBytes =
      (cget (reserve s (addr - addr % CHUNKSIZE)).2.chunks (reserve s (addr - addr % CHUNKSIZE)).1).vBytes ||| ((2 ^ w - 1) <<< (addr % CHUNKSIZE)) := rfl
  have hproj_d : (insChunk (cget (reserve s (addr - addr % CHUNKSIZE)).2.chunks (reserve s (addr - addr % CHUNKSIZE)).1) w (addr % CHUNKSIZE) v).data =
      writeBytesLE (cget (reserve s (addr - addr % CHUNKSIZE)).2.chunks (reserve s (addr - addr % CHUNKSIZE)).1).data (addr % CHUNKSIZE) w v := rfl
  by_cases hin : addr ≤ b ∧ b < addr + w
  · have hkeyb : b - b % CHUNKSIZE = addr - addr % CHUNKSIZE := by
      simp only [CHUNKSIZE_eq] at hoffw ⊢
      omega
    have hb32 : b % CHUNKSIZE = addr % CHUNKSIZE + (b - addr) := by
      simp only [CHUNKSIZE_eq] at hoffw ⊢
      omega
    rw [if_pos (by rw [hfacts.2]; exact hkeyb), if_pos hin,
      hproj_v, hproj_d, hb32]
    have hmask : ((2 ^ w - 1) <<< (addr % CHUNKSIZE)).testBit
        (addr % CHUNKSIZE + (b - addr)) = true := by
      rw [mask_testBit]
      simp only [Bool.and_eq_true, decide_eq_true_eq]
      exact ⟨by omega, by omega⟩
    rw [Nat.testBit_or, hmask, Bool.or_true, if_pos rfl,
      writeBytesLE_get w (cget (reserve s (addr - addr % CHUNKSIZE)).2.chunks (reserve s (addr - addr % CHUNKSIZE)).1).data (addr % CHUNKSIZE) v (b - addr)
        (by omega) (by rw [hdlen1]; exact hoffw)]
  · rw [if_neg hin]
    by_cases hkeyb : b - b % CHUNKSIZE = addr - addr % CHUNKSIZE
    · rw [if_pos (by rw [hfacts.2]; exact hkeyb), hproj_v, hproj_d]
      have hm : b % CHUNKSIZE < addr % CHUNKSIZE ∨
          addr % CHUNKSIZE + w ≤ b % CHUNKSIZE := by
        simp only [CHUNKSIZE_eq] at hoffw hkeyb ⊢
        omega
      have hmask : ((2 ^ w - 1) <<< (addr % CHUNKSIZE)).testBit
          (b % CHUNKSIZE) = false := by
        rw [mask_testBit]
        rcases hm with h | h
        · rw [decide_eq_false (by omega : ¬ addr % CHUNKSIZE ≤ b % CHUNKSIZE)]
          simp
        · rw [decide_eq_false (by omega : ¬ b % CHUNKSIZE <
            addr % CHUNKSIZE + w)]
          simp
      rw [Nat.testBit_or, hmask, Bool.or_false,
        writeBytesLE_frame w (cget (reserve s (addr - addr % CHUNKSIZE)).2.chunks (reserve s (addr - addr % CHUNKSIZE)).1).data (addr % CHUNKSIZE) v (b % CHUNKSIZE)
          (by omega)]
      have hfindR2 : (reserve s (addr - addr % CHUNKSIZE)).2.chunks.findIdx?
          (fun c => c.bAddr = b - b % CHUNKSIZE) = some (reserve s (addr - addr % CHUNKSIZE)).1 :=
        findIdx_baddr_finds hbinj2 hfacts.1
          (by rw [hfacts.2]; exact hkeyb.symm)
      rw [← logByte_found hfindR2]
      exact logByte_reserve s hwf _ hsh2 b
    · rw [if_neg (by rw [hfacts.2]; exact hkeyb)]
      exact logByte_reserve s hwf _ hsh2 b

end RedoLog

namespace RedoLog

/-- When every byte of the requested width has been inserted (has content in
the log), `get` succeeds and returns the value whose little-endian bytes are
exactly the logged bytes. -/
theorem get_reads_logBytes (t : RedoLogState) (hwf : wf t)
    (w addr : Nat) (hw : w = 1 ∨ w = 2 ∨ w = 4 ∨ w = 8)
    (hal : addr % w = 0)
    (hdef : ∀ k < w, ∃ u, logByte t (addr + k) = some u) :
    ∃ r, getT t w addr = some r ∧ r < 256 ^ w ∧
      ∀ k < w, logByte t (addr + k) = some (r / 256 ^ k % 256) := by
  have h0w : 0 < w := by rcases hw with rfl | rfl | rfl | rfl <;> omega
  have hw32 : w ≤ 32 := by rcases hw with rfl | rfl | rfl | rfl <;> omega
  have hoffw : addr % CHUNKSIZE + w ≤ CHUNKSIZE := by
    rw [CHUNKSIZE_eq]
    rcases hw with rfl | rfl | rfl | rfl <;> omega
  have hbase : ∀ k < w,
      (addr + k) - (addr + k) % CHUNKSIZE = addr - addr % CHUNKSIZE ∧
      (addr + k) % CHUNKSIZE = addr % CHUNKSIZE + k := by
    intro k hk
    simp only [CHUNKSIZE_eq] at hoffw ⊢
    omega
  obtain ⟨u0, hu0⟩ := hdef 0 h0w
  rw [Nat.add_zero] at hu0
  rcases hfind : t.chunks.findIdx?
    (fun c => c.bAddr = addr - addr % CHUNKSIZE) with _ | j
  · rw [logByte_none hfind] at hu0
    cases hu0
  · have hs := findIdx_baddr_sound hfind
    have hlookup : lookup t (addr - addr % CHUNKSIZE) = some j := by
      have h := lookup_finds t hwf j hs.1
      rw [hs.2] at h
      exact h
    rw [logByte_found hfind] at hu0
    have htb0 : (cget t.chunks j).vBytes.testBit (addr % CHUNKSIZE) =
        true := by
      by_contra hne
      rw [if_neg hne] at hu0
      cases hu0
    have hchunks0 : ¬ t.chunks.length = 0 := by omega
    have hltand : (2 ^ w - 1) &&&
        ((cget t.chunks j).vBytes >>> (addr % CHUNKSIZE)) < 2 ^ 32 := by
      have h1 : (2 ^ w - 1) &&&
          ((cget t.chunks j).vBytes >>> (addr % CHUNKSIZE)) ≤ 2 ^ w - 1 :=
        Nat.and_le_left
      have h2 : 2 ^ w ≤ 2 ^ 32 := Nat.pow_le_pow_right (by omega) hw32
      omega
    have hbit : ((2 ^ w - 1) &&&
        ((cget t.chunks j).vBytes >>> (addr % CHUNKSIZE))).testBit 0 =
        true := by
      rw [Nat.testBit_and, Nat.testBit_two_pow_sub_one,
        Nat.testBit_shiftRight, Nat.add_zero, htb0]
      simp [h0w]
    have hlive : ¬ ((2 ^ w - 1) &&&
        ((cget t.chunks j).vBytes >>> (addr % CHUNKSIZE))) % 2 ^ 32 = 0 := by
      rw [Nat.mod_eq_of_lt hltand]
      intro h0
      rw [h0] at hbit
      simp at hbit
    have hget : getT t w addr =
        some (readBytesLE (cget t.chunks j).data (addr % CHUNKSIZE) w) := by
      simp only [getT, hlookup, if_neg hchunks0, if_neg hlive]
    refine ⟨readBytesLE (cget t.chunks j).data (addr % CHUNKSIZE) w, hget,
      readBytesLE_lt w _ _ (data_bytes_lt hwf hs.1), ?_⟩
    intro k hk
    have hb := hbase k hk
    have hfindk : t.chunks.findIdx?
        (fun c => c.bAddr = (addr + k) - (addr + k) % CHUNKSIZE) = some j := by
      rw [hb.1]
      exact hfind
    obtain ⟨u, hu⟩ := hdef k hk
    rw [logByte_found hfindk, hb.2] at hu
    have htbk : (cget t.chunks j).vBytes.testBit (addr % CHUNKSIZE + k) =
        true := by
      by_contra hne
      rw [if_neg hne] at hu
      cases hu
    rw [logByte_found hfindk, hb.2, if_pos htbk,
      readBytesLE_byte w _ (addr % CHUNKSIZE) k hk (data_bytes_lt hwf hs.1)]

end RedoLog

namespace RedoLog

/-- C4: between `insert` and `clear` the log records, per byte address, the
most recently inserted value: `insert` rewrites exactly its `w` byte
addresses with the little-endian bytes of the inserted value and leaves
every other byte's content unchanged, preserving the log invariant; any
`get` all of whose requested bytes have logged content returns the value
whose bytes are exactly those logged bytes; in particular `insert(a, v)`
immediately followed by `get(a)` yields `v`. -/
theorem insert_get_spec (s : RedoLogState) (hwf : wf s) (hsh2 : 2 ≤ s.shift)
    (w addr v : Nat) (hw : w = 1 ∨ w = 2 ∨ w = 4 ∨ w = 8)
    (hal : addr % w = 0) (hv : v < 2 ^ (8 * w)) :
    wf (insertT s w addr v) ∧
    (∀ b, logByte (insertT s w addr v) b =
      if addr ≤ b ∧ b < addr + w then some (v / 256 ^ (b - addr) % 256)
      else logByte s b) ∧
    (∀ t : RedoLogState, wf t →
      (∀ k < w, ∃ u, logByte t (addr + k) = some u) →
      ∃ r, getT t w addr = some r ∧
        ∀ k < w, logByte t (addr + k) = some (r / 256 ^ k % 256)) ∧
    getT (insertT s w addr v) w addr = some v := by
  refine ⟨insert_wf s hwf hsh2 w addr v,
    insert_logByte s hwf hsh2 w addr v hw hal, ?_, ?_⟩
  · intro t hwt hdef
    obtain ⟨r, hg, hlt, hb⟩ := get_reads_logBytes t hwt w addr hw hal hdef
    exact ⟨r, hg, hb⟩
  · have hlb := insert_logByte s hwf hsh2 w addr v hw hal
    have hwfI := insert_wf s hwf hsh2 w addr v
    have hdef : ∀ k < w, ∃ u,
        logByte (insertT s w addr v) (addr + k) = some u := by
      intro k hk
      rw [hlb (addr + k), if_pos ⟨Nat.le_add_right _ _, by omega⟩]
      exact ⟨_, rfl⟩
    obtain ⟨r, hg, hlt, hb⟩ := get_reads_logBytes (insertT s w addr v)
      hwfI w addr hw hal hdef
    have hbytes_eq : ∀ k < w, r / 256 ^ k % 256 = v / 256 ^ k % 256 := by
      intro k hk
      have h1 := hb k hk
      rw [hlb (addr + k), if_pos ⟨Nat.le_add_right _ _, by omega⟩] at h1
      have h2 := Option.some.inj h1
      rw [show addr + k - addr = k from by omega] at h2
      exact h2.symm
    have hv256 : v < 256 ^ w := by
      have h8 : (256 : Nat) ^ w = 2 ^ (8 * w) := by
        rw [show (256 : Nat) = 2 ^ 8 from rfl, ← pow_mul]
      rw [h8]
      exact hv
    have hrv : r = v := bytes_ext w r v hlt hv256 hbytes_eq
    rw [hg, hrv]

set_option maxRecDepth 8192 in
theorem insert_get_spec_witness :
    wf redologInit ∧ 2 ≤ redologInit.shift ∧
    ((8 : Nat) = 1 ∨ (8 : Nat) = 2 ∨ (8 : Nat) = 4 ∨ (8 : Nat) = 8) ∧
    (16 : Nat) % 8 = 0 ∧ (81985529216486895 : Nat) < 2 ^ (8 * 8) ∧
    (wf (insertT redologInit 8 16 81985529216486895) ∧
      (∀ b, logByte (insertT redologInit 8 16 81985529216486895) b =
        if 16 ≤ b ∧ b < 16 + 8 then
          some (81985529216486895 / 256 ^ (b - 16) % 256)
        else logByte redologInit b) ∧
      (∀ t : RedoLogState, wf t →
        (∀ k < 8, ∃ u, logByte t (16 + k) = some u) →
        ∃ r, getT t 8 16 = some r ∧
          ∀ k < 8, logByte t (16 + k) = some (r / 256 ^ k % 256)) ∧
      getT (insertT redologInit 8 16 81985529216486895) 8 16 =
        some 81985529216486895) :=
  ⟨wf_redologInit, by decide, by decide, by decide, by decide,
    insert_get_spec redologInit wf_redologInit (by decide) 8 16
      81985529216486895 (by decide) (by decide) (by decide)⟩

end RedoLog

namespace RedoLog

/-- `livebits` is zero exactly when none of the requested bytes is valid. -/
theorem livebits_zero_iff (w off vb : Nat) :
    ((2 ^ w - 1) &&& (vb >>> off)) = 0 ↔
      ∀ k < w, vb.testBit (off + k) = false := by
  constructor
  · intro h0 k hk
    have hb := congrArg (fun x => Nat.testBit x k) h0
    simp only [Nat.testBit_and, Nat.testBit_two_pow_sub_one,
      Nat.testBit_shiftRight, Nat.zero_testBit] at hb
    simpa [hk] using hb
  · intro hall
    apply Nat.eq_of_testBit_eq
    intro i
    rw [Nat.testBit_and, Nat.testBit_two_pow_sub_one,
      Nat.testBit_shiftRight, Nat.zero_testBit]
    by_cases hi : i < w
    · simp [hi, hall i hi]
    · simp [hi]

/-- C1 (amended): `get` returns nothing exactly when no requested byte has
valid logged content — no covering chunk, or none of the `w` bytes valid;
as soon as at least one requested byte is valid (not all of them), it
returns the raw payload scalar of the covering chunk. -/
theorem get_spec (s : RedoLogState) (hwf : wf s) (w addr : Nat)
    (hw : w = 1 ∨ w = 2 ∨ w = 4 ∨ w = 8) (hal : addr % w = 0) :
    (getT s w addr = none ↔ ∀ k < w, logByte s (addr + k) = none) ∧
    ((∃ k, k < w ∧ logByte s (addr + k) ≠ none) →
      ∃ j, j < s.chunks.length ∧
        (cget s.chunks j).bAddr = addr - addr % CHUNKSIZE ∧
        getT s w addr = some
          (readBytesLE (cget s.chunks j).data (addr % CHUNKSIZE) w)) := by
  have h0w : 0 < w := by rcases hw with rfl | rfl | rfl | rfl <;> omega
  have hw32 : w ≤ 32 := by rcases hw with rfl | rfl | rfl | rfl <;> omega
  have hoffw : addr % CHUNKSIZE + w ≤ CHUNKSIZE := by
    rw [CHUNKSIZE_eq]
    rcases hw with rfl | rfl | rfl | rfl <;> omega
  have hbase : ∀ k < w,
      (addr + k) - (addr + k) % CHUNKSIZE = addr - addr % CHUNKSIZE ∧
      (addr + k) % CHUNKSIZE = addr % CHUNKSIZE + k := by
    intro k hk
    simp only [CHUNKSIZE_eq] at hoffw ⊢
    omega
  rcases hfind : s.chunks.findIdx?
    (fun c => c.bAddr = addr - addr % CHUNKSIZE) with _ | j
  · have hall : ∀ k < w, logByte s (addr + k) = none := by
      intro k hk
      apply logByte_none
      rw [(hbase k hk).1]
      exact hfind
    have habs := findIdx_baddr_none_sound hfind
    have hgets : getT s w addr = none := by
      by_cases hc0 : s.chunks.length = 0
      · simp only [getT, if_pos hc0]
      · have hlk : lookup s (addr - addr % CHUNKSIZE) = none :=
          lookup_absent s hwf _ habs
        simp only [getT, if_neg hc0, hlk]
    refine ⟨⟨fun _ => hall, fun _ => hgets⟩, ?_⟩
    rintro ⟨k, hk, hne⟩
    exact absurd (hall k hk) hne
  · have hs := findIdx_baddr_sound hfind
    have hlookup : lookup s (addr - addr % CHUNKSIZE) = some j := by
      have h := lookup_finds s hwf j hs.1
      rw [hs.2] at h
      exact h
    have hchunks0 : ¬ s.chunks.length = 0 := by omega
    have hltand : (2 ^ w - 1) &&&
        ((cget s.chunks j).vBytes >>> (addr % CHUNKSIZE)) < 2 ^ 32 := by
      have h1 : (2 ^ w - 1) &&&
          ((cget s.chunks j).vBytes >>> (addr % CHUNKSIZE)) ≤ 2 ^ w - 1 :=
        Nat.and_le_left
      have h2 : 2 ^ w ≤ 2 ^ 32 := Nat.pow_le_pow_right (by omega) hw32
      omega
    have hlbk : ∀ k < w, logByte s (addr + k) =
        if (cget s.chunks j).vBytes.testBit (addr % CHUNKSIZE + k) then
          some ((cget s.chunks j).data.getD (addr % CHUNKSIZE + k) 0)
        else none := by
      intro k hk
      have hfindk : s.chunks.findIdx?
          (fun c => c.bAddr = (addr + k) - (addr + k) % CHUNKSIZE) =
          some j := by
        rw [(hbase k hk).1]
        exact hfind
      rw [logByte_found hfindk, (hbase k hk).2]
    by_cases hz : ((2 ^ w - 1) &&&
        ((cget s.chunks j).vBytes >>> (addr % CHUNKSIZE))) = 0
    · have hallbits := (livebits_zero_iff w (addr % CHUNKSIZE)
        (cget s.chunks j).vBytes).mp hz
      have hall : ∀ k < w, logByte s (addr + k) = none := by
        intro k hk
        rw [hlbk k hk, hallbits k hk]
        simp
      have hzmod : ((2 ^ w - 1) &&&
          ((cget s.chunks j).vBytes >>> (addr % CHUNKSIZE))) % 2 ^ 32 = 0 := by
        rw [hz]
        simp
      have hgets : getT s w addr = none := by
        simp only [getT, if_neg hchunks0, hlookup, if_pos hzmod]
      refine ⟨⟨fun _ => hall, fun _ => hgets⟩, ?_⟩
      rintro ⟨k, hk, hne⟩
      exact absurd (hall k hk) hne
    · have hex : ∃ k, k < w ∧
          (cget s.chunks j).vBytes.testBit (addr % CHUNKSIZE + k) = true := by
        by_contra hno
        push_neg at hno
        apply hz
        apply (livebits_zero_iff w (addr % CHUNKSIZE)
          (cget s.chunks j).vBytes).mpr
        intro k hk
        have hb := hno k hk
        revert hb
        cases (cget s.chunks j).vBytes.testBit (addr % CHUNKSIZE + k) <;> simp
      obtain ⟨k0, hk0, htb⟩ := hex
      have hlive : ¬ ((2 ^ w - 1) &&&
          ((cget s.chunks j).vBytes >>> (addr % CHUNKSIZE))) % 2 ^ 32 = 0 := by
        rw [Nat.mod_eq_of_lt hltand]
        exact hz
      have hget : getT s w addr = some
          (readBytesLE (cget s.chunks j).data (addr % CHUNKSIZE) w) := by
        simp only [getT, if_neg hchunks0, hlookup, if_neg hlive]
      have hsome : logByte s (addr + k0) ≠ none := by
        rw [hlbk k0 hk0, if_pos htb]
        simp
      refine ⟨⟨fun h => ?_, fun hall => ?_⟩, fun _ => ⟨j, hs.1, hs.2, hget⟩⟩
      · rw [hget] at h
        cases h
      · exact absurd (hall k0 hk0) hsome

set_option maxRecDepth 8192 in
/-- C1 refutation: after a one-byte insert of 5 at address 0, a two-byte
`get` at address 0 returns a value (the payload word) even though byte 1 has
no valid logged content — `get` does not require every requested byte to be
valid. -/
theorem get_any_valid_counterexample :
    getT (insertT redologInit 1 0 5) 2 0 = some 5 ∧
    logByte (insertT redologInit 1 0 5) 1 = none := by
  decide

set_option maxRecDepth 8192 in
theorem get_spec_witness :
    wf (insertT redologInit 1 0 5) ∧
    ((2 : Nat) = 1 ∨ (2 : Nat) = 2 ∨ (2 : Nat) = 4 ∨ (2 : Nat) = 8) ∧
    (0 : Nat) % 2 = 0 ∧
    ((getT (insertT redologInit 1 0 5) 2 0 = none ↔
        ∀ k < 2, logByte (insertT redologInit 1 0 5) (0 + k) = none) ∧
      ((∃ k, k < 2 ∧ logByte (insertT redologInit 1 0 5) (0 + k) ≠ none) →
        ∃ j, j < (insertT redologInit 1 0 5).chunks.length ∧
          (cget (insertT redologInit 1 0 5).chunks j).bAddr =
            0 - 0 % CHUNKSIZE ∧
          getT (insertT redologInit 1 0 5) 2 0 = some
            (readBytesLE (cget (insertT redologInit 1 0 5).chunks j).data
              (0 % CHUNKSIZE) 2))) :=
  ⟨insert_wf redologInit wf_redologInit (by decide) 1 0 5, by decide,
    by decide,
    get_spec (insertT redologInit 1 0 5)
      (insert_wf redologInit wf_redologInit (by decide) 1 0 5) 2 0
      (by decide) (by decide)⟩

end RedoLog

namespace Dlist

open ExoTM

/-- On a quiescent engine, the `get_leq` search loop walks a sorted chain
and returns exactly the node holding the present key, together with that
node's validated orec value. -/
theorem get_leq_loop_finds (st : DlistState) (key : Nat)
    (hq : ∀ i < st.nodes.length, check_orec st.eng i ≠ END_OF_TIME) :
    ∀ (rest : List Nat) (curr ver next fuel : Nat),
    rest.length < fuel →
    next = (rest ++ [st.tail]).headD 0 →
    linked st.nodes (rest ++ [st.tail]) →
    (∀ i ∈ rest, i ≠ st.tail) →
    (∀ i ∈ rest, i < st.nodes.length) →
    List.Pairwise (fun a b => keyOf st.nodes a < keyOf st.nodes b) rest →
    (∃ j ∈ rest, keyOf st.nodes j = key) →
    ∃ j ∈ rest, keyOf st.nodes j = key ∧
      get_leq_loop st key curr ver next fuel =
        some (j, check_orec st.eng j) := by
  intro rest
  induction rest with
  | nil =>
    rintro curr ver next fuel hf hn hl ht hlt hp ⟨j, hj, hk⟩
    simp at hj
  | cons r rest' ih =>
    rintro curr ver next fuel hf hn hl ht hlt hp ⟨j, hj, hk⟩
    cases fuel with
    | zero => exact absurd hf (by simp)
    | succ f =>
      have hnr : next = r := by rw [hn]; rfl
      have hco : check_orec st.eng r ≠ END_OF_TIME :=
        hq r (hlt r (List.mem_cons_self r rest'))
      have hrt : r ≠ st.tail := ht r (List.mem_cons_self r rest')
      rw [hnr]
      by_cases hkr : keyOf st.nodes r = key
      · refine ⟨r, List.mem_cons_self r rest', hkr, ?_⟩
        simp only [get_leq_loop]
        rw [if_neg hrt, if_neg hco,
          if_neg (by rw [hkr]; exact lt_irrefl key), if_pos hkr]
      · have hj' : j ∈ rest' := by
          rcases List.mem_cons.mp hj with rfl | h
          · exact absurd hk hkr
          · exact h
        have hkey_r : keyOf st.nodes r < key := by
          have hrel := (List.pairwise_cons.mp hp).1 j hj'
          rw [hk] at hrel
          exact hrel
        have hl2 : linked st.nodes ((r :: rest') ++ [st.tail]) := hl
        have hl' : linked st.nodes (rest' ++ [st.tail]) ∧
            (nget st.nodes r).next = (rest' ++ [st.tail]).headD 0 := by
          cases rest' with
          | nil =>
            simp only [List.cons_append, List.nil_append, linked] at hl2
            exact ⟨trivial, hl2.1⟩
          | cons r2 rest'' =>
            simp only [List.cons_append, linked] at hl2
            exact ⟨hl2.2, hl2.1⟩
        obtain ⟨j2, hj2, hk2, hloop⟩ := ih r (check_orec st.eng r)
          ((nget st.nodes r).next) f (by simp at hf ⊢; omega) hl'.2 hl'.1
          (fun i hi => ht i (List.mem_cons_of_mem r hi))
          (fun i hi => hlt i (List.mem_cons_of_mem r hi))
          (List.pairwise_cons.mp hp).2 ⟨j, hj', hk⟩
        refine ⟨j2, List.mem_cons_of_mem r hj2, hk2, ?_⟩
        simp only [get_leq_loop]
        rw [if_neg hrt, if_neg hco, if_neg (by omega : ¬ key < keyOf st.nodes r),
          if_neg hkr]
        exact hloop

end Dlist

namespace Dlist

open ExoTM

/-- C6: `insert(k, v)` on the doubly-linked ordered map is insert-if-absent:
on a quiescent, well-formed sorted list already containing `k`, one insert
iteration returns false having performed no writes — the node store is
untouched, the only state change is the read step's published start time
(`ro_begin`/`ro_end`), the orec store is unchanged, and no orecs are left
acquired (the lock list is exactly what it was). -/
theorem insert_present_spec (st : DlistState) (mid : List Nat)
    (k v tR tW tE : Nat)
    (hlen : mid.length < st.nodes.length)
    (hhead : st.head < st.nodes.length)
    (hlink : linked st.nodes (st.head :: mid ++ [st.tail]))
    (htail : ∀ i ∈ mid, i ≠ st.tail)
    (hids : ∀ i ∈ mid, i < st.nodes.length)
    (hheadmem : st.head ∉ mid)
    (hsorted : List.Pairwise
      (fun a b => keyOf st.nodes a < keyOf st.nodes b) mid)
    (hpresent : ∃ j ∈ mid, keyOf st.nodes j = k)
    (hq : ∀ i < st.nodes.length, (oget st.eng.orecs i).curr ≤ tR)
    (htR : tR < END_OF_TIME) :
    insert st k v tR tW tE =
      some (false, { st with eng := ro_end (ro_begin tR st.eng) }) ∧
    (ro_end (ro_begin tR st.eng)).orecs = st.eng.orecs ∧
    (ro_end (ro_begin tR st.eng)).exo.locks = st.eng.exo.locks := by
  have hq1 : ∀ i < st.nodes.length,
      check_orec (ro_begin tR st.eng) i ≠ END_OF_TIME := by
    intro i hi
    have hle := hq i hi
    simp only [check_orec, ro_begin]
    rw [if_pos (Or.inl hle)]
    simp only [END_OF_TIME] at htR ⊢
    omega
  obtain ⟨j0, hj0, hk0⟩ := hpresent
  cases mid with
  | nil => simp at hj0
  | cons m0 mid' =>
    have hlink2 : (nget st.nodes st.head).next = m0 ∧
        linked st.nodes ((m0 :: mid') ++ [st.tail]) := by
      simp only [List.cons_append, linked] at hlink
      exact ⟨hlink.1, hlink.2⟩
    obtain ⟨j, hjmem, hjk, hloopeq⟩ := get_leq_loop_finds
      { st with eng := ro_begin tR st.eng } k hq1 (m0 :: mid') st.head
      (check_orec (ro_begin tR st.eng) st.head)
      ((nget st.nodes st.head).next) st.nodes.length hlen
      (by rw [hlink2.1]; rfl)
      hlink2.2 htail hids hsorted ⟨j0, hj0, hk0⟩
    have hget : get_leq st k tR =
        (some (j, check_orec (ro_begin tR st.eng) j),
          ro_end (ro_begin tR st.eng)) := by
      simp only [get_leq]
      rw [if_neg (hq1 st.head hhead)]
      rw [hloopeq]
    have hjh : j ≠ st.head := fun h => hheadmem (h ▸ hjmem)
    refine ⟨?_, rfl, rfl⟩
    simp only [insert, hget]
    rw [if_pos ⟨hjh, hjk⟩]

theorem insert_present_spec_witness :
    (([2] : List Nat).length < c6state.nodes.length ∧
     c6state.head < c6state.nodes.length ∧
     linked c6state.nodes (c6state.head :: [2] ++ [c6state.tail]) ∧
     (∀ i ∈ ([2] : List Nat), i ≠ c6state.tail) ∧
     (∀ i ∈ ([2] : List Nat), i < c6state.nodes.length) ∧
     c6state.head ∉ ([2] : List Nat) ∧
     List.Pairwise
       (fun a b => keyOf c6state.nodes a < keyOf c6state.nodes b) [2] ∧
     (∃ j ∈ ([2] : List Nat), keyOf c6state.nodes j = 5) ∧
     (∀ i < c6state.nodes.length, (oget c6state.eng.orecs i).curr ≤ 10) ∧
     10 < END_OF_TIME) ∧
    (insert c6state 5 9 10 11 12 =
      some (false, { c6state with eng := ro_end (ro_begin 10 c6state.eng) }) ∧
     (ro_end (ro_begin 10 c6state.eng)).orecs = c6state.eng.orecs ∧
     (ro_end (ro_begin 10 c6state.eng)).exo.locks =
       c6state.eng.exo.locks) :=
  ⟨⟨by decide, by decide, by decide, by decide, by decide, by decide,
    by decide, by decide, by decide, by decide⟩,
   insert_present_spec c6state [2] 5 9 10 11 12 (by decide) (by decide)
     (by decide) (by decide) (by decide) (by decide) (by decide) (by decide)
     (by decide) (by decide)⟩

end Dlist
